import Mathlib

/-!
# MenuV2 — the menu compiler and the navigation engine of `Menu.cpp` / `Menu.h`

Modelling conventions.

* An Arduino `String` is a `List Char`; every `Char` stands for one byte of the string, and
  no byte inside a string is NUL (a C string ends at its first NUL).
* `int` values are unbounded (`Nat` where the code can only produce non-negative values,
  `Int` otherwise): a source long enough to overflow an `int` does not fit in the memory
  of a board.  The two `byte` fields of a node (`parent`, `eldest`) are stored modulo 256.
  The debounce counter of `readDigitalKey` is the exception: it is an `int` of 16 bits, as on
  the AVR boards, and decrementing it at `INT_MIN` is undefined behaviour.
* The hardware is a sequence of readings: `analogRead n` and `digitalRead pin n` are the
  values returned by the `n`-th call; an analog reading lies in `[0, 1023]`.  In the same way
  `readKey n` and `millis n` are the values returned by the `n`-th call of `readKey()` and of
  `millis()`; `unsigned long` arithmetic is modulo `2^32`.
* An Arduino `String` used as a condition is true when it has a buffer, which every string
  of the model has.
* Undefined behaviour (an access outside `nodes[]` or `stack[]`, leaving a value-returning
  function without `return`, the overflow of the debounce counter) and non-termination are
  both the result `none`.
* Loops are structural recursions on an iteration count; where the count is not known in
  advance it is a fuel that the loop cannot exhaust unless it runs forever.
-/

namespace MenuV2

/-! ## Arduino `String` primitives -/

/-- `String::charAt(loc)`: a read at or past the end of the string gives the NUL character. -/
def charAt (s : List Char) (loc : Nat) : Char := s.getD loc (Char.ofNat 0)

/-- `String::substring(left, right)`: the bounds are swapped when out of order, the result is
empty when the left bound is past the end, and the right bound is clipped to the length. -/
def substring (s : List Char) (left right : Nat) : List Char :=
  let l := if left > right then right else left
  let r := if left > right then left else right
  if l ≥ s.length then []
  else (s.drop l).take ((if r > s.length then s.length else r) - l)

/-- The white space skipped by `atol` (`isspace` in the C locale). -/
def isSpace (c : Char) : Bool :=
  c.toNat = 32 || (9 ≤ c.toNat && c.toNat ≤ 13)

/-- The digit loop of `atol`: accumulate decimal digits, stop at the first other character. -/
def digitsVal : Nat → List Char → Nat
  | acc, [] => acc
  | acc, c :: cs => if c.isDigit then digitsVal (acc * 10 + (c.toNat - 48)) cs else acc

/-- `atol`: optional white space, optional sign, then decimal digits. -/
def atol (s : List Char) : Int :=
  match s.dropWhile isSpace with
  | [] => 0
  | c :: cs =>
    if c = '-' then -((digitsVal 0 cs : Nat) : Int)
    else if c = '+' then ((digitsVal 0 cs : Nat) : Int)
    else ((digitsVal 0 (c :: cs) : Nat) : Int)

/-- `String::toInt()`. -/
def toInt (s : List Char) : Int := atol s

/-! ## The node table -/

/-- `struct node` of `Menu.h`; `parent` and `eldest` are `byte` fields. -/
structure node where
  starts : Nat
  ends : Nat
  parent : Nat
  eldest : Nat
  action : Int
deriving DecidableEq

/-- One entry of the table as `calloc` returns it: every field zero. -/
def node.zero : node := ⟨0, 0, 0, 0, 0⟩

/-- Conversion of an `int` to a `byte` on assignment. -/
def toByte (n : Nat) : Nat := n % 256

/-! ## `Menu::menuParse` -/

/-- The local variables of `menuParse` together with the node table it fills. -/
structure ParseState where
  nodes : List node
  stack : List Nat
  stackPtr : Nat
  pos : Nat
  item : Nat
  curLevel : Nat

/-- Line 99, `while(MYitems.charAt(pos) != ':') pos++;` — past the end every read is NUL, so
the loop that has not stopped after `fuel > length` steps never stops. -/
def scanColon (MYitems : List Char) : Nat → Nat → Option Nat
  | 0, _ => none
  | fuel + 1, pos =>
    if charAt MYitems pos ≠ ':' then scanColon MYitems fuel (pos + 1) else some pos

/-- Line 105, `while(MYitems.charAt(pos) == '-') { pos++; nextLevel++; }`. -/
def countDashes (MYitems : List Char) : Nat → Nat → Nat → Option (Nat × Nat)
  | 0, _, _ => none
  | fuel + 1, pos, nextLevel =>
    if charAt MYitems pos = '-' then countDashes MYitems fuel (pos + 1) (nextLevel + 1)
    else some (pos, nextLevel)

/-- Lines 111–113, `stack[stackPtr] = 0; stackPtr++;` repeated once per generation. -/
def popStack : Nat → List Nat → Nat → Option (List Nat × Nat)
  | 0, stack, stackPtr => some (stack, stackPtr)
  | n + 1, stack, stackPtr =>
    if stackPtr < stack.length then popStack n (stack.set stackPtr 0) (stackPtr + 1) else none

/-- Lines 106–109: the next item is deeper, the current item becomes a parent. -/
def pushParent (st : ParseState) (nd : node) (nextLevel : Nat) :
    Option (node × List Nat × Nat) :=
  if nextLevel > st.curLevel then
    if 0 < st.stackPtr ∧ st.stackPtr - 1 < st.stack.length then
      some ({ nd with eldest := toByte (st.item + 1) },
            st.stack.set (st.stackPtr - 1) st.item, st.stackPtr - 1)
    else none
  else some (nd, st.stack, st.stackPtr)

/-- Lines 110–114: the next item is shallower, parents are pulled off the stack. -/
def pullParents (curLevel nextLevel : Nat) (stack : List Nat) (stackPtr : Nat) :
    Option (List Nat × Nat) :=
  if nextLevel < curLevel then popStack (curLevel - nextLevel) stack stackPtr
  else some (stack, stackPtr)

/-- One iteration of the `while(pos < len)` loop, lines 97–115. -/
def parseItem (MYitems : List Char) (st : ParseState) : Option ParseState :=
  if st.item < st.nodes.length then
    match scanColon MYitems (MYitems.length + 1) st.pos with
    | none => none
    | some pos =>
      match st.stack.get? st.stackPtr with
      | none => none
      | some top =>
        let nd : node :=
          { starts := st.pos, ends := pos, parent := toByte top, eldest := 1,
            action := toInt (substring MYitems (pos + 1) (pos + 4)) }
        match countDashes MYitems (MYitems.length + 1) (pos + 4) 0 with
        | none => none
        | some (pos', nextLevel) =>
          match pushParent st nd nextLevel with
          | none => none
          | some (nd', stack1, stackPtr1) =>
            match pullParents st.curLevel nextLevel stack1 stackPtr1 with
            | none => none
            | some (stack2, stackPtr2) =>
              some { nodes := st.nodes.set st.item nd', stack := stack2, stackPtr := stackPtr2,
                     pos := pos', item := st.item + 1, curLevel := nextLevel }
  else none

/-- The loop `while(pos < len)`: `pos` grows by at least 4 per iteration. -/
def parseLoop (MYitems : List Char) : Nat → ParseState → Option ParseState
  | 0, st => if st.pos < MYitems.length then none else some st
  | fuel + 1, st =>
    if st.pos < MYitems.length then
      match parseItem MYitems st with
      | none => none
      | some st' => parseLoop MYitems fuel st'
    else some st

/-- `Menu::menuParse`, lines 87–118: returns the filled table and `lastNode`. -/
def menuParse (MYitems : List Char) (nodes : List node) : Option (List node × Nat) :=
  match parseLoop MYitems (MYitems.length + 1)
      { nodes := nodes, stack := List.replicate 8 0, stackPtr := 7, pos := 1, item := 1,
        curLevel := 1 } with
  | none => none
  | some st => some (st.nodes, st.item - 1)

/-! ## The menu object -/

/-- A call received by a display driver; `dev` is 1 for `LiquidCrystal`, 2 for `LiquidTWI`. -/
inductive LcdOp where
  | clear (dev : Int)
  | print (dev : Int) (col row : Int) (msg : List Char)
deriving DecidableEq

/-- The members of `class Menu` that the compiler, the navigation and the display code use;
`lcd` is the trace of the calls made to the display drivers, oldest first. -/
structure Menu where
  MYitems : List Char
  nodes : List node
  currentNode : Nat
  lastNode : Nat
  LCDcol : Int
  LCDrows : Int
  handelingLcd : Bool
  LcdId : Int
  lcdNeedsUpdate : Bool
  lcd : List LcdOp
deriving DecidableEq

/-- The key codes `UP`, `DOWN`, `LEFT`, `RIGHT` of `Menu.h`. -/
def UP : Int := 1
def DOWN : Int := 2
def LEFT : Int := 3
def RIGHT : Int := 4

/-- `Menu::Menu(String items)`, lines 45–57. -/
def Menu.construct (items : List Char) : Option Menu :=
  let count := items.count ':'
  let nodes := (List.replicate (count + 1) node.zero).set 0 { node.zero with eldest := 1 }
  match menuParse items nodes with
  | none => none
  | some (nodes', lastNode) =>
    some { MYitems := items, nodes := nodes', currentNode := 1, lastNode := lastNode,
           LCDcol := 16, LCDrows := 2, handelingLcd := false, LcdId := 0,
           lcdNeedsUpdate := true, lcd := [] }

/-! ## Tree queries -/

/-- `Menu::parent`. -/
def Menu.parent (m : Menu) (n : Nat) : Option Nat := (m.nodes.get? n).map node.parent

/-- `Menu::eldest`. -/
def Menu.eldest (m : Menu) (n : Nat) : Option Nat := (m.nodes.get? n).map node.eldest

/-- `Menu::label`. -/
def Menu.label (m : Menu) (n : Nat) : Option (List Char) :=
  (m.nodes.get? n).map fun nd => substring m.MYitems nd.starts nd.ends

/-- `Menu::getAction`. -/
def Menu.getAction (m : Menu) : Option Int := (m.nodes.get? m.currentNode).map node.action

/-- `Menu::getCurrentItem`. -/
def Menu.getCurrentItem (m : Menu) : Nat := m.currentNode

/-- The loop of `previousSibling`, `for (i = node-1; i > 0; i--)`, entered at `i`; leaving it
means leaving the function without a `return`. -/
def Menu.prevLoop (m : Menu) (node : Nat) : Nat → Option Nat
  | 0 => none
  | i + 1 =>
    match m.parent (i + 1), m.parent node with
    | some pi, some pn => if pi = pn then some (i + 1) else Menu.prevLoop m node i
    | _, _ => none

/-- `Menu::previousSibling`, lines 145–150. -/
def Menu.previousSibling (m : Menu) (node : Nat) : Option Nat :=
  match m.parent node with
  | none => none
  | some p =>
    match m.eldest p with
    | none => none
    | some e => if e = node then some node else m.prevLoop node (node - 1)

/-- The loop of `nextSibling`, `for (i = node+1; i <= lastNode; i++)`, with `k` iterations
left and the loop variable at `i`. -/
def Menu.nextLoop (m : Menu) (node : Nat) : Nat → Nat → Option Nat
  | 0, _ => some node
  | k + 1, i =>
    match m.parent i, m.parent node with
    | some pi, some pn => if pi = pn then some i else Menu.nextLoop m node k (i + 1)
    | _, _ => none

/-- `Menu::nextSibling`, lines 156–161. -/
def Menu.nextSibling (m : Menu) (node : Nat) : Option Nat :=
  m.nextLoop node (m.lastNode - node) (node + 1)

/-- The loop of `rank`, `while (child != node)`: the chain of next siblings is strictly
increasing up to `lastNode` until it stalls, so more than `lastNode + 1` tests mean that the
loop never ends. -/
def Menu.rankLoop (m : Menu) (node : Nat) : Nat → Nat → Nat → Option Nat
  | 0, _, _ => none
  | fuel + 1, child, rankOfNode =>
    if child ≠ node then
      match m.nextSibling child with
      | none => none
      | some c => Menu.rankLoop m node fuel c (rankOfNode + 1)
    else some rankOfNode

/-- `Menu::rank`, lines 166–174. -/
def Menu.rank (m : Menu) (node : Nat) : Option Nat :=
  match m.parent node with
  | none => none
  | some p =>
    match m.eldest p with
    | none => none
    | some child => m.rankLoop node (m.lastNode + 2) child 1

/-- The loop of `siblingsCount`, `for (i = child; i <= lastNode; i++)`. -/
def Menu.countLoop (m : Menu) (parentOfNode : Nat) : Nat → Nat → Nat → Option Nat
  | 0, _, count => some count
  | k + 1, i, count =>
    match m.parent i with
    | none => none
    | some pi =>
      Menu.countLoop m parentOfNode k (i + 1) (if pi = parentOfNode then count + 1 else count)

/-- `Menu::siblingsCount`, lines 179–185. -/
def Menu.siblingsCount (m : Menu) (node : Nat) : Option Nat :=
  match m.parent node with
  | none => none
  | some parentOfNode =>
    match m.eldest parentOfNode with
    | none => none
    | some child => m.countLoop parentOfNode (m.lastNode + 1 - child) child 0

/-! ## The state machine and the display -/

/-- `Menu::restart`. -/
def Menu.restart (m : Menu) : Menu := { m with currentNode := 1 }

/-- `Menu::updated`. -/
def Menu.updated (m : Menu) : Menu := { m with lcdNeedsUpdate := false }

/-- `Menu::needsUpdate`. -/
def Menu.needsUpdate (m : Menu) : Bool := m.lcdNeedsUpdate

/-- `Menu::updateLcd`. -/
def Menu.updateLcd (m : Menu) : Menu := { m with lcdNeedsUpdate := true }

/-- Line 297 of `lcdLine`, `child = nextSibling(child)` repeated `k` times. -/
def Menu.iterNext (m : Menu) : Nat → Nat → Option Nat
  | 0, child => some child
  | k + 1, child =>
    match m.nextSibling child with
    | none => none
    | some c => Menu.iterNext m k c

/-- `Menu::lcdLine`, lines 291–300. -/
def Menu.lcdLine (m : Menu) (requestedLine : Int) : Option (List Char) :=
  match m.rank m.currentNode with
  | none => none
  | some currentRank =>
    match m.siblingsCount m.currentNode with
    | none => none
    | some sc =>
      if requestedLine + 1 > (sc : Int) then some []
      else
        match m.parent m.currentNode with
        | none => none
        | some p =>
          match m.eldest p with
          | none => none
          | some child =>
            let targetRank : Int :=
              if (currentRank : Int) ≥ m.LCDrows then
                requestedLine + 1 + ((currentRank : Int) - m.LCDrows)
              else requestedLine + 1
            match m.iterNext (targetRank - 1).toNat child with
            | none => none
            | some child' =>
              match m.label child' with
              | none => none
              | some l => if (currentRank : Int) = targetRank then some ('>' :: l) else some (' ' :: l)

/-- `Menu::toLCD`: `setCursor(col, row)` then `print(msg)` on the display in use (the function
is declared `int` and returns nothing; no caller reads its result). -/
def Menu.toLCD (m : Menu) (msg : List Char) (col row : Int) : Menu :=
  if m.LcdId = 1 then { m with lcd := m.lcd ++ [LcdOp.print 1 col row msg] }
  else if m.LcdId = 2 then { m with lcd := m.lcd ++ [LcdOp.print 2 col row msg] }
  else m

/-- `Menu::clearLCD`. -/
def Menu.clearLCD (m : Menu) : Menu :=
  if m.LcdId = 1 then { m with lcd := m.lcd ++ [LcdOp.clear 1] }
  else if m.LcdId = 2 then { m with lcd := m.lcd ++ [LcdOp.clear 2] }
  else m

/-- Line 329 of `showMenu`, `for (i = 0; i < LCDrows; i++) toLCD(lcdLine(i), 0, i);`, with
`k` iterations left and the loop variable at `i`. -/
def Menu.showLoop : Nat → Int → Menu → Option Menu
  | 0, _, m => some m
  | k + 1, i, m =>
    match m.lcdLine i with
    | none => none
    | some line => Menu.showLoop k (i + 1) (m.toLCD line 0 i)

/-- `Menu::showMenu`, lines 326–333 (the `delay(100)` is not modelled). -/
def Menu.showMenu (m : Menu) : Option Menu :=
  if m.lcdNeedsUpdate then
    match Menu.showLoop m.LCDrows.toNat 0 m.clearLCD with
    | none => none
    | some m' => some { m' with lcdNeedsUpdate := false }
  else some m

/-- Lines 535–539 of `update`: raise the refresh flag when the cursor moved, repaint when the
library owns the display, return 0. -/
def Menu.refresh (m : Menu) (node : Nat) : Option (Menu × Int) :=
  if m.currentNode ≠ node then
    if m.handelingLcd then
      match Menu.showMenu { m with lcdNeedsUpdate := true } with
      | none => none
      | some m' => some (m', 0)
    else some ({ m with lcdNeedsUpdate := true }, 0)
  else some (m, 0)

/-- Line 527, `if (key == UP) currentNode = previousSibling(currentNode);`. -/
def Menu.keyUp (m : Menu) (key : Int) : Option Menu :=
  if key = UP then
    match m.previousSibling m.currentNode with
    | none => none
    | some n => some { m with currentNode := n }
  else some m

/-- Line 528, `if (key == DOWN) currentNode = nextSibling(currentNode);`. -/
def Menu.keyDown (m : Menu) (key : Int) : Option Menu :=
  if key = DOWN then
    match m.nextSibling m.currentNode with
    | none => none
    | some n => some { m with currentNode := n }
  else some m

/-- Line 529, `if (key == LEFT) if (parent(currentNode) != 0) currentNode = parent(currentNode);`. -/
def Menu.keyLeft (m : Menu) (key : Int) : Option Menu :=
  if key = LEFT then
    match m.parent m.currentNode with
    | none => none
    | some p => if p ≠ 0 then some { m with currentNode := p } else some m
  else some m

/-- `Menu::update(int key)`, lines 525–540: the new state and the returned action code. -/
def Menu.update (m : Menu) (key : Int) : Option (Menu × Int) :=
  match m.keyUp key with
  | none => none
  | some m1 =>
    match m1.keyDown key with
    | none => none
    | some m2 =>
      match m2.keyLeft key with
      | none => none
      | some m3 =>
        if key = RIGHT then
          match m3.getAction with
          | none => none
          | some action =>
            if action > 0 then some (m3, action)
            else
              match m3.eldest m3.currentNode with
              | none => none
              | some e =>
                if e ≠ 1 then Menu.refresh { m3 with currentNode := e } m.currentNode
                else Menu.refresh m3 m.currentNode
        else Menu.refresh m3 m.currentNode

/-- `Menu::handleLcd(LiquidCrystal*, columns, rows)`, lines 253–260. -/
def Menu.handleLcd (m : Menu) (columns rows : Int) : Option Menu :=
  Menu.showMenu { m with LCDcol := columns, LCDrows := rows, LcdId := 1, handelingLcd := true }

/-- `Menu::handleLcd(LiquidTWI*, columns, rows)`, lines 267–274. -/
def Menu.handleLcdTWI (m : Menu) (columns rows : Int) : Option Menu :=
  Menu.showMenu { m with LCDcol := columns, LCDrows := rows, LcdId := 2, handelingLcd := true }

/-- `Menu::defineLcd`, lines 280–284. -/
def Menu.defineLcd (m : Menu) (columns rows : Int) : Menu :=
  { m with LCDcol := columns, LCDrows := rows, handelingLcd := false }

/-- A call of the public interface that moves the cursor: `update(key)` or `restart()`. -/
inductive Call where
  | update (key : Int)
  | restart
deriving DecidableEq

/-- The state after a sequence of calls, made one after the other. -/
def Menu.run (m : Menu) : List Call → Option Menu
  | [] => some m
  | Call.update key :: cs =>
    match m.update key with
    | none => none
    | some r => Menu.run r.1 cs
  | Call.restart :: cs => Menu.run m.restart cs

/-! ## Well-formed menu sources

The grammar of the comment above `menuParse` (lines 60–77): items
`<dashes><label>:<3 digits>` written one after the other. -/

/-- One item of a menu source. -/
structure Item where
  dashes : Nat
  label : List Char
  digits : List Char
deriving DecidableEq

/-- The text of one item. -/
def Item.text (it : Item) : List Char :=
  List.replicate it.dashes '-' ++ (it.label ++ ':' :: it.digits)

/-- The source string of a list of items: their texts with no separator. -/
def source : List Item → List Char
  | [] => []
  | it :: rest => it.text ++ source rest

/-- The decimal value of the digits of an item. -/
def Item.value (it : Item) : Nat :=
  it.digits.foldl (fun acc c => acc * 10 + (c.toNat - 48)) 0

/-- The item with 1-based index `i`. -/
def itemAt (its : List Item) (i : Nat) : Item := its.getD (i - 1) ⟨0, [], []⟩

/-- The nesting level (dash count) of item `i`, 1-based; 0 outside `1..its.length`. -/
def level (its : List Item) : Nat → Nat
  | 0 => 0
  | i + 1 => (its.getD i ⟨0, [], []⟩).dashes

/-- An item is well formed: one to eight dashes, a label without `:` that does not start
with a dash, exactly three decimal digits. -/
@[reducible] def Item.wf (it : Item) : Prop :=
  1 ≤ it.dashes ∧ it.dashes ≤ 8 ∧ ':' ∉ it.label ∧ it.label.head? ≠ some '-' ∧
    it.digits.length = 3 ∧ ∀ c ∈ it.digits, c.isDigit = true

/-- A source is well formed: at least one item, the first at level 1, every item well
formed, and the level rises by at most one from an item to the next. -/
@[reducible] def WellFormed (its : List Item) : Prop :=
  (its.head?.map Item.dashes = some 1) ∧ (∀ it ∈ its, it.wf) ∧
    ∀ i, i < its.length - 1 → level its (i + 2) ≤ level its (i + 1) + 1

/-- The position in the source of the first character of the label of item `i`. -/
def labelStart (its : List Item) (i : Nat) : Nat :=
  (source (its.take (i - 1))).length + level its i

/-- The largest index `j` in `1..k` with `f j = L`, or 0 when there is none. -/
def lastAt (f : Nat → Nat) (L : Nat) : Nat → Nat
  | 0 => 0
  | k + 1 => if f (k + 1) = L then k + 1 else lastAt f L k

/-- The item that encloses item `i`: the last earlier item one level up, 0 at top level. -/
def encl (its : List Item) (i : Nat) : Nat := lastAt (level its) (level its i - 1) (i - 1)

/-- The record that the compiler stores for item `i`. -/
def expNode (its : List Item) (i : Nat) : node :=
  { starts := labelStart its i
    ends := labelStart its i + (itemAt its i).label.length
    parent := toByte (encl its i)
    eldest := if level its (i + 1) > level its i then toByte (i + 1) else 1
    action := ((itemAt its i).value : Int) }

/-- The table that the compiler builds: the sentinel, then one record per item. -/
def expNodes (its : List Item) : List node :=
  ⟨0, 0, 0, 1, 0⟩ :: (List.range its.length).map fun k => expNode its (k + 1)

/-- The menu object holds the tree compiled from `src`; the cursor and the display members are
left free. -/
def Menu.compiledFrom (m : Menu) (src : List Char) : Prop :=
  ∃ m0, Menu.construct src = some m0 ∧ m.MYitems = m0.MYitems ∧ m.nodes = m0.nodes ∧
    m.lastNode = m0.lastNode

/-! ## Reading the keys -/

/-- The Arduino constant `LOW`. -/
def LOW : Int := 0

/-- Lines 434–435 of `readAnalogKey`, the mapping of the averaged reading to a key:
`if (average > 1000) return 0; else return int(average / 256) + 1;` (`/` of C++ truncates). -/
def analogKey (average : Int) : Int :=
  if average > 1000 then 0 else Int.tdiv average 256 + 1

/-- The loop of `readAnalogKey`, `for (i = 0; i < 300; i++)`, with `k` iterations left;
`analogRead n` is the value returned by the `n`-th call of `analogRead(MYANALOG)` and `n` the
number of calls made so far. -/
def averageLoop (analogRead : Nat → Int) : Nat → Nat → Int → Int
  | 0, _, average => average
  | k + 1, n, average =>
    averageLoop analogRead k (n + 1) (Int.tdiv (average + analogRead n) 2)

/-- `Menu::readAnalogKey`, lines 428–436. -/
def readAnalogKey (analogRead : Nat → Int) : Int :=
  analogKey (averageLoop analogRead 300 1 (analogRead 0))

/-- The least value of an `int`, `INT_MIN`, where an `int` has 16 bits, as on the AVR boards
for which the library is written. -/
def INT_MIN : Int := -32768

/-- The loop of `readDigitalKey`, `while (count < 500)`: `samples k` is the value of the
`k`-th `digitalRead(pinKey)` of the loop and `k` the number of samples read so far; the result
is the number of samples read when the loop is left.  There is no result when the fuel runs
out, nor when `count--` is reached with `count` at `INT_MIN`: the overflow of an `int` is
undefined behaviour (`count++` cannot overflow, `count` being below 500). -/
def debounceLoop (stateOld : Int) (samples : Nat → Int) : Nat → Nat → Int → Option Nat
  | 0, _, _ => none
  | fuel + 1, k, count =>
    if count < 500 then
      if samples k = stateOld then debounceLoop stateOld samples fuel (k + 1) (count + 1)
      else if INT_MIN < count then debounceLoop stateOld samples fuel (k + 1) (count - 1)
      else none
    else some k

/-- Lines 399–402 of `readDigitalKey`: the four tests
`if (digitalRead(PIN) == LOW) { pinKey = PIN; key = KEY; }`, given the four values read; the
result is the pair `(pinKey, key)`. -/
def selectKey (MYUP MYDOWN MYLEFT MYRIGHT : Int) (up down left right : Int) : Int × Int :=
  let s0 : Int × Int := (0, 0)
  let s1 := if up = LOW then (MYUP, UP) else s0
  let s2 := if down = LOW then (MYDOWN, DOWN) else s1
  let s3 := if left = LOW then (MYLEFT, LEFT) else s2
  if right = LOW then (MYRIGHT, RIGHT) else s3

/-- `Menu::readDigitalKey`, lines 395–415: `digitalRead pin n` is the value returned by the
`n`-th call of `digitalRead` when it is made on `pin`; the result is the key returned and the
number of calls of `digitalRead` made, `none` when the debounce loop has no result. -/
def readDigitalKey (MYUP MYDOWN MYLEFT MYRIGHT : Int) (digitalRead : Int → Nat → Int)
    (fuel : Nat) : Option (Int × Nat) :=
  let sel := selectKey MYUP MYDOWN MYLEFT MYRIGHT (digitalRead MYUP 0) (digitalRead MYDOWN 1)
    (digitalRead MYLEFT 2) (digitalRead MYRIGHT 3)
  if sel.2 > 0 then
    match debounceLoop (digitalRead sel.1 4) (fun k => digitalRead sel.1 (5 + k)) fuel 0 0 with
    | none => none
    | some k => some (sel.2, 5 + k)
  else some (sel.2, 4)

/-- The loop `while (readKey() == key) {}` of `wasPressed`: `readKey n` is the value returned by
the `n`-th call of `readKey()` and `n` the number of calls made so far; the result is the
number of calls made when the loop is left, `none` when the fuel runs out. -/
def releaseLoop (readKey : Nat → Int) (key : Int) : Nat → Nat → Option Nat
  | 0, _ => none
  | fuel + 1, n =>
    if readKey n = key then releaseLoop readKey key fuel (n + 1) else some (n + 1)

/-- `Menu::wasPressed`, lines 489–495, called when `n` samples have been read: the value
returned and the number of samples read at the return. -/
def wasPressed (readKey : Nat → Int) (key : Int) (fuel n : Nat) : Option (Bool × Nat) :=
  if readKey n = key then
    match releaseLoop readKey key fuel (n + 1) with
    | none => none
    | some n' => some (true, n')
  else some (false, n + 1)

/-- The values returned by `c` calls of `wasPressed(key)` made one after the other, the first
when `n` samples have been read. -/
def wasPressedCalls (readKey : Nat → Int) (key : Int) (fuel : Nat) :
    Nat → Nat → Option (List Bool)
  | 0, _ => some []
  | c + 1, n =>
    match wasPressed readKey key fuel n with
    | none => none
    | some r =>
      match wasPressedCalls readKey key fuel c r.2 with
      | none => none
      | some bs => some (r.1 :: bs)

/-- The members of `class Menu` that hold the key codes of a host keypad, `Menu.h` lines
141–148, and the two flags that `mapKeys` sets. -/
structure KeyMap where
  MYCHARUP : Char
  MYCHARDOWN : Char
  MYCHARLEFT : Char
  MYCHARRIGHT : Char
  MYINTUP : Int
  MYINTDOWN : Int
  MYINTLEFT : Int
  MYINTRIGHT : Int
  handelingSwitches : Bool
  keysAreIntegers : Bool

/-- `Menu::mapKeys(char UP, char DOWN, char LEFT, char RIGHT)`, lines 370–377. -/
def KeyMap.mapKeysChar (km : KeyMap) (up down left right : Char) : KeyMap :=
  { km with MYCHARUP := up, MYCHARDOWN := down, MYCHARLEFT := left, MYCHARRIGHT := right, handelingSwitches := false, keysAreIntegers := false }

/-- `Menu::mapKeys(int UP, int DOWN, int LEFT, int RIGHT)`, lines 383–390. -/
def KeyMap.mapKeys (km : KeyMap) (up down left right : Int) : KeyMap :=
  { km with MYINTUP := up, MYINTDOWN := down, MYINTLEFT := left, MYINTRIGHT := right, handelingSwitches := false, keysAreIntegers := true }

/-- One line of `updateWith`, `if (key == CODE) action = update(K);`, on the state and the
value of `action` before it; `hit` is the value of the test. -/
def Menu.onCode (s : Menu × Int) (hit : Bool) (k : Int) : Option (Menu × Int) :=
  if hit then s.1.update k else some s

/-- `Menu::updateWith(char key)`, lines 554–561. -/
def Menu.updateWithChar (m : Menu) (km : KeyMap) (key : Char) : Option (Menu × Int) :=
  (Menu.onCode (m, 0) (decide (key = km.MYCHARUP)) UP).bind fun s1 =>
    (Menu.onCode s1 (decide (key = km.MYCHARDOWN)) DOWN).bind fun s2 =>
      (Menu.onCode s2 (decide (key = km.MYCHARLEFT)) LEFT).bind fun s3 =>
        Menu.onCode s3 (decide (key = km.MYCHARRIGHT)) RIGHT

/-- `Menu::updateWith(int key)`, lines 567–574. -/
def Menu.updateWith (m : Menu) (km : KeyMap) (key : Int) : Option (Menu × Int) :=
  (Menu.onCode (m, 0) (decide (key = km.MYINTUP)) UP).bind fun s1 =>
    (Menu.onCode s1 (decide (key = km.MYINTDOWN)) DOWN).bind fun s2 =>
      (Menu.onCode s2 (decide (key = km.MYINTLEFT)) LEFT).bind fun s3 =>
        Menu.onCode s3 (decide (key = km.MYINTRIGHT)) RIGHT

/-- The value of an Arduino `String` as a condition (`operator StringIfHelperType`): true
when the string has a buffer.  Every string of the model has one; a string whose allocation
failed is not modelled. -/
def stringTruth (_s : List Char) : Bool := true

/-- The loop of `setCurrentItem`, `for (i = 1; i <= lastNode; i++)`, with `k` iterations left.
The test `label(i) = theLabel` is an assignment: it overwrites the temporary that `label(i)`
returns with `theLabel`, and its value is that of the assigned string. -/
def Menu.setLoop (m : Menu) (theLabel : List Char) : Nat → Nat → Nat → Option Nat
  | 0, _, foundAt => some foundAt
  | k + 1, i, foundAt =>
    match m.label i with
    | none => none
    | some _ =>
      if stringTruth theLabel then Menu.setLoop m theLabel k (i + 1) i
      else Menu.setLoop m theLabel k (i + 1) foundAt

/-- `Menu::setCurrentItem`, lines 197–203. -/
def Menu.setCurrentItem (m : Menu) (theLabel : List Char) : Option Menu :=
  match m.setLoop theLabel m.lastNode 1 0 with
  | none => none
  | some foundAt => if foundAt > 0 then some { m with currentNode := foundAt } else some m

/-- The static variables of `readKeyWithRepeat`, lines 447–449; `chrono` is an
`unsigned long` of 32 bits. -/
structure RepeatState where
  repeating : Bool
  chrono : Nat
  key : Int
deriving DecidableEq

/-- The difference `millis() - chrono` in `unsigned long` arithmetic. -/
def elapsed (now chrono : Nat) : Nat :=
  (now % 4294967296 + 4294967296 - chrono % 4294967296) % 4294967296

/-- The conversion of an `int` operand to `unsigned long` in a comparison. -/
def toULong (x : Int) : Nat := (x % 4294967296).toNat

/-- Line 456, `while ((!repeating) && (millis() - chrono < sensitivity)) {}`, entered with
`repeating` false: `millis n` is the value returned by the `n`-th call of `millis()` and `nm`
the number of calls made so far; the result is the number of calls made when the loop is left,
`none` when the fuel runs out. -/
def waitLoop (millis : Nat → Nat) (chrono : Nat) (sensitivity : Int) : Nat → Nat → Option Nat
  | 0, _ => none
  | fuel + 1, nm =>
    if elapsed (millis nm) chrono < toULong sensitivity then
      waitLoop millis chrono sensitivity fuel (nm + 1)
    else some (nm + 1)

/-- The loop `while (true)` of `readKeyWithRepeat`, lines 455–476: `tempKey` is the last value
sampled, `nk` and `nm` are the numbers of calls of `readKey()` and `millis()` made so far; the
result is the value returned, the static variables, and the numbers of calls at the return. -/
def repeatLoop (readKey : Nat → Int) (millis : Nat → Nat) (delayForRepeat sensitivity : Int) :
    Nat → RepeatState → Int → Nat → Nat → Option (Int × RepeatState × Nat × Nat)
  | 0, _, _, _, _ => none
  | fuel + 1, st, tempKey, nk, nm =>
    match (if st.repeating then some nm
      else waitLoop millis st.chrono sensitivity (fuel + 1) nm) with
    | none => none
    | some nm1 =>
      if readKey nk = 0 then
        some (tempKey, ⟨false, millis nm1 % 4294967296, 0⟩, nk + 1, nm1 + 1)
      else if st.repeating = false ∧ elapsed (millis nm1) st.chrono ≥ toULong delayForRepeat then
        some (readKey nk, ⟨true, millis (nm1 + 1) % 4294967296, readKey nk⟩, nk + 1, nm1 + 2)
      else if st.repeating = true ∧ elapsed (millis nm1) st.chrono ≥ toULong sensitivity then
        some (readKey nk, ⟨true, millis (nm1 + 1) % 4294967296, readKey nk⟩, nk + 1, nm1 + 2)
      else repeatLoop readKey millis delayForRepeat sensitivity fuel st (readKey nk) (nk + 1)
        (nm1 + 1)

/-- `Menu::readKeyWithRepeat`, lines 446–477, called with the static variables `st` when
`nk` calls of `readKey()` and `nm` calls of `millis()` have been made. -/
def readKeyWithRepeat (readKey : Nat → Int) (millis : Nat → Nat)
    (delayForRepeat sensitivity : Int) (fuel : Nat) (st : RepeatState) (nk nm : Nat) :
    Option (Int × RepeatState × Nat × Nat) :=
  if readKey nk ≠ st.key then
    repeatLoop readKey millis delayForRepeat sensitivity fuel
      ⟨st.repeating, millis nm % 4294967296, st.key⟩ (readKey nk) (nk + 1) (nm + 1)
  else repeatLoop readKey millis delayForRepeat sensitivity fuel st (readKey nk) (nk + 1) nm

/-- The state of the static variables before the first call. -/
def RepeatState.init : RepeatState := ⟨false, 0, 0⟩

/-! ## Auxiliary definitions of the proofs and the sources used as examples -/

/-- The state of `menuParse` at the head of the loop, about to read item `it`, with the items
`done` already compiled and the items `rest` still to come. -/
structure ParseInv (its done : List Item) (it : Item) (rest : List Item) (st : ParseState) :
    Prop where
  pos : st.pos = (source done).length + it.dashes
  item : st.item = done.length + 1
  cur : st.curLevel = it.dashes
  sp : st.stackPtr = 8 - it.dashes
  slen : st.stack.length = 8
  stk : ∀ L, 1 ≤ L → L ≤ it.dashes →
    st.stack.get? (8 - L) = some (lastAt (level its) (L - 1) done.length)
  nodes : st.nodes = (⟨0, 0, 0, 1, 0⟩ :: (List.range done.length).map fun k => expNode its (k + 1))
    ++ List.replicate (rest.length + 1) node.zero

/-- What the well-formedness of a source says about its level sequence `f` of length `N`. -/
structure LevelsOK (f : Nat → Nat) (N : Nat) : Prop where
  first : f 1 = 1
  pos : ∀ i, 1 ≤ i → i ≤ N → 1 ≤ f i
  rise : ∀ i, 1 ≤ i → i < N → f (i + 1) ≤ f i + 1

/-- The stored parent of node `i`, 0 outside the table (used where the read is in bounds). -/
def Menu.par (m : Menu) (i : Nat) : Nat := (m.nodes.getD i node.zero).parent

/-- The stored eldest child of node `i`, 0 outside the table. -/
def Menu.eld (m : Menu) (i : Nat) : Nat := (m.nodes.getD i node.zero).eldest

/-- The shape of a node table on which the navigation is sound: node 0 is the sentinel, a
parent precedes its children and its eldest child is the node right after it. -/
structure TreeOK (m : Menu) : Prop where
  len : m.nodes.length = m.lastNode + 1
  one : 1 ≤ m.lastNode
  root : m.eld 0 = 1
  first : m.par 1 = 0
  par_lt : ∀ i, 1 ≤ i → i ≤ m.lastNode → m.par i < i
  par_eld : ∀ i, 1 ≤ i → i ≤ m.lastNode → 1 ≤ m.par i →
    m.eld (m.par i) = m.par i + 1 ∧ m.par (m.par i + 1) = m.par i
  eld_cases : ∀ n, 1 ≤ n → n ≤ m.lastNode →
    m.eld n = 1 ∨ (m.eld n = n + 1 ∧ n + 1 ≤ m.lastNode ∧ m.par (n + 1) = n)

/-- The two states hold the same tree and the same display configuration; the cursor, the
refresh flag and the display trace may differ. -/
def Menu.sameTree (m m' : Menu) : Prop :=
  m'.MYitems = m.MYitems ∧ m'.nodes = m.nodes ∧ m'.lastNode = m.lastNode ∧
    m'.LCDcol = m.LCDcol ∧ m'.LCDrows = m.LCDrows ∧ m'.handelingLcd = m.handelingLcd ∧
    m'.LcdId = m.LcdId

/-- A top-level leaf item, `-A:101`. -/
def leaf : Item := ⟨1, ['A'], ['1', '0', '1']⟩

/-- A source of `n + 2` items: `n` top-level leaves `-A:101`, then the top-level submenu
`-P:000` and its only child `--C:101`. -/
def wide (n : Nat) : List Item :=
  List.replicate n leaf ++ [⟨1, ['P'], ['0', '0', '0']⟩, ⟨2, ['C'], ['1', '0', '1']⟩]

/-- The menu of the scenarios of the specification, `-READ:000--A:101--B:102-SET:000`. -/
def scenario : List Item :=
  [⟨1, "READ".toList, "000".toList⟩, ⟨2, "A".toList, "101".toList⟩,
   ⟨2, "B".toList, "102".toList⟩, ⟨1, "SET".toList, "000".toList⟩]

/-- The one-item menu `-A:101`. -/
def single : List Item := [⟨1, "A".toList, "101".toList⟩]

/-- The state of the scenario menu with the cursor at `c`, as the constructor leaves the other
members. -/
def scenarioMenu (c : Nat) : Menu :=
  { MYitems := source scenario, nodes := expNodes scenario, currentNode := c, lastNode := 4,
    LCDcol := 16, LCDrows := 2, handelingLcd := false, LcdId := 0, lcdNeedsUpdate := true,
    lcd := [] }

/-- The state `m` with the cursor moved to `c`. -/
def Menu.withCursor (m : Menu) (c : Nat) : Menu := { m with currentNode := c }

/-- The state `m` once the library owns a `LiquidCrystal` display. -/
def Menu.ownDisplay (m : Menu) : Menu := { m with handelingLcd := true, LcdId := 1 }

/-- The number of indices `i` with `a ≤ i < a + k` whose stored parent is `p`. -/
def Menu.cnt (m : Menu) (p : Nat) : Nat → Nat → Nat
  | _, 0 => 0
  | a, k + 1 => (if m.par a = p then 1 else 0) + Menu.cnt m p (a + 1) k

/-- The number of indices `i` with `a ≤ i < b` and `parent(i) = parent(n)`. -/
def Menu.siblingsIn (m : Menu) (n a b : Nat) : Nat :=
  ((List.range' a (b - a)).filter fun i => decide (m.parent i = m.parent n)).length

/-- What holds of every compiled table, whatever its size: node 0 is the sentinel, a stored
parent is smaller than its node, a stored eldest child is at most the next index. -/
structure TableOK (m : Menu) : Prop where
  len : m.nodes.length = m.lastNode + 1
  par0 : m.par 0 = 0
  root : m.eld 0 = 1
  par_lt : ∀ i, 1 ≤ i → i ≤ m.lastNode → m.par i < i
  eld_le : ∀ q, q ≤ m.lastNode → m.eld q ≤ q + 1

/-- The menu `-R:000--A:101--B:102--C:103`: one top-level submenu with three children. -/
def brood : List Item :=
  [⟨1, "R".toList, "000".toList⟩, ⟨2, "A".toList, "101".toList⟩,
   ⟨2, "B".toList, "102".toList⟩, ⟨2, "C".toList, "103".toList⟩]

/-- The state the constructor leaves for the menu `brood`. -/
def broodMenu : Menu :=
  { MYitems := source brood, nodes := expNodes brood, currentNode := 1, lastNode := 4,
    LCDcol := 16, LCDrows := 2, handelingLcd := false, LcdId := 0, lcdNeedsUpdate := true,
    lcd := [] }

/-- The net counter of the debounce as the specification words it: 0 at the start, one up for
each sample equal to the initial state, one down for each differing sample. -/
def net (stateOld : Int) (samples : Nat → Int) : Nat → Int
  | 0 => 0
  | k + 1 => net stateOld samples k + (if samples k = stateOld then 1 else -1)

/-- The state the constructor leaves for the empty source. -/
def emptyMenu : Menu :=
  { MYitems := [], nodes := [⟨0, 0, 0, 1, 0⟩], currentNode := 1, lastNode := 0,
    LCDcol := 16, LCDrows := 2, handelingLcd := false, LcdId := 0, lcdNeedsUpdate := true,
    lcd := [] }

/-- The state in which the constructor enters the loop of `menuParse`: the table as
allocated (lines 52–53) and the locals as initialised (lines 88–94). -/
def parseStart (items : List Char) : ParseState :=
  { nodes := (List.replicate (items.count ':' + 1) node.zero).set 0 { node.zero with eldest := 1 },
    stack := List.replicate 8 0, stackPtr := 7, pos := 1, item := 1, curLevel := 1 }

/-- The first `k` iterations of the loop of `menuParse`. -/
def parseSteps (MYitems : List Char) : Nat → ParseState → Option ParseState
  | 0, st => some st
  | k + 1, st =>
    match parseItem MYitems st with
    | none => none
    | some st' => parseSteps MYitems k st'

/-- The stored action of node `i`, 0 outside the table. -/
def Menu.act (m : Menu) (i : Nat) : Int := (m.nodes.getD i node.zero).action

/-- The `k`-th ancestor of node `n`: `n` itself for `k = 0`, then parent after parent; the
parent of the sentinel 0 is 0. -/
def Menu.ancestor (m : Menu) : Nat → Nat → Nat
  | 0, n => n
  | k + 1, n => Menu.ancestor m k (m.par n)

/-- Every proper ancestor of node `n` (the sentinel 0 apart) has action 0. -/
def Menu.enterable (m : Menu) (n : Nat) : Prop :=
  ∀ k, 1 ≤ k → m.ancestor k n ≠ 0 → m.act (m.ancestor k n) = 0

/-- What the navigation relies on: a sound table whose actions are not negative. -/
structure NavOK (m : Menu) : Prop where
  ok : TreeOK m
  par0 : m.par 0 = 0
  act_nonneg : ∀ i, 0 ≤ m.act i

/-- The samples of a key released during the debounce: 32769 readings `HIGH` (1), then
readings `LOW` (0). -/
def released (k : Nat) : Int := if k < 32769 then 1 else 0

/-- The readings of a board on which every pin reads `LOW` in the first five calls of
`digitalRead` and then follows `released`. -/
def bounce (_pin : Int) (n : Nat) : Int := if n < 5 then 0 else released (n - 5)

/-! ## The compiler on a well-formed source -/

theorem charAt_append_cons (a : List Char) (c : Char) (b : List Char) :
    charAt (a ++ c :: b) a.length = c := by
  induction a with
  | nil => rfl
  | cons x a ih => simpa [charAt] using ih

theorem charAt_length_append_nil (a : List Char) : charAt a a.length = Char.ofNat 0 := by
  simp [charAt, List.getD_eq_getElem?_getD]

theorem substring_middle (a b c : List Char) :
    substring (a ++ b ++ c) a.length (a.length + b.length) = b := by
  unfold substring
  simp only [List.length_append]
  have h1 : ¬ (a.length > a.length + b.length) := by omega
  simp only [h1, if_false]
  by_cases hz : a.length ≥ a.length + b.length + c.length
  · have hb : b = [] := List.eq_nil_of_length_eq_zero (by omega)
    simp [hz, hb]
  · simp only [hz, if_false]
    have h2 : ¬ (a.length + b.length > a.length + b.length + c.length) := by omega
    simp [h2, List.append_assoc]

theorem scanColon_spec (lab : List Char) (hlab : ':' ∉ lab) :
    ∀ (pre tl : List Char) (fuel : Nat), lab.length < fuel →
      scanColon (pre ++ (lab ++ ':' :: tl)) fuel pre.length = some (pre.length + lab.length) := by
  induction lab with
  | nil =>
    intro pre tl fuel hf
    obtain ⟨f, rfl⟩ : ∃ f, fuel = f + 1 := ⟨fuel - 1, by simp at hf; omega⟩
    simp [scanColon, charAt_append_cons]
  | cons c l ih =>
    intro pre tl fuel hf
    obtain ⟨f, rfl⟩ : ∃ f, fuel = f + 1 := ⟨fuel - 1, by simp at hf; omega⟩
    have hc : c ≠ ':' := fun h => hlab (by simp [h])
    have hl : ':' ∉ l := fun h => hlab (by simp [h])
    have := ih hl (pre ++ [c]) tl f (by simp at hf; omega)
    simp only [List.append_assoc, List.singleton_append, List.length_append,
      List.length_singleton] at this
    simp only [scanColon, List.cons_append, charAt_append_cons, ne_eq, hc, not_false_eq_true,
      if_true, List.length_cons]
    rw [this]; congr 1; omega

theorem countDashes_spec (k : Nat) :
    ∀ (pre tl : List Char) (fuel lvl : Nat), k < fuel → tl.head? ≠ some '-' →
      countDashes (pre ++ (List.replicate k '-' ++ tl)) fuel pre.length lvl
        = some (pre.length + k, lvl + k) := by
  induction k with
  | zero =>
    intro pre tl fuel lvl hf htl
    obtain ⟨f, rfl⟩ : ∃ f, fuel = f + 1 := ⟨fuel - 1, by omega⟩
    cases tl with
    | nil =>
      simp [countDashes, charAt_length_append_nil]
    | cons c t =>
      have hc : c ≠ '-' := fun h => htl (by simp [h])
      simp [countDashes, charAt_append_cons, hc]
  | succ k ih =>
    intro pre tl fuel lvl hf htl
    obtain ⟨f, rfl⟩ : ∃ f, fuel = f + 1 := ⟨fuel - 1, by omega⟩
    have := ih (pre ++ ['-']) tl f (lvl + 1) (by omega) htl
    simp only [List.append_assoc, List.singleton_append, List.length_append,
      List.length_singleton] at this
    simp only [countDashes, List.replicate_succ, List.cons_append, charAt_append_cons, if_true]
    rw [this]; congr 1; simp; omega

theorem isDigit_toNat (c : Char) (h : c.isDigit = true) : 48 ≤ c.toNat ∧ c.toNat ≤ 57 := by
  simp only [Char.isDigit, Bool.and_eq_true, decide_eq_true_eq] at h
  exact ⟨h.1, h.2⟩

theorem isSpace_of_isDigit (c : Char) (h : c.isDigit = true) : isSpace c = false := by
  have := isDigit_toNat c h
  simp [isSpace]
  omega

theorem digitsVal_eq_foldl (ds : List Char) (h : ∀ c ∈ ds, c.isDigit = true) :
    ∀ acc, digitsVal acc ds = ds.foldl (fun acc c => acc * 10 + (c.toNat - 48)) acc := by
  induction ds with
  | nil => intro acc; rfl
  | cons c cs ih =>
    intro acc
    have hc : c.isDigit = true := h c (by simp)
    simp only [digitsVal, hc, if_true, List.foldl_cons]
    exact ih (fun x hx => h x (by simp [hx])) _

theorem toInt_digits (it : Item) (h : ∀ c ∈ it.digits, c.isDigit = true) :
    toInt it.digits = (it.value : Int) := by
  unfold toInt atol Item.value
  cases hd : it.digits with
  | nil => simp
  | cons c cs =>
    have hc : c.isDigit = true := h c (by simp [hd])
    have h1 : isSpace c = false := isSpace_of_isDigit c hc
    have h2 : c ≠ '-' := by rintro rfl; exact absurd hc (by decide)
    have h3 : c ≠ '+' := by rintro rfl; exact absurd hc (by decide)
    have hall : ∀ x ∈ c :: cs, x.isDigit = true := by rw [← hd]; exact h
    simp only [List.dropWhile_cons, h1, h2, h3, if_false, Bool.false_eq_true]
    rw [digitsVal_eq_foldl _ hall]

theorem value_le (it : Item) (hl : it.digits.length = 3)
    (h : ∀ c ∈ it.digits, c.isDigit = true) : it.value ≤ 999 := by
  unfold Item.value
  match hd : it.digits, hl with
  | [a, b, c], _ =>
    have ha := isDigit_toNat a (h a (by simp [hd]))
    have hb := isDigit_toNat b (h b (by simp [hd]))
    have hc := isDigit_toNat c (h c (by simp [hd]))
    simp only [List.foldl_cons, List.foldl_nil]
    omega

theorem popStack_spec : ∀ (n : Nat) (stack : List Nat) (sp : Nat), sp + n ≤ stack.length →
    ∃ stack', popStack n stack sp = some (stack', sp + n) ∧ stack'.length = stack.length ∧
      ∀ j, sp + n ≤ j → stack'.get? j = stack.get? j := by
  intro n
  induction n with
  | zero => intro stack sp _; exact ⟨stack, rfl, rfl, fun _ _ => rfl⟩
  | succ n ih =>
    intro stack sp h
    obtain ⟨s', h1, h2, h3⟩ := ih (stack.set sp 0) (sp + 1) (by simp; omega)
    refine ⟨s', ?_, ?_, ?_⟩
    · have : sp < stack.length := by omega
      simp only [popStack, this, if_true, h1]
      congr 2; omega
    · simpa using h2
    · intro j hj
      rw [h3 j (by omega)]
      simp [List.getElem?_set]
      omega

/-! ### Items by index -/

theorem source_append (a b : List Item) : source (a ++ b) = source a ++ source b := by
  induction a with
  | nil => rfl
  | cons x a ih => simp [source, ih]

theorem getD_append_cons {α : Type} (a : List α) (c : α) (b : List α) (d : α) :
    (a ++ c :: b).getD a.length d = c := by
  induction a with
  | nil => rfl
  | cons x a ih => simpa using ih

theorem getD_append_past {α : Type} (a : List α) (d : α) (k : Nat) :
    a.getD (a.length + k) d = d := by
  induction a with
  | nil => rfl
  | cons x a ih =>
    have : (x :: a).length + k = (a.length + k) + 1 := by simp; omega
    rw [this, List.getD_cons_succ]; exact ih

theorem level_split (done : List Item) (it : Item) (rest : List Item) :
    level (done ++ it :: rest) (done.length + 1) = it.dashes := by
  simp only [level, getD_append_cons]

theorem level_split_next (done : List Item) (it nx : Item) (rest : List Item) :
    level (done ++ it :: nx :: rest) (done.length + 2) = nx.dashes := by
  have := level_split (done ++ [it]) nx rest
  simpa using this

theorem level_split_end (done : List Item) (it : Item) :
    level (done ++ [it]) (done.length + 2) = 0 := by
  have := getD_append_past (done ++ [it]) (⟨0, [], []⟩ : Item) 0
  simp only [List.length_append, List.length_singleton, Nat.add_zero] at this
  simp only [level, this]

theorem itemAt_split (done : List Item) (it : Item) (rest : List Item) :
    itemAt (done ++ it :: rest) (done.length + 1) = it := by
  simp only [itemAt, Nat.add_sub_cancel, getD_append_cons]

theorem labelStart_split (done : List Item) (it : Item) (rest : List Item) :
    labelStart (done ++ it :: rest) (done.length + 1) = (source done).length + it.dashes := by
  simp [labelStart, level_split]

theorem lastAt_succ_ne (f : Nat → Nat) (L k : Nat) (h : f (k + 1) ≠ L) :
    lastAt f L (k + 1) = lastAt f L k := by
  simp [lastAt, h]

theorem lastAt_succ_eq (f : Nat → Nat) (L k : Nat) (h : f (k + 1) = L) :
    lastAt f L (k + 1) = k + 1 := by
  simp [lastAt, h]

theorem parseItem_eval (src pre lab digits tl : List Char) (k : Nat) (st : ParseState)
    (top : Nat)
    (hsrc : src = pre ++ (lab ++ ':' :: (digits ++ (List.replicate k '-' ++ tl))))
    (hpos : st.pos = pre.length) (hlab : ':' ∉ lab) (hdig : digits.length = 3)
    (htl : tl.head? ≠ some '-') (hitem : st.item < st.nodes.length)
    (htop : st.stack.get? st.stackPtr = some top) :
    parseItem src st =
      match pushParent st ⟨pre.length, pre.length + lab.length, toByte top, 1, toInt digits⟩ k with
      | none => none
      | some (nd', stack1, stackPtr1) =>
        match pullParents st.curLevel k stack1 stackPtr1 with
        | none => none
        | some (stack2, stackPtr2) =>
          some { nodes := st.nodes.set st.item nd', stack := stack2, stackPtr := stackPtr2,
                 pos := pre.length + lab.length + 4 + k, item := st.item + 1, curLevel := k } := by
  have hlen : src.length = pre.length + lab.length + 4 + k + tl.length := by
    rw [hsrc]; simp [hdig]; omega
  have h1 : scanColon src (src.length + 1) st.pos = some (pre.length + lab.length) := by
    rw [hpos, hsrc]
    exact scanColon_spec lab hlab pre _ _ (by rw [← hsrc]; omega)
  have h2 : substring src (pre.length + lab.length + 1) (pre.length + lab.length + 4) = digits := by
    have := substring_middle (pre ++ lab ++ [':']) digits (List.replicate k '-' ++ tl)
    simp only [List.length_append, List.length_singleton, hdig] at this
    rw [← this, hsrc]
    simp [List.append_assoc]
  have h3 : countDashes src (src.length + 1) (pre.length + lab.length + 4) 0
      = some (pre.length + lab.length + 4 + k, k) := by
    have := countDashes_spec k (pre ++ lab ++ ':' :: digits) tl (src.length + 1) 0 (by omega) htl
    simp only [List.length_append, List.length_cons, hdig, Nat.zero_add] at this
    rw [← this, hsrc]
    simp [List.append_assoc]
  rw [hpos] at h1
  unfold parseItem
  simp only [hitem, if_true, hpos, h1, htop, h2, h3]
  try rfl

theorem pushPull_deeper (st : ParseState) (nd : node) (d : Nat)
    (hcur : st.curLevel = d) (hsp : st.stackPtr = 8 - d) (hslen : st.stack.length = 8)
    (hd1 : 1 ≤ d) (hd7 : d + 1 ≤ 8) :
    pushParent st nd (d + 1)
        = some ({ nd with eldest := toByte (st.item + 1) },
                st.stack.set (8 - (d + 1)) st.item, 8 - (d + 1)) ∧
      pullParents st.curLevel (d + 1) (st.stack.set (8 - (d + 1)) st.item) (8 - (d + 1))
        = some (st.stack.set (8 - (d + 1)) st.item, 8 - (d + 1)) := by
  constructor
  · have h1 : d + 1 > st.curLevel := by omega
    have h2 : 0 < st.stackPtr ∧ st.stackPtr - 1 < st.stack.length := by omega
    have h3 : st.stackPtr - 1 = 8 - (d + 1) := by omega
    rw [← h3]
    simp only [pushParent, h1, h2, if_true, and_self]
  · have h1 : ¬ (d + 1 < st.curLevel) := by omega
    simp only [pullParents, h1, if_false]

theorem pushPull_level (st : ParseState) (nd : node) (d k : Nat)
    (hcur : st.curLevel = d) (hsp : st.stackPtr = 8 - d) (hslen : st.stack.length = 8)
    (hd8 : d ≤ 8) (hk : k ≤ d) :
    pushParent st nd k = some (nd, st.stack, st.stackPtr) ∧
      ∃ s2, pullParents st.curLevel k st.stack st.stackPtr = some (s2, 8 - k) ∧ s2.length = 8 ∧
        ∀ j, 8 - k ≤ j → s2.get? j = st.stack.get? j := by
  constructor
  · have h1 : ¬ (k > st.curLevel) := by omega
    simp only [pushParent, h1, if_false]
  · by_cases hlt : k < d
    · obtain ⟨s2, h1, h2, h3⟩ := popStack_spec (d - k) st.stack (8 - d) (by omega)
      refine ⟨s2, ?_, by omega, fun j hj => h3 j (by omega)⟩
      have : 8 - d + (d - k) = 8 - k := by omega
      simp only [pullParents, hcur, hlt, if_true, hsp, h1, this]
    · have : k = d := by omega
      subst this
      have h1 : ¬ (k < st.curLevel) := by omega
      exact ⟨st.stack, by simp only [pullParents, h1, if_false, hsp], hslen, fun _ _ => rfl⟩

theorem set_append_cons {α : Type} (a : List α) (x y : α) (b : List α) :
    (a ++ x :: b).set a.length y = a ++ y :: b := by
  induction a with
  | nil => rfl
  | cons z a ih => simp [ih]

theorem expNode_split (done : List Item) (it : Item) (rest : List Item) :
    expNode (done ++ it :: rest) (done.length + 1) =
      { starts := (source done).length + it.dashes
        ends := (source done).length + it.dashes + it.label.length
        parent := toByte (lastAt (level (done ++ it :: rest)) (it.dashes - 1) done.length)
        eldest := if level (done ++ it :: rest) (done.length + 2) > it.dashes then
            toByte (done.length + 2) else 1
        action := (it.value : Int) } := by
  simp only [expNode, labelStart_split, itemAt_split, level_split, encl, Nat.add_sub_cancel]

theorem parseItem_post (its done : List Item) (it : Item) (rest : List Item) (st : ParseState)
    (k : Nat) (tl : List Char)
    (hits : its = done ++ it :: rest) (hw : it.wf) (inv : ParseInv its done it rest st)
    (hsrc : source its = (source done ++ List.replicate it.dashes '-') ++
      (it.label ++ ':' :: (it.digits ++ (List.replicate k '-' ++ tl))))
    (hk : k = level its (done.length + 2)) (hk1 : k ≤ it.dashes + 1) (hk8 : k ≤ 8)
    (htl : tl.head? ≠ some '-') :
    ∃ st', parseItem (source its) st = some st' ∧
      st'.pos = (source done).length + it.dashes + it.label.length + 4 + k ∧
      st'.item = done.length + 2 ∧ st'.curLevel = k ∧ st'.stackPtr = 8 - k ∧
      st'.stack.length = 8 ∧
      (∀ L, 1 ≤ L → L ≤ k →
        st'.stack.get? (8 - L) = some (lastAt (level its) (L - 1) (done.length + 1))) ∧
      st'.nodes = (⟨0, 0, 0, 1, 0⟩ :: (List.range (done.length + 1)).map
        fun j => expNode its (j + 1)) ++ List.replicate rest.length node.zero := by
  obtain ⟨hd1, hd8, hcolon, _, hdig, hdigits⟩ := hw
  have hlev : level its (done.length + 1) = it.dashes := by rw [hits]; exact level_split _ _ _
  have hitem : st.item < st.nodes.length := by
    rw [inv.item, inv.nodes]; simp
  have htop : st.stack.get? st.stackPtr
      = some (lastAt (level its) (it.dashes - 1) done.length) := by
    rw [inv.sp]; exact inv.stk it.dashes hd1 (le_refl _)
  have hpos : st.pos = (source done ++ List.replicate it.dashes '-').length := by
    rw [inv.pos]; simp
  have hev := parseItem_eval (source its) _ _ _ _ k st _ hsrc hpos hcolon hdig htl hitem htop
  have hplen : (source done ++ List.replicate it.dashes '-').length
      = (source done).length + it.dashes := by simp
  have hnodes : ∀ nd' : node, nd' = expNode its (done.length + 1) →
      st.nodes.set st.item nd' = (⟨0, 0, 0, 1, 0⟩ :: (List.range (done.length + 1)).map
        fun j => expNode its (j + 1)) ++ List.replicate rest.length node.zero := by
    intro nd' hnd
    have hA : ((⟨0, 0, 0, 1, 0⟩ : node) :: (List.range done.length).map
        fun j => expNode its (j + 1)).length = st.item := by
      rw [inv.item]; simp
    rw [inv.nodes, List.replicate_succ, ← hA, set_append_cons, hnd, List.range_succ]
    simp
  have hexp := expNode_split done it rest
  rw [← hits, ← hk] at hexp
  have hstk_old : ∀ L, 1 ≤ L → L ≤ it.dashes →
      lastAt (level its) (L - 1) (done.length + 1) = lastAt (level its) (L - 1) done.length := by
    intro L h1 h2
    exact lastAt_succ_ne _ _ _ (by rw [hlev]; omega)
  by_cases hdeep : k = it.dashes + 1
  · obtain ⟨hp1, hp2⟩ := pushPull_deeper st
      ⟨(source done ++ List.replicate it.dashes '-').length,
        (source done ++ List.replicate it.dashes '-').length + it.label.length,
        toByte (lastAt (level its) (it.dashes - 1) done.length), 1, toInt it.digits⟩
      it.dashes inv.cur inv.sp inv.slen hd1 (by omega)
    rw [← hdeep] at hp1 hp2
    rw [hp1] at hev
    simp only [hp2] at hev
    refine ⟨_, hev, ?_, ?_, rfl, rfl, ?_, ?_, ?_⟩
    · simp only [hplen]
    · simp only [inv.item]
    · simp [inv.slen]
    · intro L h1 h2
      simp only
      by_cases hL : L = k
      · subst hL
        have h8 : 8 - L < st.stack.length := by rw [inv.slen]; omega
        rw [List.get?_eq_getElem?, List.getElem?_set_self h8, inv.item]
        have : L - 1 = it.dashes := by omega
        rw [this]
        exact congrArg some (lastAt_succ_eq _ _ _ hlev).symm
      · have hne : 8 - k ≠ 8 - L := by omega
        rw [List.get?_eq_getElem?, List.getElem?_set_ne hne, ← List.get?_eq_getElem?,
          inv.stk L h1 (by omega), hstk_old L h1 (by omega)]
    · apply hnodes
      rw [hexp, toInt_digits it hdigits, inv.item]
      have : k > it.dashes := by omega
      simp only [node.mk.injEq, hplen, this, if_true, and_self]
  · have hle : k ≤ it.dashes := by omega
    obtain ⟨hp1, s2, hp2, hp3, hp4⟩ := pushPull_level st
      ⟨(source done ++ List.replicate it.dashes '-').length,
        (source done ++ List.replicate it.dashes '-').length + it.label.length,
        toByte (lastAt (level its) (it.dashes - 1) done.length), 1, toInt it.digits⟩
      it.dashes k inv.cur inv.sp inv.slen hd8 hle
    rw [hp1] at hev
    simp only [hp2] at hev
    refine ⟨_, hev, ?_, ?_, rfl, rfl, hp3, ?_, ?_⟩
    · simp only [hplen]
    · simp only [inv.item]
    · intro L h1 h2
      simp only
      rw [hp4 (8 - L) (by omega), inv.stk L h1 (by omega), hstk_old L h1 (by omega)]
    · apply hnodes
      rw [hexp, toInt_digits it hdigits]
      have : ¬ (k > it.dashes) := by omega
      simp only [node.mk.injEq, hplen, this, if_false, and_self]

theorem parseLoop_spec (its : List Item) (hwf : ∀ it ∈ its, it.wf)
    (hrise : ∀ i, i < its.length - 1 → level its (i + 2) ≤ level its (i + 1) + 1) :
    ∀ (rest done : List Item) (it : Item) (st : ParseState) (fuel : Nat),
      its = done ++ it :: rest → ParseInv its done it rest st → rest.length < fuel →
      ∃ st', parseLoop (source its) fuel st = some st' ∧ st'.item = its.length + 1 ∧
        st'.nodes = expNodes its := by
  intro rest
  induction rest with
  | nil =>
    intro done it st fuel hits inv hf
    obtain ⟨f, rfl⟩ : ∃ f, fuel = f + 1 := ⟨fuel - 1, by simp at hf; omega⟩
    have hw : it.wf := hwf it (by rw [hits]; simp)
    have hsrc : source its = (source done ++ List.replicate it.dashes '-') ++
        (it.label ++ ':' :: (it.digits ++ (List.replicate 0 '-' ++ []))) := by
      rw [hits]; simp [source_append, source, Item.text]
    have hk : 0 = level its (done.length + 2) := by rw [hits]; exact (level_split_end _ _).symm
    obtain ⟨st', h1, h2, h3, -, -, -, -, h8⟩ :=
      parseItem_post its done it [] st 0 [] hits hw inv hsrc hk (by omega) (by omega) (by simp)
    have hlen : (source its).length = (source done).length + it.dashes + it.label.length + 4 := by
      rw [hsrc]; simp [hw.2.2.2.2.1]; omega
    have hlt : st.pos < (source its).length := by rw [inv.pos, hlen]; omega
    have hnl : ¬ (st'.pos < (source its).length) := by rw [h2, hlen]; omega
    refine ⟨st', ?_, ?_, ?_⟩
    · simp only [parseLoop, hlt, if_true, h1]
      cases f <;> simp only [parseLoop, hnl, if_false]
    · rw [h3, hits]; simp
    · rw [h8, hits]; simp [expNodes]
  | cons nx rest ih =>
    intro done it st fuel hits inv hf
    obtain ⟨f, rfl⟩ : ∃ f, fuel = f + 1 := ⟨fuel - 1, by simp at hf; omega⟩
    have hw : it.wf := hwf it (by rw [hits]; simp)
    have hwn : nx.wf := hwf nx (by rw [hits]; simp)
    have hsrc : source its = (source done ++ List.replicate it.dashes '-') ++
        (it.label ++ ':' :: (it.digits ++ (List.replicate nx.dashes '-' ++
          (nx.label ++ ':' :: (nx.digits ++ source rest))))) := by
      rw [hits]; simp [source_append, source, Item.text]
    have hl1 : level its (done.length + 1) = it.dashes := by rw [hits]; exact level_split _ _ _
    have hk : nx.dashes = level its (done.length + 2) := by
      rw [hits]; exact (level_split_next _ _ _ _).symm
    have hk1 : nx.dashes ≤ it.dashes + 1 := by
      have := hrise done.length (by rw [hits]; simp)
      rw [← hk, hl1] at this; exact this
    have htl : (nx.label ++ ':' :: (nx.digits ++ source rest)).head? ≠ some '-' := by
      have := hwn.2.2.2.1
      cases hlab : nx.label with
      | nil => simp
      | cons c l => rw [hlab] at this; simpa using this
    obtain ⟨st', h1, h2, h3, h4, h5, h6, h7, h8⟩ :=
      parseItem_post its done it (nx :: rest) st nx.dashes _ hits hw inv hsrc hk hk1 hwn.2.1 htl
    have hlen : (source its).length = (source done).length + it.dashes + it.label.length + 4
        + nx.dashes + (nx.label ++ ':' :: (nx.digits ++ source rest)).length := by
      rw [hsrc]; simp [hw.2.2.2.2.1]; omega
    have hlt : st.pos < (source its).length := by rw [inv.pos, hlen]; omega
    have inv' : ParseInv its (done ++ [it]) nx rest st' := by
      refine ⟨?_, ?_, h4, h5, h6, ?_, ?_⟩
      · rw [h2]; simp [source_append, source, Item.text, hw.2.2.2.2.1]; omega
      · rw [h3]; simp
      · intro L hL1 hL2
        rw [h7 L hL1 hL2]; simp
      · rw [h8]; simp
    obtain ⟨st'', g1, g2, g3⟩ := ih (done ++ [it]) nx st' f (by rw [hits]; simp) inv'
      (by simp at hf; omega)
    exact ⟨st'', by simp only [parseLoop, hlt, if_true, h1, g1], g2, g3⟩

theorem count_colon_source (its : List Item) (hwf : ∀ it ∈ its, it.wf) :
    (source its).count ':' = its.length := by
  induction its with
  | nil => rfl
  | cons it rest ih =>
    obtain ⟨-, -, hcolon, -, -, hdigits⟩ := hwf it (by simp)
    have h1 : it.label.count ':' = 0 := List.count_eq_zero.mpr hcolon
    have h2 : it.digits.count ':' = 0 :=
      List.count_eq_zero.mpr fun h => absurd (hdigits _ h) (by decide)
    have h3 : (List.replicate it.dashes '-').count ':' = 0 :=
      List.count_eq_zero.mpr fun h => absurd (List.eq_of_mem_replicate h) (by decide)
    simp only [source, Item.text, List.count_append, List.count_cons_self, h1, h2, h3,
      ih fun x hx => hwf x (by simp [hx]), List.length_cons]
    omega

theorem length_le_source (its : List Item) : its.length ≤ (source its).length := by
  induction its with
  | nil => simp
  | cons it rest ih => simp [source, Item.text]; omega

theorem construct_wf (its : List Item) (h : WellFormed its) :
    Menu.construct (source its) = some
      { MYitems := source its, nodes := expNodes its, currentNode := 1, lastNode := its.length,
        LCDcol := 16, LCDrows := 2, handelingLcd := false, LcdId := 0, lcdNeedsUpdate := true,
        lcd := [] } := by
  obtain ⟨hhead, hwf, hrise⟩ := h
  cases its with
  | nil => simp at hhead
  | cons it rest =>
    have hd : it.dashes = 1 := by simpa using hhead
    have inv : ParseInv (it :: rest) [] it rest
        { nodes := (List.replicate ((source (it :: rest)).count ':' + 1) node.zero).set 0
            { node.zero with eldest := 1 },
          stack := List.replicate 8 0, stackPtr := 7, pos := 1, item := 1, curLevel := 1 } := by
      refine ⟨by simp [source, hd], rfl, hd.symm, by simp [hd], by simp, ?_, ?_⟩
      · intro L h1 h2
        have : L = 1 := by omega
        subst this
        simp [lastAt]
      · rw [count_colon_source _ hwf]
        simp [List.replicate_succ, node.zero]
    obtain ⟨st', h1, h2, h3⟩ := parseLoop_spec (it :: rest) hwf hrise rest [] it _
      ((source (it :: rest)).length + 1) rfl inv (by
        have := length_le_source (it :: rest); simp at this; omega)
    simp only [Menu.construct, menuParse, h1, h2, h3]
    simp

/-! ### The level sequence and the enclosing item -/

theorem lastAt_le (f : Nat → Nat) (L : Nat) : ∀ k, lastAt f L k ≤ k := by
  intro k
  induction k with
  | zero => simp [lastAt]
  | succ k ih =>
    simp only [lastAt]
    split
    · exact le_refl _
    · omega

theorem lastAt_spec (f : Nat → Nat) (L : Nat) :
    ∀ k, lastAt f L k = 0 ∨ (1 ≤ lastAt f L k ∧ f (lastAt f L k) = L) := by
  intro k
  induction k with
  | zero => left; rfl
  | succ k ih =>
    simp only [lastAt]
    split
    · right; exact ⟨by omega, by assumption⟩
    · exact ih

theorem lastAt_max (f : Nat → Nat) (L : Nat) :
    ∀ k j, lastAt f L k < j → j ≤ k → f j ≠ L := by
  intro k
  induction k with
  | zero => intro j h1 h2; simp [lastAt] at h1; omega
  | succ k ih =>
    intro j h1 h2
    simp only [lastAt] at h1
    split at h1
    · omega
    · rename_i hne
      by_cases hj : j = k + 1
      · rw [hj]; exact hne
      · exact ih j h1 (by omega)

theorem lastAt_unique (f : Nat → Nat) (L k p : Nat) (hp1 : 1 ≤ p) (hpk : p ≤ k) (hf : f p = L)
    (hmax : ∀ j, p < j → j ≤ k → f j ≠ L) : lastAt f L k = p := by
  rcases Nat.lt_trichotomy (lastAt f L k) p with h | h | h
  · exact absurd hf (lastAt_max f L k p h hpk)
  · exact h
  · rcases lastAt_spec f L k with h0 | ⟨_, h2⟩
    · omega
    · exact absurd h2 (hmax _ h (lastAt_le f L k))

theorem levels_ivt (f : Nat → Nat) (N : Nat) (h : LevelsOK f N) (a : Nat) (ha : 1 ≤ a) :
    ∀ b, a ≤ b → b ≤ N → ∀ L, f a ≤ L → L ≤ f b → ∃ j, a ≤ j ∧ j ≤ b ∧ f j = L := by
  intro b hab
  induction b, hab using Nat.le_induction with
  | base => intro _ L h1 h2; exact ⟨a, le_refl _, le_refl _, by omega⟩
  | succ b hab ih =>
    intro hbN L h1 h2
    by_cases hL : L = f (b + 1)
    · exact ⟨b + 1, by omega, le_refl _, hL.symm⟩
    · have := h.rise b (by omega) (by omega)
      obtain ⟨j, hj1, hj2, hj3⟩ := ih (by omega) L h1 (by omega)
      exact ⟨j, hj1, by omega, hj3⟩

theorem encl_lt (its : List Item) (n : Nat) (hn : 1 ≤ n) : encl its n < n := by
  have := lastAt_le (level its) (level its n - 1) (n - 1)
  unfold encl; omega

theorem encl_top (f : Nat → Nat) (N : Nat) (h : LevelsOK f N) (n : Nat) (hnN : n ≤ N)
    (hl : f n = 1) : lastAt f (f n - 1) (n - 1) = 0 := by
  rcases lastAt_spec f (f n - 1) (n - 1) with h0 | ⟨h1, h2⟩
  · exact h0
  · have := h.pos _ h1 (by have := lastAt_le f (f n - 1) (n - 1); omega)
    omega

theorem encl_level (f : Nat → Nat) (N : Nat) (h : LevelsOK f N) (n : Nat) (hn : 1 ≤ n)
    (hnN : n ≤ N) (hl : 2 ≤ f n) :
    1 ≤ lastAt f (f n - 1) (n - 1) ∧ f (lastAt f (f n - 1) (n - 1)) = f n - 1 := by
  obtain ⟨j, hj1, hj2, hj3⟩ := levels_ivt f N h 1 (le_refl _) n hn hnN (f n - 1)
    (by rw [h.first]; omega) (by omega)
  have hjn : j ≠ n := by intro e; rw [e] at hj3; omega
  rcases lastAt_spec f (f n - 1) (n - 1) with h0 | h1
  · exact absurd hj3 (lastAt_max f _ (n - 1) j (by omega) (by omega))
  · exact h1

theorem encl_between (f : Nat → Nat) (N : Nat) (h : LevelsOK f N) (n : Nat)
    (hnN : n ≤ N) (j : Nat) (hj1 : 1 ≤ j) (hpj : lastAt f (f n - 1) (n - 1) < j) (hjn : j < n) :
    f n ≤ f j := by
  by_contra hlt
  obtain ⟨j', h1, h2, h3⟩ := levels_ivt f N h j hj1 n (by omega) hnN (f n - 1) (by omega)
    (by omega)
  have : 1 ≤ f j := h.pos j hj1 (by omega)
  have hj'n : j' ≠ n := by intro e; rw [e] at h3; omega
  exact lastAt_max f _ (n - 1) j' (by omega) (by omega) h3

theorem encl_child (f : Nat → Nat) (n : Nat) (hl : f (n + 1) = f n + 1) :
    lastAt f (f (n + 1) - 1) (n + 1 - 1) = n := by
  cases n with
  | zero => simp [lastAt]
  | succ n => simp only [Nat.add_sub_cancel, hl]; exact lastAt_succ_eq f _ n rfl

theorem encl_next (f : Nat → Nat) (N : Nat) (h : LevelsOK f N) (i : Nat) (hi : 1 ≤ i)
    (hiN : i ≤ N) (hp : 1 ≤ lastAt f (f i - 1) (i - 1)) :
    f (lastAt f (f i - 1) (i - 1) + 1) = f (lastAt f (f i - 1) (i - 1)) + 1 := by
  have hle := lastAt_le f (f i - 1) (i - 1)
  have h2 : 2 ≤ f i := by
    by_contra hc
    have h1 := h.pos i hi hiN
    have := encl_top f N h i hiN (by omega)
    omega
  obtain ⟨_, hlev⟩ := encl_level f N h i hi hiN h2
  by_cases hnext : lastAt f (f i - 1) (i - 1) + 1 = i
  · rw [hnext, hlev]; omega
  · have h3 := encl_between f N h i hiN (lastAt f (f i - 1) (i - 1) + 1) (by omega) (by omega)
      (by omega)
    have h4 := h.rise (lastAt f (f i - 1) (i - 1)) hp (by omega)
    omega

theorem levelsOK_of_wf (its : List Item) (h : WellFormed its) :
    LevelsOK (level its) its.length := by
  obtain ⟨hhead, hwf, hrise⟩ := h
  refine ⟨?_, ?_, ?_⟩
  · cases its with
    | nil => simp at hhead
    | cons it rest => simpa [level] using hhead
  · intro i h1 h2
    obtain ⟨k, rfl⟩ : ∃ k, i = k + 1 := ⟨i - 1, by omega⟩
    have hk : k < its.length := by omega
    have hmem : its[k] ∈ its := List.getElem_mem hk
    have := (hwf _ hmem).1
    simpa [level, List.getD_eq_getElem?_getD, List.getElem?_eq_getElem hk] using this
  · intro i h1 h2
    obtain ⟨k, rfl⟩ : ∃ k, i = k + 1 := ⟨i - 1, by omega⟩
    exact hrise k (by omega)

theorem level_out (its : List Item) (i : Nat) (hi : its.length < i) : level its i = 0 := by
  obtain ⟨k, rfl⟩ : ∃ k, i = k + 1 := ⟨i - 1, by omega⟩
  have := getD_append_past its (⟨0, [], []⟩ : Item) (k - its.length)
  have e : its.length + (k - its.length) = k := by omega
  rw [e] at this
  simp only [level, this]

theorem level_le_eight (its : List Item) (h : WellFormed its) (i : Nat) : level its i ≤ 8 := by
  cases i with
  | zero => simp [level]
  | succ k =>
    by_cases hk : k < its.length
    · have hmem : its[k] ∈ its := List.getElem_mem hk
      have := (h.2.1 _ hmem).2.1
      simpa [level, List.getD_eq_getElem?_getD, List.getElem?_eq_getElem hk] using this
    · rw [level_out its (k + 1) (by omega)]; omega

/-! ### The compiled table -/

theorem expNodes_length (its : List Item) : (expNodes its).length = its.length + 1 := by
  simp [expNodes]

theorem expNodes_get (its : List Item) (i : Nat) (h1 : 1 ≤ i) (h2 : i ≤ its.length) :
    (expNodes its).get? i = some (expNode its i) := by
  obtain ⟨k, rfl⟩ : ∃ k, i = k + 1 := ⟨i - 1, by omega⟩
  have hk : k < its.length := by omega
  simp [expNodes, List.getElem?_map, List.getElem?_range hk]

theorem expNodes_getD (its : List Item) (i : Nat) (h1 : 1 ≤ i) (h2 : i ≤ its.length) :
    (expNodes its).getD i node.zero = expNode its i := by
  have := expNodes_get its i h1 h2
  rw [List.get?_eq_getElem?] at this
  simp [List.getD_eq_getElem?_getD, this]

theorem compiled_fields (its : List Item) (h : WellFormed its) (m : Menu)
    (hm : m.compiledFrom (source its)) :
    m.MYitems = source its ∧ m.nodes = expNodes its ∧ m.lastNode = its.length := by
  obtain ⟨m0, h0, h1, h2, h3⟩ := hm
  rw [construct_wf its h] at h0
  cases h0
  exact ⟨h1, h2, h3⟩

theorem toByte_small (n : Nat) (h : n ≤ 255) : toByte n = n := by
  unfold toByte; omega

theorem toByte_le (n : Nat) : toByte n ≤ n := by
  unfold toByte; exact Nat.mod_le _ _

theorem par_compiled (its : List Item) (h : WellFormed its) (m : Menu)
    (hm : m.compiledFrom (source its)) (i : Nat) (h1 : 1 ≤ i) (h2 : i ≤ its.length) :
    m.par i = toByte (encl its i) := by
  obtain ⟨-, hn, -⟩ := compiled_fields its h m hm
  simp only [Menu.par, hn, expNodes_getD its i h1 h2, expNode]

theorem eld_compiled (its : List Item) (h : WellFormed its) (m : Menu)
    (hm : m.compiledFrom (source its)) (i : Nat) (h1 : 1 ≤ i) (h2 : i ≤ its.length) :
    m.eld i = if level its (i + 1) > level its i then toByte (i + 1) else 1 := by
  obtain ⟨-, hn, -⟩ := compiled_fields its h m hm
  simp only [Menu.eld, hn, expNodes_getD its i h1 h2, expNode]

theorem its_length_pos (its : List Item) (h : WellFormed its) : 1 ≤ its.length := by
  obtain ⟨hhead, -, -⟩ := h
  cases its with
  | nil => simp at hhead
  | cons it rest => simp

theorem deeper_next (its : List Item) (h : WellFormed its) (n : Nat) (h1 : 1 ≤ n)
    (hd : level its (n + 1) > level its n) :
    n + 1 ≤ its.length ∧ level its (n + 1) = level its n + 1 := by
  have hN : n + 1 ≤ its.length := by
    by_contra hc
    rw [level_out its (n + 1) (by omega)] at hd
    omega
  have := (levelsOK_of_wf its h).rise n h1 (by omega)
  exact ⟨hN, by omega⟩

theorem treeOK_compiled (its : List Item) (h : WellFormed its) (hN : its.length ≤ 255)
    (m : Menu) (hm : m.compiledFrom (source its)) : TreeOK m := by
  obtain ⟨-, hn, hl⟩ := compiled_fields its h m hm
  have hlv := levelsOK_of_wf its h
  have hpos := its_length_pos its h
  have hpar : ∀ i, 1 ≤ i → i ≤ its.length → m.par i = encl its i := by
    intro i h1 h2
    rw [par_compiled its h m hm i h1 h2, toByte_small]
    have := encl_lt its i h1
    omega
  refine ⟨by rw [hn, hl, expNodes_length], by omega, ?_, ?_, ?_, ?_, ?_⟩
  · simp [Menu.eld, hn, expNodes]
  · rw [hpar 1 (le_refl _) hpos]; simp [encl, lastAt]
  · intro i h1 h2
    rw [hl] at h2
    rw [hpar i h1 h2]
    exact encl_lt its i h1
  · intro i h1 h2 hp
    rw [hl] at h2
    rw [hpar i h1 h2] at hp ⊢
    have hlt := encl_lt its i h1
    have hnext := encl_next (level its) its.length hlv i h1 h2 hp
    rw [show lastAt (level its) (level its i - 1) (i - 1) = encl its i from rfl] at hnext
    constructor
    · rw [eld_compiled its h m hm _ hp (by omega)]
      have : level its (encl its i + 1) > level its (encl its i) := by omega
      simp only [this, if_true]
      exact toByte_small _ (by omega)
    · rw [hpar _ (by omega) (by omega)]
      exact encl_child (level its) (encl its i) hnext
  · intro n h1 h2
    rw [hl] at h2
    rw [eld_compiled its h m hm n h1 h2]
    by_cases hd : level its (n + 1) > level its n
    · right
      obtain ⟨h3, h4⟩ := deeper_next its h n h1 hd
      simp only [hd, if_true]
      refine ⟨toByte_small _ (by omega), by omega, ?_⟩
      rw [hpar _ (by omega) h3]
      exact encl_child (level its) n h4
    · left; simp only [hd, if_false]

/-! ### Reads of the table -/

theorem parent_some (m : Menu) (hlen : m.nodes.length = m.lastNode + 1) (i : Nat)
    (hi : i ≤ m.lastNode) : m.parent i = some (m.par i) := by
  have hlt : i < m.nodes.length := by omega
  simp [Menu.parent, Menu.par, List.getD_eq_getElem?_getD, List.getElem?_eq_getElem hlt]

theorem eldest_some (m : Menu) (hlen : m.nodes.length = m.lastNode + 1) (i : Nat)
    (hi : i ≤ m.lastNode) : m.eldest i = some (m.eld i) := by
  have hlt : i < m.nodes.length := by omega
  simp [Menu.eldest, Menu.eld, List.getD_eq_getElem?_getD, List.getElem?_eq_getElem hlt]

theorem label_some (m : Menu) (hlen : m.nodes.length = m.lastNode + 1) (i : Nat)
    (hi : i ≤ m.lastNode) : ∃ l, m.label i = some l := by
  have hlt : i < m.nodes.length := by omega
  simp [Menu.label, List.getElem?_eq_getElem hlt]

theorem getAction_some (m : Menu) (hlen : m.nodes.length = m.lastNode + 1)
    (hi : m.currentNode ≤ m.lastNode) : ∃ a, m.getAction = some a := by
  have hlt : m.currentNode < m.nodes.length := by omega
  simp [Menu.getAction, List.getElem?_eq_getElem hlt]

/-! ### Siblings -/

theorem nextLoop_spec (m : Menu) (hlen : m.nodes.length = m.lastNode + 1) (node : Nat)
    (hnode : node ≤ m.lastNode) :
    ∀ k i, i + k = m.lastNode + 1 →
      ∃ r, m.nextLoop node k i = some r ∧
        ((i ≤ r ∧ r ≤ m.lastNode ∧ m.par r = m.par node ∧
            ∀ j, i ≤ j → j < r → m.par j ≠ m.par node) ∨
          (r = node ∧ ∀ j, i ≤ j → j ≤ m.lastNode → m.par j ≠ m.par node)) := by
  intro k
  induction k with
  | zero =>
    intro i hi
    exact ⟨node, rfl, Or.inr ⟨rfl, fun j h1 h2 => by omega⟩⟩
  | succ k ih =>
    intro i hi
    have h1 := parent_some m hlen i (by omega)
    have h2 := parent_some m hlen node hnode
    by_cases heq : m.par i = m.par node
    · refine ⟨i, ?_, Or.inl ⟨le_refl _, by omega, heq, fun j h1 h2 => by omega⟩⟩
      simp only [Menu.nextLoop, h1, h2, heq, if_true]
    · obtain ⟨r, hr, hcase⟩ := ih (i + 1) (by omega)
      refine ⟨r, ?_, ?_⟩
      · simp only [Menu.nextLoop, h1, h2, heq, if_false, hr]
      · rcases hcase with ⟨a, b, c, d⟩ | ⟨a, b⟩
        · refine Or.inl ⟨by omega, b, c, fun j h1 h2 => ?_⟩
          by_cases hj : j = i
          · rw [hj]; exact heq
          · exact d j (by omega) h2
        · refine Or.inr ⟨a, fun j h1 h2 => ?_⟩
          by_cases hj : j = i
          · rw [hj]; exact heq
          · exact b j (by omega) h2

theorem nextSibling_spec (m : Menu) (hlen : m.nodes.length = m.lastNode + 1) (node : Nat)
    (hnode : node ≤ m.lastNode) :
    ∃ r, m.nextSibling node = some r ∧
      ((node < r ∧ r ≤ m.lastNode ∧ m.par r = m.par node ∧
          ∀ j, node < j → j < r → m.par j ≠ m.par node) ∨
        (r = node ∧ ∀ j, node < j → j ≤ m.lastNode → m.par j ≠ m.par node)) := by
  obtain ⟨r, hr, hcase⟩ := nextLoop_spec m hlen node hnode (m.lastNode - node) (node + 1)
    (by omega)
  refine ⟨r, hr, ?_⟩
  rcases hcase with ⟨a, b, c, d⟩ | ⟨a, b⟩
  · exact Or.inl ⟨by omega, b, c, fun j h1 h2 => d j (by omega) h2⟩
  · exact Or.inr ⟨a, fun j h1 h2 => b j (by omega) h2⟩

theorem nextSibling_past (m : Menu) (node : Nat) (hnode : m.lastNode ≤ node) :
    m.nextSibling node = some node := by
  have : m.lastNode - node = 0 := by omega
  simp only [Menu.nextSibling, this, Menu.nextLoop]

theorem nextSibling_total (m : Menu) (hlen : m.nodes.length = m.lastNode + 1) (node : Nat) :
    ∃ r, m.nextSibling node = some r ∧ node ≤ r ∧ (node ≤ m.lastNode → r ≤ m.lastNode) ∧
      (node ≤ m.lastNode → m.par r = m.par node) := by
  by_cases h : node ≤ m.lastNode
  · obtain ⟨r, hr, hcase⟩ := nextSibling_spec m hlen node h
    refine ⟨r, hr, ?_⟩
    rcases hcase with ⟨a, b, c, -⟩ | ⟨a, -⟩
    · exact ⟨by omega, fun _ => b, fun _ => c⟩
    · subst a; exact ⟨le_refl _, fun h => h, fun _ => rfl⟩
  · exact ⟨node, nextSibling_past m node (by omega), le_refl _, fun h' => absurd h' h,
      fun _ => rfl⟩

theorem prevLoop_found (m : Menu) (hlen : m.nodes.length = m.lastNode + 1) (node : Nat)
    (hnode : node ≤ m.lastNode) :
    ∀ i, i ≤ m.lastNode → (∃ j, 1 ≤ j ∧ j ≤ i ∧ m.par j = m.par node) →
      ∃ r, m.prevLoop node i = some r ∧ 1 ≤ r ∧ r ≤ i ∧ m.par r = m.par node ∧
        ∀ j, r < j → j ≤ i → m.par j ≠ m.par node := by
  intro i
  induction i with
  | zero => rintro _ ⟨j, h1, h2, _⟩; omega
  | succ i ih =>
    intro hi hex
    have h1 := parent_some m hlen (i + 1) hi
    have h2 := parent_some m hlen node hnode
    by_cases heq : m.par (i + 1) = m.par node
    · refine ⟨i + 1, ?_, by omega, le_refl _, heq, fun j h1 h2 => by omega⟩
      simp only [Menu.prevLoop, h1, h2, heq, if_true]
    · obtain ⟨j, hj1, hj2, hj3⟩ := hex
      have hji : j ≠ i + 1 := by intro e; rw [e] at hj3; exact heq hj3
      obtain ⟨r, hr, a, b, c, d⟩ := ih (by omega) ⟨j, hj1, by omega, hj3⟩
      refine ⟨r, ?_, a, by omega, c, fun j' h1' h2' => ?_⟩
      · simp only [Menu.prevLoop, h1, h2, heq, if_false, hr]
      · by_cases hj' : j' = i + 1
        · rw [hj']; exact heq
        · exact d j' h1' (by omega)

theorem prevLoop_none (m : Menu) (hlen : m.nodes.length = m.lastNode + 1) (node : Nat)
    (hnode : node ≤ m.lastNode) :
    ∀ i, i ≤ m.lastNode → (∀ j, 1 ≤ j → j ≤ i → m.par j ≠ m.par node) →
      m.prevLoop node i = none := by
  intro i
  induction i with
  | zero => intro _ _; rfl
  | succ i ih =>
    intro hi hall
    have h1 := parent_some m hlen (i + 1) hi
    have h2 := parent_some m hlen node hnode
    have hne := hall (i + 1) (by omega) (le_refl _)
    simp only [Menu.prevLoop, h1, h2, hne, if_false]
    exact ih (by omega) fun j a b => hall j a (by omega)

/-- The eldest sibling of a node of a sound table: the first node, or the node after the
parent. -/
theorem eldest_sibling (m : Menu) (ok : TreeOK m) (node : Nat) (h1 : 1 ≤ node)
    (h2 : node ≤ m.lastNode) :
    1 ≤ m.eld (m.par node) ∧ m.eld (m.par node) ≤ node ∧
      m.par (m.eld (m.par node)) = m.par node ∧ m.par node < m.eld (m.par node) := by
  by_cases hp : m.par node = 0
  · rw [hp, ok.root, ok.first]; exact ⟨le_refl _, h1, rfl, by omega⟩
  · obtain ⟨a, b⟩ := ok.par_eld node h1 h2 (by omega)
    have := ok.par_lt node h1 h2
    rw [a, b]; exact ⟨by omega, by omega, rfl, by omega⟩

theorem previousSibling_spec (m : Menu) (ok : TreeOK m) (node : Nat) (h1 : 1 ≤ node)
    (h2 : node ≤ m.lastNode) :
    ∃ r, m.previousSibling node = some r ∧ 1 ≤ r ∧ r ≤ node ∧ m.par r = m.par node := by
  have hlt := ok.par_lt node h1 h2
  have hp := parent_some m ok.len node h2
  have he := eldest_some m ok.len (m.par node) (by omega)
  obtain ⟨e1, e2, e3, -⟩ := eldest_sibling m ok node h1 h2
  by_cases heq : m.eld (m.par node) = node
  · exact ⟨node, by simp only [Menu.previousSibling, hp, he, heq, if_true], h1, le_refl _, rfl⟩
  · obtain ⟨r, hr, a, b, c, -⟩ := prevLoop_found m ok.len node h2 (node - 1) (by omega)
      ⟨m.eld (m.par node), e1, by omega, e3⟩
    exact ⟨r, by simp only [Menu.previousSibling, hp, he, heq, if_false, hr], a, by omega, c⟩

/-! ### Rank, sibling count and the display lines -/

theorem rankLoop_total (m : Menu) (hlen : m.nodes.length = m.lastNode + 1) (node : Nat)
    (hnode : node ≤ m.lastNode) :
    ∀ d fuel child r0, node - child ≤ d → child ≤ node → m.par child = m.par node →
      node - child < fuel → ∃ r, m.rankLoop node fuel child r0 = some r ∧ r0 ≤ r := by
  intro d
  induction d with
  | zero =>
    intro fuel child r0 hd hc _ hf
    obtain ⟨f, rfl⟩ : ∃ f, fuel = f + 1 := ⟨fuel - 1, by omega⟩
    have : child = node := by omega
    exact ⟨r0, by simp [Menu.rankLoop, this], le_refl _⟩
  | succ d ih =>
    intro fuel child r0 hd hc hp hf
    obtain ⟨f, rfl⟩ : ∃ f, fuel = f + 1 := ⟨fuel - 1, by omega⟩
    by_cases heq : child = node
    · exact ⟨r0, by simp [Menu.rankLoop, heq], le_refl _⟩
    · obtain ⟨c, hc1, hcase⟩ := nextSibling_spec m hlen child (by omega)
      have hlt : child < node := by omega
      rcases hcase with ⟨a, b, c1, c2⟩ | ⟨-, b⟩
      · have hcn : c ≤ node := by
          by_contra hgt
          exact c2 node hlt (by omega) hp.symm
        obtain ⟨r, hr, hle⟩ := ih f c (r0 + 1) (by omega) hcn (by rw [c1, hp]) (by omega)
        exact ⟨r, by simp only [Menu.rankLoop, ne_eq, heq, not_false_eq_true, if_true, hc1, hr],
          by omega⟩
      · exact absurd hp.symm (b node hlt hnode)

theorem rank_total (m : Menu) (ok : TreeOK m) (node : Nat) (h1 : 1 ≤ node)
    (h2 : node ≤ m.lastNode) : ∃ r, m.rank node = some r ∧ 1 ≤ r := by
  have hlt := ok.par_lt node h1 h2
  have hp := parent_some m ok.len node h2
  have he := eldest_some m ok.len (m.par node) (by omega)
  obtain ⟨e1, e2, e3, -⟩ := eldest_sibling m ok node h1 h2
  obtain ⟨r, hr, hle⟩ := rankLoop_total m ok.len node h2 (node - m.eld (m.par node))
    (m.lastNode + 2) (m.eld (m.par node)) 1 (le_refl _) e2 e3 (by omega)
  exact ⟨r, by simp only [Menu.rank, hp, he, hr], hle⟩

theorem countLoop_total (m : Menu) (hlen : m.nodes.length = m.lastNode + 1) (p : Nat) :
    ∀ k i count, k = 0 ∨ i + k ≤ m.lastNode + 1 → ∃ c, m.countLoop p k i count = some c := by
  intro k
  induction k with
  | zero => intro i count _; exact ⟨count, rfl⟩
  | succ k ih =>
    intro i count h
    have h1 := parent_some m hlen i (by omega)
    obtain ⟨c, hc⟩ := ih (i + 1) (if m.par i = p then count + 1 else count) (by omega)
    exact ⟨c, by simp only [Menu.countLoop, h1, hc]⟩

theorem siblingsCount_total (m : Menu) (ok : TreeOK m) (node : Nat) (h1 : 1 ≤ node)
    (h2 : node ≤ m.lastNode) : ∃ c, m.siblingsCount node = some c := by
  have hlt := ok.par_lt node h1 h2
  have hp := parent_some m ok.len node h2
  have he := eldest_some m ok.len (m.par node) (by omega)
  obtain ⟨c, hc⟩ := countLoop_total m ok.len (m.par node)
    (m.lastNode + 1 - m.eld (m.par node)) (m.eld (m.par node)) 0 (by omega)
  exact ⟨c, by simp only [Menu.siblingsCount, hp, he, hc]⟩

theorem iterNext_total (m : Menu) (hlen : m.nodes.length = m.lastNode + 1) :
    ∀ k child, child ≤ m.lastNode → ∃ r, m.iterNext k child = some r ∧ r ≤ m.lastNode := by
  intro k
  induction k with
  | zero => intro child h; exact ⟨child, rfl, h⟩
  | succ k ih =>
    intro child h
    obtain ⟨c, hc, -, hle, -⟩ := nextSibling_total m hlen child
    obtain ⟨r, hr, hrl⟩ := ih c (hle h)
    exact ⟨r, by simp only [Menu.iterNext, hc, hr], hrl⟩

theorem lcdLine_total (m : Menu) (ok : TreeOK m) (h1 : 1 ≤ m.currentNode)
    (h2 : m.currentNode ≤ m.lastNode) (i : Int) : ∃ l, m.lcdLine i = some l := by
  obtain ⟨r, hr, -⟩ := rank_total m ok _ h1 h2
  obtain ⟨sc, hsc⟩ := siblingsCount_total m ok _ h1 h2
  have hlt := ok.par_lt _ h1 h2
  have hp := parent_some m ok.len _ h2
  have he := eldest_some m ok.len (m.par m.currentNode) (by omega)
  obtain ⟨-, e2, -, -⟩ := eldest_sibling m ok _ h1 h2
  simp only [Menu.lcdLine, hr, hsc, hp, he]
  split
  · exact ⟨_, rfl⟩
  · obtain ⟨c, hc, hcl⟩ := iterNext_total m ok.len
      ((if (r : Int) ≥ m.LCDrows then i + 1 + ((r : Int) - m.LCDrows) else i + 1) - 1).toNat
      (m.eld (m.par m.currentNode)) (by omega)
    obtain ⟨l, hl⟩ := label_some m ok.len c hcl
    simp only [hc, hl]
    split_ifs <;> exact ⟨_, rfl⟩

/-! ### The display and `update` -/

theorem sameTree_refl (m : Menu) : m.sameTree m := ⟨rfl, rfl, rfl, rfl, rfl, rfl, rfl⟩

theorem sameTree_trans {a b c : Menu} (h1 : a.sameTree b) (h2 : b.sameTree c) :
    a.sameTree c := by
  obtain ⟨a1, a2, a3, a4, a5, a6, a7⟩ := h1
  obtain ⟨b1, b2, b3, b4, b5, b6, b7⟩ := h2
  exact ⟨b1.trans a1, b2.trans a2, b3.trans a3, b4.trans a4, b5.trans a5, b6.trans a6,
    b7.trans a7⟩

theorem treeOK_congr {m m' : Menu} (ok : TreeOK m) (hn : m'.nodes = m.nodes)
    (hl : m'.lastNode = m.lastNode) : TreeOK m' := by
  obtain ⟨a, b, c, d, e, f, g⟩ := ok
  refine ⟨?_, ?_, ?_, ?_, ?_, ?_, ?_⟩ <;> simp only [Menu.par, Menu.eld, hn, hl] at * <;>
    assumption

theorem toLCD_frame (m : Menu) (msg : List Char) (col row : Int) :
    m.sameTree (m.toLCD msg col row) ∧ (m.toLCD msg col row).currentNode = m.currentNode ∧
      (m.toLCD msg col row).lcdNeedsUpdate = m.lcdNeedsUpdate := by
  unfold Menu.toLCD
  split_ifs <;> exact ⟨⟨rfl, rfl, rfl, rfl, rfl, rfl, rfl⟩, rfl, rfl⟩

theorem clearLCD_frame (m : Menu) :
    m.sameTree m.clearLCD ∧ m.clearLCD.currentNode = m.currentNode ∧
      m.clearLCD.lcdNeedsUpdate = m.lcdNeedsUpdate := by
  unfold Menu.clearLCD
  split_ifs <;> exact ⟨⟨rfl, rfl, rfl, rfl, rfl, rfl, rfl⟩, rfl, rfl⟩

theorem showLoop_total : ∀ (k : Nat) (i : Int) (m : Menu), TreeOK m → 1 ≤ m.currentNode →
    m.currentNode ≤ m.lastNode →
    ∃ m', Menu.showLoop k i m = some m' ∧ m.sameTree m' ∧ m'.currentNode = m.currentNode ∧
      m'.lcdNeedsUpdate = m.lcdNeedsUpdate := by
  intro k
  induction k with
  | zero => intro i m _ _ _; exact ⟨m, rfl, sameTree_refl m, rfl, rfl⟩
  | succ k ih =>
    intro i m ok h1 h2
    obtain ⟨l, hl⟩ := lcdLine_total m ok h1 h2 i
    obtain ⟨f1, f2, f3⟩ := toLCD_frame m l 0 i
    obtain ⟨m', hm', g1, g2, g3⟩ := ih (i + 1) (m.toLCD l 0 i) (treeOK_congr ok f1.2.1 f1.2.2.1)
      (by rw [f2]; exact h1) (by rw [f2, f1.2.2.1]; exact h2)
    exact ⟨m', by simp only [Menu.showLoop, hl, hm'], sameTree_trans f1 g1, by rw [g2, f2],
      by rw [g3, f3]⟩

theorem showMenu_total (m : Menu) (ok : TreeOK m) (h1 : 1 ≤ m.currentNode)
    (h2 : m.currentNode ≤ m.lastNode) :
    ∃ m', m.showMenu = some m' ∧ m.sameTree m' ∧ m'.currentNode = m.currentNode ∧
      (m.lcdNeedsUpdate = true → m'.lcdNeedsUpdate = false) := by
  by_cases hu : m.lcdNeedsUpdate = true
  · obtain ⟨f1, f2, f3⟩ := clearLCD_frame m
    obtain ⟨m', hm', g1, g2, g3⟩ := showLoop_total m.LCDrows.toNat 0 m.clearLCD
      (treeOK_congr ok f1.2.1 f1.2.2.1) (by rw [f2]; exact h1) (by rw [f2, f1.2.2.1]; exact h2)
    refine ⟨{ m' with lcdNeedsUpdate := false }, by simp only [Menu.showMenu, hu, if_true, hm'],
      ?_, by simp only [g2, f2], fun _ => rfl⟩
    exact sameTree_trans f1 g1
  · exact ⟨m, by simp only [Menu.showMenu, hu, if_false, Bool.false_eq_true],
      sameTree_refl m, rfl, fun h => absurd h hu⟩

theorem refresh_total (m : Menu) (ok : TreeOK m) (h1 : 1 ≤ m.currentNode)
    (h2 : m.currentNode ≤ m.lastNode) (node : Nat) :
    ∃ m', m.refresh node = some (m', 0) ∧ m.sameTree m' ∧ m'.currentNode = m.currentNode ∧
      (m.currentNode = node → m' = m) ∧
      (m.currentNode ≠ node → m.handelingLcd = false → m' = { m with lcdNeedsUpdate := true }) ∧
      (m.currentNode ≠ node → m.handelingLcd = true → m'.lcdNeedsUpdate = false) := by
  by_cases hc : m.currentNode = node
  · exact ⟨m, by simp only [Menu.refresh, hc, ne_eq, not_true_eq_false, if_false],
      sameTree_refl m, rfl, fun _ => rfl, fun h => absurd hc h, fun h => absurd hc h⟩
  · by_cases hh : m.handelingLcd = true
    · obtain ⟨m', hm', g1, g2, g3⟩ := showMenu_total { m with lcdNeedsUpdate := true }
        (treeOK_congr ok rfl rfl) h1 h2
      refine ⟨m', ?_, g1, g2, fun h => absurd h hc, fun _ h => ?_, fun _ _ => g3 rfl⟩
      · simp only [hh] at hm'
        simp only [Menu.refresh, ne_eq, hc, not_false_eq_true, if_true, hh, hm']
      · rw [hh] at h; exact absurd h (by decide)
    · refine ⟨{ m with lcdNeedsUpdate := true }, ?_, ⟨rfl, rfl, rfl, rfl, rfl, rfl, rfl⟩, rfl,
        fun h => absurd h hc, fun _ _ => rfl, fun _ h => absurd h hh⟩
      simp only [Menu.refresh, ne_eq, hc, not_false_eq_true, if_true, hh, if_false,
        Bool.false_eq_true]

theorem update_up (m : Menu) (ok : TreeOK m) (h1 : 1 ≤ m.currentNode)
    (h2 : m.currentNode ≤ m.lastNode) :
    ∃ p m', m.previousSibling m.currentNode = some p ∧ m.update UP = some (m', 0) ∧
      m'.currentNode = p ∧ m.sameTree m' ∧ 1 ≤ p ∧ p ≤ m.currentNode ∧
      m.par p = m.par m.currentNode := by
  obtain ⟨p, hp, a, b, c⟩ := previousSibling_spec m ok _ h1 h2
  obtain ⟨m', hm', g1, g2, -⟩ := refresh_total { m with currentNode := p }
    (treeOK_congr ok rfl rfl) a (by show p ≤ m.lastNode; omega) m.currentNode
  refine ⟨p, m', hp, ?_, g2, g1, a, b, c⟩
  simp [Menu.update, Menu.keyUp, Menu.keyDown, Menu.keyLeft, UP, DOWN, LEFT, RIGHT, hp, hm']

theorem update_down (m : Menu) (ok : TreeOK m) (h1 : 1 ≤ m.currentNode)
    (h2 : m.currentNode ≤ m.lastNode) :
    ∃ p m', m.nextSibling m.currentNode = some p ∧ m.update DOWN = some (m', 0) ∧
      m'.currentNode = p ∧ m.sameTree m' ∧ m.currentNode ≤ p ∧ p ≤ m.lastNode ∧
      m.par p = m.par m.currentNode := by
  obtain ⟨p, hp, a, b, c⟩ := nextSibling_total m ok.len m.currentNode
  obtain ⟨m', hm', g1, g2, -⟩ := refresh_total { m with currentNode := p }
    (treeOK_congr ok rfl rfl) (by show 1 ≤ p; omega) (b h2) m.currentNode
  refine ⟨p, m', hp, ?_, g2, g1, a, b h2, c h2⟩
  simp [Menu.update, Menu.keyUp, Menu.keyDown, Menu.keyLeft, UP, DOWN, LEFT, RIGHT, hp, hm']

theorem update_left (m : Menu) (ok : TreeOK m) (h1 : 1 ≤ m.currentNode)
    (h2 : m.currentNode ≤ m.lastNode) :
    ∃ m', m.parent m.currentNode = some (m.par m.currentNode) ∧ m.update LEFT = some (m', 0) ∧
      m.sameTree m' ∧
      (m.par m.currentNode ≠ 0 → m'.currentNode = m.par m.currentNode) ∧
      (m.par m.currentNode = 0 → m' = m) := by
  have hp := parent_some m ok.len _ h2
  have hlt := ok.par_lt _ h1 h2
  by_cases hz : m.par m.currentNode = 0
  · refine ⟨m, hp, ?_, sameTree_refl m, fun h => absurd hz h, fun _ => rfl⟩
    simp [Menu.update, Menu.keyUp, Menu.keyDown, Menu.keyLeft, UP, DOWN, LEFT, RIGHT, hp, hz,
      Menu.refresh]
  · obtain ⟨m', hm', g1, g2, -⟩ := refresh_total { m with currentNode := m.par m.currentNode }
      (treeOK_congr ok rfl rfl) (by show 1 ≤ m.par m.currentNode; omega)
      (by show m.par m.currentNode ≤ m.lastNode; omega) m.currentNode
    refine ⟨m', hp, ?_, g1, fun _ => g2, fun h => absurd h hz⟩
    simp [Menu.update, Menu.keyUp, Menu.keyDown, Menu.keyLeft, UP, DOWN, LEFT, RIGHT, hp, hz, hm']

theorem update_other (m : Menu) (key : Int) (h1 : key ≠ UP) (h2 : key ≠ DOWN) (h3 : key ≠ LEFT)
    (h4 : key ≠ RIGHT) : m.update key = some (m, 0) := by
  simp [Menu.update, Menu.keyUp, Menu.keyDown, Menu.keyLeft, h1, h2, h3, h4, Menu.refresh]

theorem update_right_action (m : Menu) (a : Int) (ha : m.getAction = some a) (hpos : a > 0) :
    m.update RIGHT = some (m, a) := by
  simp [Menu.update, Menu.keyUp, Menu.keyDown, Menu.keyLeft, UP, DOWN, LEFT, RIGHT, ha, hpos]

theorem update_right_stay (m : Menu) (ok : TreeOK m) (h2 : m.currentNode ≤ m.lastNode)
    (a : Int) (ha : m.getAction = some a) (hpos : ¬ a > 0) (he : m.eld m.currentNode = 1) :
    m.update RIGHT = some (m, 0) := by
  have he' := eldest_some m ok.len _ h2
  simp [Menu.update, Menu.keyUp, Menu.keyDown, Menu.keyLeft, UP, DOWN, LEFT, RIGHT, ha, hpos, he',
    he, Menu.refresh]

theorem update_right_descend (m : Menu) (ok : TreeOK m) (h1 : 1 ≤ m.currentNode)
    (h2 : m.currentNode ≤ m.lastNode)
    (a : Int) (ha : m.getAction = some a) (hpos : ¬ a > 0) (he : m.eld m.currentNode ≠ 1) :
    ∃ m', m.update RIGHT = some (m', 0) ∧ m.sameTree m' ∧
      m'.currentNode = m.eld m.currentNode ∧ m.eld m.currentNode = m.currentNode + 1 ∧
      m.currentNode + 1 ≤ m.lastNode ∧ m.par (m.currentNode + 1) = m.currentNode := by
  have he' := eldest_some m ok.len _ h2
  rcases ok.eld_cases _ h1 h2 with e1 | ⟨e1, e2, e3⟩
  · exact absurd e1 he
  · obtain ⟨m', hm', g1, g2, -⟩ := refresh_total { m with currentNode := m.eld m.currentNode }
      (treeOK_congr ok rfl rfl) (by show 1 ≤ m.eld m.currentNode; omega)
      (by show m.eld m.currentNode ≤ m.lastNode; omega) m.currentNode
    refine ⟨m', ?_, g1, g2, e1, e2, e3⟩
    simp [Menu.update, Menu.keyUp, Menu.keyDown, Menu.keyLeft, UP, DOWN, LEFT, RIGHT, ha, hpos,
      he', he, hm']

theorem update_total (m : Menu) (ok : TreeOK m) (h1 : 1 ≤ m.currentNode)
    (h2 : m.currentNode ≤ m.lastNode) (key : Int) :
    ∃ m' a, m.update key = some (m', a) ∧ m.sameTree m' ∧ 1 ≤ m'.currentNode ∧
      m'.currentNode ≤ m.lastNode := by
  by_cases k1 : key = UP
  · obtain ⟨p, m', -, hu, hc, hs, a, b, -⟩ := update_up m ok h1 h2
    exact ⟨m', 0, by rw [k1]; exact hu, hs, by omega, by omega⟩
  by_cases k2 : key = DOWN
  · obtain ⟨p, m', -, hu, hc, hs, a, b, -⟩ := update_down m ok h1 h2
    exact ⟨m', 0, by rw [k2]; exact hu, hs, by omega, by omega⟩
  by_cases k3 : key = LEFT
  · obtain ⟨m', -, hu, hs, a, b⟩ := update_left m ok h1 h2
    have hlt := ok.par_lt _ h1 h2
    refine ⟨m', 0, by rw [k3]; exact hu, hs, ?_, ?_⟩ <;>
    · by_cases hz : m.par m.currentNode = 0
      · rw [b hz]; assumption
      · rw [a hz]; omega
  by_cases k4 : key = RIGHT
  · obtain ⟨a, ha⟩ := getAction_some m ok.len h2
    rw [k4]
    by_cases hpos : a > 0
    · exact ⟨m, a, update_right_action m a ha hpos, sameTree_refl m, h1, h2⟩
    · by_cases he : m.eld m.currentNode = 1
      · exact ⟨m, 0, update_right_stay m ok h2 a ha hpos he, sameTree_refl m, h1, h2⟩
      · obtain ⟨m', hu, hs, hc, e1, e2, -⟩ := update_right_descend m ok h1 h2 a ha hpos he
        exact ⟨m', 0, hu, hs, by omega, by omega⟩
  · exact ⟨m, 0, update_other m key k1 k2 k3 k4, sameTree_refl m, h1, h2⟩

theorem run_total (calls : List Call) : ∀ (m : Menu), TreeOK m → 1 ≤ m.currentNode →
    m.currentNode ≤ m.lastNode →
    ∃ m', m.run calls = some m' ∧ m.sameTree m' ∧ 1 ≤ m'.currentNode ∧
      m'.currentNode ≤ m'.lastNode := by
  induction calls with
  | nil => intro m _ h1 h2; exact ⟨m, rfl, sameTree_refl m, h1, h2⟩
  | cons c cs ih =>
    intro m ok h1 h2
    cases c with
    | update key =>
      obtain ⟨m1, a, hu, hs, g1, g2⟩ := update_total m ok h1 h2 key
      obtain ⟨m', hr, hs', g3, g4⟩ := ih m1 (treeOK_congr ok hs.2.1 hs.2.2.1) g1
        (by rw [hs.2.2.1]; exact g2)
      exact ⟨m', by simp only [Menu.run, hu, hr], sameTree_trans hs hs', g3, g4⟩
    | restart =>
      obtain ⟨m', hr, hs', g3, g4⟩ := ih m.restart (treeOK_congr ok rfl rfl)
        (by show 1 ≤ 1; omega) (by show 1 ≤ m.lastNode; exact ok.one)
      exact ⟨m', by simp only [Menu.run, hr],
        sameTree_trans ⟨rfl, rfl, rfl, rfl, rfl, rfl, rfl⟩ hs', g3, g4⟩

/-! ### The sources `wide n` -/

theorem wide_succ (n : Nat) : wide (n + 1) = leaf :: wide n := by
  simp [wide, List.replicate_succ]

theorem wide_length (n : Nat) : (wide n).length = n + 2 := by
  simp [wide]

theorem level_cons (x : Item) (l : List Item) (j : Nat) :
    level (x :: l) (j + 2) = level l (j + 1) := rfl

theorem level_wide_top (n : Nat) : ∀ j, 1 ≤ j → j ≤ n + 1 → level (wide n) j = 1 := by
  induction n with
  | zero => intro j h1 h2; obtain rfl : j = 1 := by omega
            rfl
  | succ n ih =>
    intro j h1 h2
    rw [wide_succ]
    obtain ⟨k, rfl⟩ : ∃ k, j = k + 1 := ⟨j - 1, by omega⟩
    cases k with
    | zero => rfl
    | succ k => rw [level_cons]; exact ih (k + 1) (by omega) (by omega)

theorem level_wide_child (n : Nat) : level (wide n) (n + 2) = 2 := by
  induction n with
  | zero => rfl
  | succ n ih => rw [wide_succ, level_cons]; exact ih

theorem itemAt_wide_parent (n : Nat) : itemAt (wide n) (n + 1) = ⟨1, ['P'], ['0', '0', '0']⟩ := by
  have := itemAt_split (List.replicate n leaf) ⟨1, ['P'], ['0', '0', '0']⟩
    [⟨2, ['C'], ['1', '0', '1']⟩]
  simpa [wide] using this

theorem wide_wf (n : Nat) : WellFormed (wide n) := by
  refine ⟨?_, ?_, ?_⟩
  · cases n <;> rfl
  · intro it hit
    simp only [wide, List.mem_append, List.mem_replicate, List.mem_cons, List.mem_singleton,
      List.not_mem_nil, or_false] at hit
    rcases hit with ⟨-, rfl⟩ | rfl | rfl <;> decide
  · intro i hi
    rw [wide_length] at hi
    have h1 := level_wide_top n (i + 1) (by omega) (by omega)
    by_cases hlast : i + 2 = n + 2
    · rw [hlast, level_wide_child, h1]
    · rw [level_wide_top n (i + 2) (by omega) (by omega), h1]; omega

/-- The stored fields of the last two nodes of the tree compiled from `wide n`. -/
theorem wide_compiled (n : Nat) (m : Menu) (hm : m.compiledFrom (source (wide n))) :
    m.nodes.length = m.lastNode + 1 ∧ m.lastNode = n + 2 ∧
      (∀ j, 1 ≤ j → j ≤ n + 1 → m.par j = 0) ∧
      m.par (n + 2) = toByte (n + 1) ∧ m.eld (n + 1) = toByte (n + 2) ∧
      m.eld 0 = 1 ∧ m.par 0 = 0 ∧
      (m.nodes.getD (n + 1) node.zero).action = 0 := by
  have hwf := wide_wf n
  obtain ⟨-, hn, hl⟩ := compiled_fields _ hwf m hm
  have hlv := levelsOK_of_wf _ hwf
  rw [wide_length] at hl hlv
  refine ⟨by rw [hn, hl, expNodes_length, wide_length], hl, ?_, ?_, ?_, ?_, ?_, ?_⟩
  · intro j h1 h2
    rw [par_compiled _ hwf m hm j h1 (by rw [wide_length]; omega)]
    have := encl_top _ _ hlv j (by omega) (level_wide_top n j h1 h2)
    unfold encl; rw [this]; rfl
  · rw [par_compiled _ hwf m hm _ (by omega) (by rw [wide_length])]
    have := encl_child (level (wide n)) (n + 1)
      (by rw [level_wide_child, level_wide_top n (n + 1) (by omega) (le_refl _)])
    unfold encl; rw [this]
  · rw [eld_compiled _ hwf m hm _ (by omega) (by rw [wide_length]; omega)]
    have : level (wide n) (n + 1 + 1) > level (wide n) (n + 1) := by
      rw [level_wide_child, level_wide_top n (n + 1) (by omega) (le_refl _)]; omega
    simp only [this, if_true]
  · simp [Menu.eld, hn, expNodes]
  · simp [Menu.par, hn, expNodes]
  · rw [hn, expNodes_getD _ _ (by omega) (by rw [wide_length]; omega)]
    simp only [expNode, itemAt_wide_parent]
    rfl

theorem source_scenario : source scenario = "-READ:000--A:101--B:102-SET:000".toList := by
  decide

theorem source_single : source single = "-A:101".toList := by decide

theorem items_split (its : List Item) (i : Nat) (h1 : 1 ≤ i) (h2 : i ≤ its.length) :
    its = its.take (i - 1) ++ itemAt its i :: its.drop i ∧ (its.take (i - 1)).length = i - 1 := by
  obtain ⟨k, rfl⟩ : ∃ k, i = k + 1 := ⟨i - 1, by omega⟩
  have hk : k < its.length := by omega
  refine ⟨?_, by simp; omega⟩
  simp only [Nat.add_sub_cancel, itemAt, List.getD_eq_getElem?_getD, List.getElem?_eq_getElem hk,
    Option.getD_some]
  rw [← List.drop_eq_getElem_cons hk, List.take_append_drop]

theorem source_split (its : List Item) (i : Nat) (h1 : 1 ≤ i) (h2 : i ≤ its.length) :
    source its = ((source (its.take (i - 1)) ++ List.replicate (level its i) '-') ++
        (itemAt its i).label) ++ (':' :: (itemAt its i).digits ++ source (its.drop i)) ∧
      (source (its.take (i - 1)) ++ List.replicate (level its i) '-').length
        = labelStart its i := by
  obtain ⟨hs, hl⟩ := items_split its i h1 h2
  have hlev : level its i = (itemAt its i).dashes := by
    obtain ⟨k, rfl⟩ : ∃ k, i = k + 1 := ⟨i - 1, by omega⟩
    rfl
  constructor
  · conv_lhs => rw [hs]
    simp [source_append, source, Item.text, hlev]
  · simp [labelStart]

theorem label_compiled (its : List Item) (h : WellFormed its) (m : Menu)
    (hm : m.compiledFrom (source its)) (i : Nat) (h1 : 1 ≤ i) (h2 : i ≤ its.length) :
    m.label i = some (itemAt its i).label := by
  obtain ⟨hsrc, hn, -⟩ := compiled_fields its h m hm
  obtain ⟨hs, hl⟩ := source_split its i h1 h2
  have hsub := substring_middle (source (its.take (i - 1)) ++ List.replicate (level its i) '-')
    (itemAt its i).label (':' :: (itemAt its i).digits ++ source (its.drop i))
  rw [← hs, hl] at hsub
  simp only [Menu.label, hn, expNodes_get its i h1 h2, Option.map_some', hsrc, expNode, hsub]

theorem construct_compiled (its : List Item) (h : WellFormed its) :
    ∃ m, Menu.construct (source its) = some m ∧ m.compiledFrom (source its) ∧
      m.currentNode = 1 ∧ m.handelingLcd = false ∧ m.lcdNeedsUpdate = true :=
  ⟨_, construct_wf its h, ⟨_, construct_wf its h, rfl, rfl, rfl⟩, rfl, rfl, rfl⟩

theorem itemAt_mem (its : List Item) (i : Nat) (h1 : 1 ≤ i) (h2 : i ≤ its.length) :
    itemAt its i ∈ its := by
  have hk : i - 1 < its.length := by omega
  simp only [itemAt, List.getD_eq_getElem?_getD, List.getElem?_eq_getElem hk, Option.getD_some]
  exact List.getElem_mem hk

/-! ### Navigation on the 256-item source `wide 254` -/

theorem rankLoop_none (m : Menu) (hlen : m.nodes.length = m.lastNode + 1) (node : Nat) :
    ∀ fuel child r, node < child → m.rankLoop node fuel child r = none := by
  intro fuel
  induction fuel with
  | zero => intro _ _ _; rfl
  | succ f ih =>
    intro child r hlt
    obtain ⟨c, hc, hle, -⟩ := nextSibling_total m hlen child
    have hne : child ≠ node := by omega
    simp only [Menu.rankLoop, ne_eq, hne, not_false_eq_true, if_true, hc]
    exact ih c (r + 1) (by omega)

theorem rank_zero_none (m : Menu) (hlen : m.nodes.length = m.lastNode + 1)
    (hp : m.par 0 = 0) (he : m.eld 0 = 1) : m.rank 0 = none := by
  have h1 := parent_some m hlen 0 (by omega)
  have h2 := eldest_some m hlen 0 (by omega)
  rw [hp] at h1
  rw [he] at h2
  simp only [Menu.rank, h1, h2]
  exact rankLoop_none m hlen 0 _ 1 1 (by omega)

theorem showMenu_zero_none (m : Menu) (hlen : m.nodes.length = m.lastNode + 1)
    (hp : m.par 0 = 0) (he : m.eld 0 = 1) (hc : m.currentNode = 0)
    (hu : m.lcdNeedsUpdate = true) (k : Nat) (hr : m.LCDrows.toNat = k + 1) :
    m.showMenu = none := by
  obtain ⟨⟨-, f2, f3, -⟩, f4, -⟩ := clearLCD_frame m
  have hrank : m.clearLCD.rank m.clearLCD.currentNode = none := by
    rw [f4, hc]
    exact rank_zero_none m.clearLCD (by rw [f2, f3]; exact hlen)
      (by simp only [Menu.par, f2]; exact hp) (by simp only [Menu.eld, f2]; exact he)
  have hline : m.clearLCD.lcdLine 0 = none := by simp only [Menu.lcdLine, hrank]
  simp only [Menu.showMenu, hu, if_true, hr, Menu.showLoop, hline]

theorem compiledFrom_cursor {m : Menu} {src : List Char} (hm : m.compiledFrom src)
    (m' : Menu) (h1 : m'.MYitems = m.MYitems) (h2 : m'.nodes = m.nodes)
    (h3 : m'.lastNode = m.lastNode) : m'.compiledFrom src := by
  obtain ⟨m0, a, b, c, d⟩ := hm
  exact ⟨m0, a, h1.trans b, h2.trans c, h3.trans d⟩

theorem wide_getAction (m : Menu) (hm : m.compiledFrom (source (wide 254)))
    (hc : m.currentNode = 255) : m.getAction = some 0 := by
  obtain ⟨hlen, hl, -, -, -, -, -, ha⟩ := wide_compiled 254 m hm
  have hlt : 255 < m.nodes.length := by omega
  simp only [Menu.getAction, hc, List.get?_eq_getElem?, List.getElem?_eq_getElem hlt,
    Option.map_some']
  simp only [List.getD_eq_getElem?_getD, List.getElem?_eq_getElem hlt, Option.getD_some] at ha
  rw [ha]

theorem wide_right_wraps (m : Menu) (hm : m.compiledFrom (source (wide 254)))
    (hc : m.currentNode = 255) (hh : m.handelingLcd = false) :
    m.update RIGHT = some ({ m with currentNode := 0, lcdNeedsUpdate := true }, 0) := by
  obtain ⟨hlen, hl, -, -, he, -⟩ := wide_compiled 254 m hm
  have ha := wide_getAction m hm hc
  have he' := eldest_some m hlen 255 (by omega)
  rw [he] at he'
  have hb : toByte (254 + 2) = 0 := rfl
  rw [hb] at he'
  simp [Menu.update, Menu.keyUp, Menu.keyDown, Menu.keyLeft, UP, DOWN, LEFT, RIGHT, ha, he',
    Menu.refresh, hc, hh]

theorem wide_down_step (m : Menu) (hm : m.compiledFrom (source (wide 254)))
    (h1 : 1 ≤ m.currentNode) (h2 : m.currentNode ≤ 254) (hh : m.handelingLcd = false) :
    m.update DOWN
      = some ({ m with currentNode := m.currentNode + 1, lcdNeedsUpdate := true }, 0) := by
  obtain ⟨hlen, hl, hp, -⟩ := wide_compiled 254 m hm
  have hp1 := parent_some m hlen m.currentNode (by omega)
  have hp2 := parent_some m hlen (m.currentNode + 1) (by omega)
  rw [hp _ h1 (by omega)] at hp1
  rw [hp _ (by omega) (by omega)] at hp2
  obtain ⟨k, hk⟩ : ∃ k, m.lastNode - m.currentNode = k + 1 :=
    ⟨m.lastNode - m.currentNode - 1, by omega⟩
  have hnext : m.nextSibling m.currentNode = some (m.currentNode + 1) := by
    simp only [Menu.nextSibling, hk, Menu.nextLoop, hp1, hp2, if_true]
  simp [Menu.update, Menu.keyUp, Menu.keyDown, Menu.keyLeft, UP, DOWN, LEFT, RIGHT, hnext,
    Menu.refresh, hh]

theorem wide_down_run : ∀ (k : Nat) (m : Menu), m.compiledFrom (source (wide 254)) →
    1 ≤ m.currentNode → m.currentNode + k ≤ 255 → m.handelingLcd = false →
    ∃ m', m.run (List.replicate k (Call.update DOWN)) = some m' ∧
      m'.compiledFrom (source (wide 254)) ∧ m'.currentNode = m.currentNode + k ∧
      m'.handelingLcd = false := by
  intro k
  induction k with
  | zero => intro m hm _ _ hh; exact ⟨m, rfl, hm, rfl, hh⟩
  | succ k ih =>
    intro m hm h1 h2 hh
    have hstep := wide_down_step m hm h1 (by omega) hh
    obtain ⟨m', hr, a, b, c⟩ :=
      ih { m with currentNode := m.currentNode + 1, lcdNeedsUpdate := true }
        (compiledFrom_cursor hm _ rfl rfl rfl) (by show 1 ≤ m.currentNode + 1; omega)
        (by show m.currentNode + 1 + k ≤ 255; omega) hh
    refine ⟨m', ?_, a, ?_, c⟩
    · simp only [List.replicate_succ, Menu.run, hstep, hr]
    · rw [b]; show m.currentNode + 1 + k = m.currentNode + (k + 1); omega

theorem run_append (a b : List Call) : ∀ m : Menu,
    m.run (a ++ b) = (m.run a).bind fun m' => m'.run b := by
  induction a with
  | nil => intro m; rfl
  | cons c cs ih =>
    intro m
    cases c with
    | update key =>
      simp only [List.cons_append, Menu.run]
      cases m.update key with
      | none => rfl
      | some r => exact ih r.1
    | restart => simp only [List.cons_append, Menu.run]; exact ih _

theorem scenario_construct : Menu.construct (source scenario) = some (scenarioMenu 1) :=
  construct_wf scenario (by decide)

theorem scenario_compiled (c : Nat) : (scenarioMenu c).compiledFrom (source scenario) :=
  ⟨scenarioMenu 1, scenario_construct, rfl, rfl, rfl⟩

theorem getAction_compiled (its : List Item) (h : WellFormed its) (m : Menu)
    (hm : m.compiledFrom (source its)) (h1 : 1 ≤ m.currentNode)
    (h2 : m.currentNode ≤ m.lastNode) :
    m.getAction = some ((itemAt its m.currentNode).value : Int) := by
  obtain ⟨-, hn, hl⟩ := compiled_fields its h m hm
  simp only [Menu.getAction, hn, expNodes_get its _ h1 (by omega), Option.map_some', expNode]

theorem update_right_unfold (m : Menu) (a : Int) (e : Nat) (ha : m.getAction = some a)
    (hpos : ¬ a > 0) (he : m.eldest m.currentNode = some e) (hne : e ≠ 1) :
    m.update RIGHT = Menu.refresh { m with currentNode := e } m.currentNode := by
  simp [Menu.update, Menu.keyUp, Menu.keyDown, Menu.keyLeft, UP, DOWN, LEFT, RIGHT, ha, hpos, he,
    hne]

theorem refresh_none (m : Menu) (node : Nat) (hc : m.currentNode ≠ node)
    (hh : m.handelingLcd = true)
    (hs : Menu.showMenu { m with lcdNeedsUpdate := true } = none) : m.refresh node = none := by
  simp only [hh] at hs
  simp only [Menu.refresh, ne_eq, hc, not_false_eq_true, if_true, hh, hs]

theorem updown_run (c : Nat) : ∀ keys : List Int, (∀ k ∈ keys, k = UP ∨ k = DOWN) →
    ∀ m : Menu, TreeOK m → 1 ≤ m.currentNode → m.currentNode ≤ m.lastNode →
      m.par m.currentNode = c →
      ∃ m', m.run (keys.map Call.update) = some m' ∧ m.sameTree m' ∧ 1 ≤ m'.currentNode ∧
        m'.currentNode ≤ m'.lastNode ∧ m'.par m'.currentNode = c := by
  intro keys
  induction keys with
  | nil => intro _ m _ h1 h2 hp; exact ⟨m, rfl, sameTree_refl m, h1, h2, hp⟩
  | cons k ks ih =>
    intro hk m ok h1 h2 hp
    have hstep : ∃ m1, m.update k = some (m1, 0) ∧ m.sameTree m1 ∧ 1 ≤ m1.currentNode ∧
        m1.currentNode ≤ m1.lastNode ∧ m1.par m1.currentNode = c := by
      rcases hk k (by simp) with rfl | rfl
      · obtain ⟨p, m1, -, hu, hc, hs, a, b, e⟩ := update_up m ok h1 h2
        refine ⟨m1, hu, hs, by omega, by rw [hs.2.2.1]; omega, ?_⟩
        simp only [Menu.par, hs.2.1, hc]
        exact e.trans hp
      · obtain ⟨p, m1, -, hu, hc, hs, a, b, e⟩ := update_down m ok h1 h2
        refine ⟨m1, hu, hs, by omega, by rw [hs.2.2.1]; omega, ?_⟩
        simp only [Menu.par, hs.2.1, hc]
        exact e.trans hp
    obtain ⟨m1, hu, hs, a, b, e⟩ := hstep
    obtain ⟨m', hr, hs', a', b', e'⟩ := ih (fun x hx => hk x (by simp [hx])) m1
      (treeOK_congr ok hs.2.1 hs.2.2.1) a b e
    exact ⟨m', by simp only [List.map_cons, Menu.run, hu, hr], sameTree_trans hs hs', a', b', e'⟩

/-! ### Counting siblings -/

theorem cnt_add (m : Menu) (p : Nat) : ∀ k1 a k2,
    m.cnt p a (k1 + k2) = m.cnt p a k1 + m.cnt p (a + k1) k2 := by
  intro k1
  induction k1 with
  | zero => intro a k2; simp [Menu.cnt]
  | succ k ih =>
    intro a k2
    have e : k + 1 + k2 = (k + k2) + 1 := by omega
    rw [e]
    simp only [Menu.cnt, ih (a + 1) k2]
    have e2 : a + 1 + k = a + (k + 1) := by omega
    rw [e2]; omega

theorem cnt_zero (m : Menu) (p : Nat) : ∀ k a, (∀ i, a ≤ i → i < a + k → m.par i ≠ p) →
    m.cnt p a k = 0 := by
  intro k
  induction k with
  | zero => intro _ _; rfl
  | succ k ih =>
    intro a h
    have h0 := h a (le_refl _) (by omega)
    simp only [Menu.cnt, h0, if_false]
    rw [ih (a + 1) fun i h1 h2 => h i (by omega) (by omega)]

theorem cnt_pos (m : Menu) (p : Nat) : ∀ k a, 0 < m.cnt p a k →
    ∃ i, a ≤ i ∧ i < a + k ∧ m.par i = p := by
  intro k a h
  by_contra hc
  have := cnt_zero m p k a fun i h1 h2 he => hc ⟨i, h1, h2, he⟩
  omega

theorem cnt_one (m : Menu) (p a : Nat) (h : m.par a = p) : m.cnt p a 1 = 1 := by
  simp [Menu.cnt, h]

theorem cnt_le (m : Menu) (p : Nat) : ∀ k a, m.cnt p a k ≤ k := by
  intro k
  induction k with
  | zero => intro _; simp [Menu.cnt]
  | succ k ih =>
    intro a
    have := ih (a + 1)
    simp only [Menu.cnt]
    split <;> omega

/-- The count over `[a, b)` when `c` in `[a, b)` is a sibling: the part below, `c`, the part
above. -/
theorem cnt_split_at (m : Menu) (p a b c : Nat) (h1 : a ≤ c) (h2 : c < b) (hc : m.par c = p) :
    m.cnt p a (b - a) = m.cnt p a (c - a) + 1 + m.cnt p (c + 1) (b - (c + 1)) := by
  have e : b - a = (c - a) + (1 + (b - (c + 1))) := by omega
  rw [e, cnt_add, cnt_add]
  have e2 : a + (c - a) = c := by omega
  rw [e2, cnt_one m p c hc]
  omega

theorem filter_length_cons (p : Nat → Bool) (a : Nat) (l : List Nat) :
    ((a :: l).filter p).length = (if p a = true then 1 else 0) + (l.filter p).length := by
  cases h : p a <;> simp [List.filter, h]
  omega

theorem siblingsIn_eq_cnt (m : Menu) (hlen : m.nodes.length = m.lastNode + 1) (n : Nat)
    (hn : n ≤ m.lastNode) : ∀ k a, a + k ≤ m.lastNode + 1 →
      ((List.range' a k).filter fun i => decide (m.parent i = m.parent n)).length
        = m.cnt (m.par n) a k := by
  intro k
  induction k with
  | zero => intro a _; rfl
  | succ k ih =>
    intro a h
    have h1 := parent_some m hlen a (by omega)
    have h2 := parent_some m hlen n hn
    rw [List.range'_succ, filter_length_cons, ih (a + 1) (by omega)]
    simp only [Menu.cnt, h1, h2, Option.some.injEq, decide_eq_true_eq]

theorem siblingsIn_cnt (m : Menu) (hlen : m.nodes.length = m.lastNode + 1) (n a b : Nat)
    (hn : n ≤ m.lastNode) (hb : b ≤ m.lastNode + 1) :
    m.siblingsIn n a b = m.cnt (m.par n) a (b - a) := by
  by_cases hab : a ≤ b
  · exact siblingsIn_eq_cnt m hlen n hn (b - a) a (by omega)
  · have : b - a = 0 := by omega
    simp [Menu.siblingsIn, this, Menu.cnt]

theorem tableOK_compiled (its : List Item) (h : WellFormed its) (m : Menu)
    (hm : m.compiledFrom (source its)) : TableOK m := by
  obtain ⟨-, hn, hl⟩ := compiled_fields its h m hm
  have hroot : m.eld 0 = 1 := by simp [Menu.eld, hn, expNodes]
  refine ⟨by rw [hn, hl, expNodes_length], by simp [Menu.par, hn, expNodes], hroot, ?_, ?_⟩
  · intro i h1 h2
    rw [par_compiled its h m hm i h1 (by omega)]
    have := toByte_le (encl its i)
    have := encl_lt its i h1
    omega
  · intro q hq
    by_cases h0 : q = 0
    · rw [h0, hroot]
    · rw [eld_compiled its h m hm q (by omega) (by omega)]
      have := toByte_le (q + 1)
      split_ifs <;> omega

/-! ### What `rank` and `siblingsCount` compute -/

theorem countLoop_spec (m : Menu) (hlen : m.nodes.length = m.lastNode + 1) (p : Nat) :
    ∀ k i count, k = 0 ∨ i + k ≤ m.lastNode + 1 →
      m.countLoop p k i count = some (count + m.cnt p i k) := by
  intro k
  induction k with
  | zero => intro i count _; rfl
  | succ k ih =>
    intro i count h
    have h1 := parent_some m hlen i (by omega)
    simp only [Menu.countLoop, h1, ih (i + 1) _ (Or.inr (by omega)), Menu.cnt]
    split_ifs <;> congr 1 <;> omega

/-- No sibling lies below the index stored as the eldest child of the parent. -/
theorem cnt_below_eldest (m : Menu) (ok : TableOK m) (n : Nat) (h1 : 1 ≤ n)
    (h2 : n ≤ m.lastNode) :
    m.cnt (m.par n) (m.eld (m.par n)) (m.lastNode + 1 - m.eld (m.par n))
      = m.cnt (m.par n) 1 m.lastNode := by
  have hlt := ok.par_lt n h1 h2
  have hle := ok.eld_le (m.par n) (by omega)
  by_cases h0 : m.eld (m.par n) = 0
  · have hp : m.par n ≠ 0 := by
      intro hz; rw [hz, ok.root] at h0; omega
    rw [h0]
    have e : m.lastNode + 1 - 0 = 1 + m.lastNode := by omega
    rw [e, cnt_add]
    have hz : m.cnt (m.par n) 0 1 = 0 := by
      simp only [Menu.cnt, ok.par0]
      have : ¬ (0 = m.par n) := fun h => hp h.symm
      simp [this]
    rw [hz]; simp
  · have e : m.lastNode = (m.eld (m.par n) - 1) + (m.lastNode + 1 - m.eld (m.par n)) := by omega
    conv_rhs => rw [e, cnt_add]
    have hz : m.cnt (m.par n) 1 (m.eld (m.par n) - 1) = 0 := by
      apply cnt_zero
      intro i a b
      have := ok.par_lt i a (by omega)
      omega
    have e2 : 1 + (m.eld (m.par n) - 1) = m.eld (m.par n) := by omega
    rw [hz, e2]; simp

theorem siblingsCount_spec (m : Menu) (ok : TableOK m) (n : Nat) (h1 : 1 ≤ n)
    (h2 : n ≤ m.lastNode) : m.siblingsCount n = some (m.cnt (m.par n) 1 m.lastNode) := by
  have hlt := ok.par_lt n h1 h2
  have hle := ok.eld_le (m.par n) (by omega)
  have hp := parent_some m ok.len n h2
  have he := eldest_some m ok.len (m.par n) (by omega)
  simp only [Menu.siblingsCount, hp, he]
  rw [countLoop_spec m ok.len _ _ _ _ (Or.inr (by omega)), cnt_below_eldest m ok n h1 h2]
  simp

theorem rankLoop_spec (m : Menu) (hlen : m.nodes.length = m.lastNode + 1) (node : Nat)
    (hnode : node ≤ m.lastNode) :
    ∀ d fuel child r0, node - child ≤ d → child ≤ node → m.par child = m.par node →
      node - child < fuel →
      m.rankLoop node fuel child r0
        = some (r0 + m.cnt (m.par node) (child + 1) (node - child)) := by
  intro d
  induction d with
  | zero =>
    intro fuel child r0 hd hc _ hf
    obtain ⟨f, rfl⟩ : ∃ f, fuel = f + 1 := ⟨fuel - 1, by omega⟩
    have : child = node := by omega
    simp [Menu.rankLoop, this, Menu.cnt]
  | succ d ih =>
    intro fuel child r0 hd hc hp hf
    obtain ⟨f, rfl⟩ : ∃ f, fuel = f + 1 := ⟨fuel - 1, by omega⟩
    by_cases heq : child = node
    · simp [Menu.rankLoop, heq, Menu.cnt]
    · obtain ⟨c, hc1, hcase⟩ := nextSibling_spec m hlen child (by omega)
      have hlt : child < node := by omega
      rcases hcase with ⟨a, b, c1, c2⟩ | ⟨-, b⟩
      · have hcn : c ≤ node := by
          by_contra hgt
          exact c2 node hlt (by omega) hp.symm
        have hstep := ih f c (r0 + 1) (by omega) hcn (by rw [c1, hp]) (by omega)
        simp only [Menu.rankLoop, ne_eq, heq, not_false_eq_true, if_true, hc1, hstep]
        have e : node - child = (c - (child + 1)) + (1 + (node - c)) := by omega
        have hz : m.cnt (m.par node) (child + 1) (c - (child + 1)) = 0 := by
          apply cnt_zero
          intro i x y
          rw [← hp]; exact c2 i (by omega) (by omega)
        have e2 : child + 1 + (c - (child + 1)) = c := by omega
        rw [e, cnt_add, cnt_add, hz, e2, cnt_one m _ c (by rw [c1, hp])]
        congr 1; omega
      · exact absurd hp.symm (b node hlt hnode)

/-- In a sound table the siblings of `x` below `x` are those between the eldest child of the
parent and `x`. -/
theorem cnt_from_eldest (m : Menu) (ok : TreeOK m) (x : Nat) (h1 : 1 ≤ x)
    (h2 : x ≤ m.lastNode) :
    m.cnt (m.par x) 1 (x - 1)
      = m.cnt (m.par x) (m.eld (m.par x) + 1) (x - m.eld (m.par x)) := by
  obtain ⟨e1, e2, e3, e4⟩ := eldest_sibling m ok x h1 h2
  have hz : m.cnt (m.par x) 1 (m.eld (m.par x) - 1) = 0 := by
    apply cnt_zero
    intro i a b
    have hlt := ok.par_lt i a (by omega)
    by_cases hp : m.par x = 0
    · rw [hp, ok.root] at b; omega
    · obtain ⟨q, -⟩ := ok.par_eld x h1 h2 (by omega)
      omega
  by_cases he : m.eld (m.par x) = x
  · rw [he] at hz ⊢
    rw [hz]; simp [Menu.cnt]
  · have hs := cnt_split_at m (m.par x) 1 x (m.eld (m.par x)) e1 (by omega) e3
    have e : x - 1 = x - 1 := rfl
    rw [hs, hz]
    have hs3 := cnt_split_at m (m.par x) (m.eld (m.par x) + 1) (x + 1) x (by omega) (by omega) rfl
    have e7 : x + 1 - (m.eld (m.par x) + 1) = x - m.eld (m.par x) := by omega
    have hz0 : m.cnt (m.par x) (x + 1) (x + 1 - (x + 1)) = 0 := by rw [Nat.sub_self]; rfl
    rw [e7, hz0] at hs3
    omega

theorem rank_spec (m : Menu) (ok : TreeOK m) (n : Nat) (h1 : 1 ≤ n) (h2 : n ≤ m.lastNode) :
    m.rank n = some (1 + m.cnt (m.par n) 1 (n - 1)) := by
  have hlt := ok.par_lt n h1 h2
  have hp := parent_some m ok.len n h2
  have he := eldest_some m ok.len (m.par n) (by omega)
  obtain ⟨e1, e2, e3, -⟩ := eldest_sibling m ok n h1 h2
  have hr := rankLoop_spec m ok.len n h2 (n - m.eld (m.par n)) (m.lastNode + 2)
    (m.eld (m.par n)) 1 (le_refl _) e2 e3 (by omega)
  simp only [Menu.rank, hp, he, hr, cnt_from_eldest m ok n h1 h2]

theorem rank_le_count (m : Menu) (n : Nat) (h1 : 1 ≤ n) (h2 : n ≤ m.lastNode) :
    1 + m.cnt (m.par n) 1 (n - 1) ≤ m.cnt (m.par n) 1 m.lastNode := by
  have := cnt_split_at m (m.par n) 1 (m.lastNode + 1) n h1 (by omega) rfl
  simp only [Nat.add_sub_cancel] at this
  omega

theorem nextSibling_fixed (m : Menu) (hlen : m.nodes.length = m.lastNode + 1) (y : Nat)
    (hy : y ≤ m.lastNode) (hz : m.cnt (m.par y) (y + 1) (m.lastNode - y) = 0) :
    m.nextSibling y = some y := by
  obtain ⟨r, hr, hcase⟩ := nextSibling_spec m hlen y hy
  rcases hcase with ⟨a, b, c, -⟩ | ⟨a, -⟩
  · have hs := cnt_split_at m (m.par y) (y + 1) (m.lastNode + 1) r (by omega) (by omega) c
    have e : m.lastNode + 1 - (y + 1) = m.lastNode - y := by omega
    rw [e] at hs
    omega
  · rw [hr, a]

theorem iterNext_count (m : Menu) (hlen : m.nodes.length = m.lastNode + 1) (p : Nat) :
    ∀ j child, child ≤ m.lastNode → m.par child = p →
      j ≤ m.cnt p (child + 1) (m.lastNode - child) →
      ∃ y, m.iterNext j child = some y ∧ child ≤ y ∧ y ≤ m.lastNode ∧ m.par y = p ∧
        m.cnt p (child + 1) (y - child) = j := by
  intro j
  induction j with
  | zero => intro child h hp _; exact ⟨child, rfl, le_refl _, h, hp, by simp [Menu.cnt]⟩
  | succ j ih =>
    intro child h hp hj
    obtain ⟨c, hc, hcase⟩ := nextSibling_spec m hlen child h
    rcases hcase with ⟨a, b, c1, c2⟩ | ⟨-, b⟩
    · have hz : m.cnt p (child + 1) (c - (child + 1)) = 0 := by
        apply cnt_zero
        intro i x y
        rw [← hp]; exact c2 i (by omega) (by omega)
      have hs := cnt_split_at m p (child + 1) (m.lastNode + 1) c (by omega) (by omega)
        (by rw [c1, hp])
      have e : m.lastNode + 1 - (child + 1) = m.lastNode - child := by omega
      have e' : m.lastNode + 1 - (c + 1) = m.lastNode - c := by omega
      rw [e, e', hz] at hs
      obtain ⟨y, hy, y1, y2, y3, y4⟩ := ih c b (by rw [c1, hp]) (by omega)
      refine ⟨y, by simp only [Menu.iterNext, hc, hy], by omega, y2, y3, ?_⟩
      have hs2 := cnt_split_at m p (child + 1) (y + 1) c (by omega) (by omega) (by rw [c1, hp])
      have e2 : y + 1 - (child + 1) = y - child := by omega
      have e3 : y + 1 - (c + 1) = y - c := by omega
      rw [e2, e3, hz, y4] at hs2
      omega
    · have : m.cnt p (child + 1) (m.lastNode - child) = 0 := by
        apply cnt_zero
        intro i x y
        rw [← hp]; exact b i (by omega) (by omega)
      omega

theorem iterNext_succ_back (m : Menu) : ∀ j child,
    m.iterNext (j + 1) child = (m.iterNext j child).bind m.nextSibling := by
  intro j
  induction j with
  | zero =>
    intro child
    cases h : m.nextSibling child <;> simp [Menu.iterNext, h]
  | succ j ih =>
    intro child
    rw [Menu.iterNext]
    cases h : m.nextSibling child with
    | none => simp [Menu.iterNext, h]
    | some c => simp only [ih c]; simp [Menu.iterNext, h]

theorem sibling_unique (m : Menu) (p child y c : Nat) (hy : child ≤ y) (hc : child ≤ c)
    (py : m.par y = p) (pc : m.par c = p)
    (h : m.cnt p (child + 1) (y - child) = m.cnt p (child + 1) (c - child)) : y = c := by
  rcases Nat.lt_trichotomy y c with hlt | heq | hgt
  · have hs := cnt_split_at m p (child + 1) (c + 1) c (by omega) (by omega) pc
    have hs2 : m.cnt p (child + 1) (c - child)
        = m.cnt p (child + 1) (y - child) + m.cnt p (y + 1) (c - y) := by
      have e : c - child = (y - child) + (c - y) := by omega
      rw [e, cnt_add]
      have e2 : child + 1 + (y - child) = y + 1 := by omega
      rw [e2]
    have hs3 := cnt_split_at m p (y + 1) (c + 1) c (by omega) (by omega) pc
    have e3 : c + 1 - (y + 1) = c - y := by omega
    rw [e3] at hs3
    omega
  · exact heq
  · have hs2 : m.cnt p (child + 1) (y - child)
        = m.cnt p (child + 1) (c - child) + m.cnt p (c + 1) (y - c) := by
      have e : y - child = (c - child) + (y - c) := by omega
      rw [e, cnt_add]
      have e2 : child + 1 + (c - child) = c + 1 := by omega
      rw [e2]
    have hs3 := cnt_split_at m p (c + 1) (y + 1) y (by omega) (by omega) py
    have e3 : y + 1 - (c + 1) = y - c := by omega
    rw [e3] at hs3
    omega

theorem parent_eq_iff (m : Menu) (hlen : m.nodes.length = m.lastNode + 1) (i n : Nat)
    (hi : i ≤ m.lastNode) (hn : n ≤ m.lastNode) :
    m.parent i = m.parent n ↔ m.par i = m.par n := by
  rw [parent_some m hlen i hi, parent_some m hlen n hn, Option.some.injEq]

theorem previousSibling_max (m : Menu) (ok : TreeOK m) (node : Nat) (h1 : 1 ≤ node)
    (h2 : node ≤ m.lastNode) (hne : m.eld (m.par node) ≠ node) :
    ∃ r, m.previousSibling node = some r ∧ 1 ≤ r ∧ r < node ∧ m.par r = m.par node ∧
      ∀ j, r < j → j < node → m.par j ≠ m.par node := by
  have hlt := ok.par_lt node h1 h2
  have hp := parent_some m ok.len node h2
  have he := eldest_some m ok.len (m.par node) (by omega)
  obtain ⟨e1, e2, e3, -⟩ := eldest_sibling m ok node h1 h2
  obtain ⟨r, hr, a, b, c, d⟩ := prevLoop_found m ok.len node h2 (node - 1) (by omega)
    ⟨m.eld (m.par node), e1, by omega, e3⟩
  exact ⟨r, by simp only [Menu.previousSibling, hp, he, hne, if_false, hr], a, by omega, c,
    fun j x y => d j x (by omega)⟩

theorem rankLoop_other (m : Menu) (hlen : m.nodes.length = m.lastNode + 1) (node : Nat) :
    ∀ fuel child r, child ≤ m.lastNode → m.par child ≠ m.par node →
      m.rankLoop node fuel child r = none := by
  intro fuel
  induction fuel with
  | zero => intro _ _ _ _; rfl
  | succ f ih =>
    intro child r hle hpar
    obtain ⟨c, hc, -, a, b⟩ := nextSibling_total m hlen child
    have hne : child ≠ node := by rintro rfl; exact hpar rfl
    simp only [Menu.rankLoop, ne_eq, hne, not_false_eq_true, if_true, hc]
    exact ih c (r + 1) (a hle) (by rw [b hle]; exact hpar)

theorem brood_construct : Menu.construct (source brood) = some broodMenu :=
  construct_wf brood (by decide)

theorem cnt_total_from_eldest (m : Menu) (ok : TreeOK m) (n : Nat) (h1 : 1 ≤ n)
    (h2 : n ≤ m.lastNode) :
    m.cnt (m.par n) 1 m.lastNode
      = 1 + m.cnt (m.par n) (m.eld (m.par n) + 1) (m.lastNode - m.eld (m.par n)) := by
  obtain ⟨e1, e2, e3, -⟩ := eldest_sibling m ok n h1 h2
  have hz := cnt_from_eldest m ok (m.eld (m.par n)) e1 (by omega)
  rw [e3, Nat.sub_self] at hz
  have hz0 : m.cnt (m.par n) (m.eld (m.par n) + 1) 0 = 0 := rfl
  rw [hz0] at hz
  have hs := cnt_split_at m (m.par n) 1 (m.lastNode + 1) (m.eld (m.par n)) e1 (by omega) e3
  have e : m.lastNode + 1 - (m.eld (m.par n) + 1) = m.lastNode - m.eld (m.par n) := by omega
  rw [Nat.add_sub_cancel, hz, e] at hs
  omega

theorem cnt_tail (m : Menu) (p e y N : Nat) (h1 : e ≤ y) (h2 : y ≤ N) :
    m.cnt p (e + 1) (N - e) = m.cnt p (e + 1) (y - e) + m.cnt p (y + 1) (N - y) := by
  have e1 : N - e = (y - e) + (N - y) := by omega
  have e2 : e + 1 + (y - e) = y + 1 := by omega
  rw [e1, cnt_add, e2]

theorem iterNext_last (m : Menu) (ok : TreeOK m) (n : Nat) (h1 : 1 ≤ n)
    (h2 : n ≤ m.lastNode) :
    ∃ y, m.iterNext (m.cnt (m.par n) 1 m.lastNode) (m.eld (m.par n)) = some y ∧
      m.nextSibling y = some y ∧ n ≤ y ∧ y ≤ m.lastNode ∧ m.par y = m.par n := by
  obtain ⟨e1, e2, e3, -⟩ := eldest_sibling m ok n h1 h2
  obtain ⟨y, hy, y1, y2, y3, y4⟩ := iterNext_count m ok.len (m.par n)
    (m.cnt (m.par n) (m.eld (m.par n) + 1) (m.lastNode - m.eld (m.par n)))
    (m.eld (m.par n)) (by omega) e3 (le_refl _)
  have ht := cnt_tail m (m.par n) (m.eld (m.par n)) y m.lastNode y1 y2
  have hz : m.cnt (m.par y) (y + 1) (m.lastNode - y) = 0 := by rw [y3]; omega
  have hfix := nextSibling_fixed m ok.len y y2 hz
  refine ⟨y, ?_, hfix, ?_, y2, y3⟩
  · rw [cnt_total_from_eldest m ok n h1 h2, Nat.add_comm, iterNext_succ_back, hy]
    exact hfix
  · by_contra hlt
    have ht2 := cnt_tail m (m.par n) y n m.lastNode (by omega) h2
    have hs := cnt_split_at m (m.par n) (y + 1) (n + 1) n (by omega) (by omega) rfl
    have e : n + 1 - (y + 1) = n - y := by omega
    rw [e] at hs
    rw [y3] at hz
    omega

theorem rank_eq_unique (m : Menu) (ok : TreeOK m) (y z : Nat) (y1 : 1 ≤ y)
    (y2 : y ≤ m.lastNode) (z1 : 1 ≤ z) (z2 : z ≤ m.lastNode) (hp : m.par z = m.par y)
    (hc : m.cnt (m.par z) 1 (z - 1) = m.cnt (m.par y) 1 (y - 1)) : z = y := by
  obtain ⟨-, a2, -, -⟩ := eldest_sibling m ok y y1 y2
  obtain ⟨-, b2, -, -⟩ := eldest_sibling m ok z z1 z2
  rw [cnt_from_eldest m ok y y1 y2, cnt_from_eldest m ok z z1 z2, hp] at hc
  rw [hp] at b2
  exact sibling_unique m (m.par y) (m.eld (m.par y)) z y b2 a2 hp rfl hc

theorem lcdLine_row (m : Menu) (ok : TreeOK m) (tok : TableOK m) (h1 : 1 ≤ m.currentNode)
    (h2 : m.currentNode ≤ m.lastNode) (Rn : Nat) (hR : m.LCDrows = (Rn : Int)) (i : Nat)
    (hi : i < Rn) (r s : Nat)
    (hr : r = 1 + m.cnt (m.par m.currentNode) 1 (m.currentNode - 1))
    (hs : s = m.cnt (m.par m.currentNode) 1 m.lastNode) :
    (s < i + 1 → m.lcdLine (i : Int) = some []) ∧
    (i + 1 ≤ s → ∃ y l, 1 ≤ y ∧ y ≤ m.lastNode ∧ m.par y = m.par m.currentNode ∧
      1 + m.cnt (m.par y) 1 (y - 1) = i + 1 + (if Rn ≤ r then r - Rn else 0) ∧
      m.label y = some l ∧
      m.lcdLine (i : Int)
        = some ((if i + 1 + (if Rn ≤ r then r - Rn else 0) = r then '>' else ' ') :: l)) := by
  have hrank := rank_spec m ok _ h1 h2
  have hcount := siblingsCount_spec m tok _ h1 h2
  rw [← hr] at hrank
  rw [← hs] at hcount
  have hlt := ok.par_lt _ h1 h2
  have hp := parent_some m ok.len _ h2
  have he := eldest_some m ok.len (m.par m.currentNode) (by omega)
  obtain ⟨e1, e2, e3, -⟩ := eldest_sibling m ok _ h1 h2
  have hT : (if (r : Int) ≥ m.LCDrows then (i : Int) + 1 + ((r : Int) - m.LCDrows)
      else (i : Int) + 1) = ((i + 1 + (if Rn ≤ r then r - Rn else 0) : Nat) : Int) := by
    rw [hR]
    by_cases hc : Rn ≤ r
    · have hc' : (r : Int) ≥ (Rn : Int) := by omega
      rw [if_pos hc', if_pos hc]; omega
    · have hc' : ¬ (r : Int) ≥ (Rn : Int) := by omega
      rw [if_neg hc', if_neg hc]; omega
  have hj : (((i + 1 + (if Rn ≤ r then r - Rn else 0) : Nat) : Int) - 1).toNat
      = i + (if Rn ≤ r then r - Rn else 0) := by omega
  have hcond : ((r : Int) = ((i + 1 + (if Rn ≤ r then r - Rn else 0) : Nat) : Int))
      = (i + 1 + (if Rn ≤ r then r - Rn else 0) = r) := by
    apply propext; constructor <;> intro hx <;> omega
  refine ⟨fun hlt => ?_, fun hle => ?_⟩
  · simp only [Menu.lcdLine, hrank, hcount, hp, he]
    rw [if_pos (by omega)]
  · have htot := cnt_total_from_eldest m ok _ h1 h2
    have hrs := rank_le_count m _ h1 h2
    obtain ⟨y, hy, y1, y2, y3, y4⟩ := iterNext_count m ok.len (m.par m.currentNode)
      (i + (if Rn ≤ r then r - Rn else 0)) (m.eld (m.par m.currentNode)) (by omega) e3
      (by split_ifs <;> omega)
    obtain ⟨l, hl⟩ := label_some m ok.len y y2
    refine ⟨y, l, by omega, y2, y3, ?_, hl, ?_⟩
    · have := cnt_from_eldest m ok y (by omega) y2
      rw [y3] at this ⊢
      omega
    · simp only [Menu.lcdLine, hrank, hcount, hp, he, hT, hj, hcond, hy, hl]
      rw [if_neg (by omega)]
      split_ifs <;> rfl

theorem construct_display (its : List Item) (h : WellFormed its) :
    ∃ m, Menu.construct (source its) = some m ∧ m.compiledFrom (source its) ∧
      m.currentNode = 1 ∧ m.LCDrows = 2 ∧ m.handelingLcd = false ∧ m.lcdNeedsUpdate = true ∧
      m.lcd = [] :=
  ⟨_, construct_wf its h, ⟨_, construct_wf its h, rfl, rfl, rfl⟩, rfl, rfl, rfl, rfl, rfl⟩

theorem cursor_row (r Rn : Nat) (hr : 1 ≤ r) (hR : 1 ≤ Rn) :
    min (r : Int) (Rn : Int) - 1 = ((min r Rn - 1 : Nat) : Int) ∧ min r Rn - 1 < Rn ∧
      min r Rn - 1 + 1 + (if Rn ≤ r then r - Rn else 0) = r := by
  refine ⟨by omega, by omega, ?_⟩
  split_ifs <;> omega

/-! ### The display -/

theorem parent_congr {m m' : Menu} (hn : m'.nodes = m.nodes) : m'.parent = m.parent := by
  funext i; simp only [Menu.parent, hn]

theorem eldest_congr {m m' : Menu} (hn : m'.nodes = m.nodes) : m'.eldest = m.eldest := by
  funext i; simp only [Menu.eldest, hn]

theorem label_congr {m m' : Menu} (hn : m'.nodes = m.nodes) (hs : m'.MYitems = m.MYitems) :
    m'.label = m.label := by
  funext i; simp only [Menu.label, hn, hs]

theorem nextLoop_congr {m m' : Menu} (hn : m'.nodes = m.nodes) (node : Nat) :
    ∀ k i, m'.nextLoop node k i = m.nextLoop node k i := by
  intro k
  induction k with
  | zero => intro i; rfl
  | succ k ih => intro i; simp only [Menu.nextLoop, parent_congr hn, ih]

theorem nextSibling_congr {m m' : Menu} (hn : m'.nodes = m.nodes)
    (hl : m'.lastNode = m.lastNode) : m'.nextSibling = m.nextSibling := by
  funext i; simp only [Menu.nextSibling, hl, nextLoop_congr hn]

theorem rankLoop_congr {m m' : Menu} (hn : m'.nodes = m.nodes)
    (hl : m'.lastNode = m.lastNode) (node : Nat) :
    ∀ fuel child r, m'.rankLoop node fuel child r = m.rankLoop node fuel child r := by
  intro fuel
  induction fuel with
  | zero => intro _ _; rfl
  | succ f ih => intro child r; simp only [Menu.rankLoop, nextSibling_congr hn hl, ih]

theorem rank_congr {m m' : Menu} (hn : m'.nodes = m.nodes) (hl : m'.lastNode = m.lastNode) :
    m'.rank = m.rank := by
  funext i
  simp only [Menu.rank, parent_congr hn, eldest_congr hn, hl, rankLoop_congr hn hl]

theorem countLoop_congr {m m' : Menu} (hn : m'.nodes = m.nodes) (p : Nat) :
    ∀ k i count, m'.countLoop p k i count = m.countLoop p k i count := by
  intro k
  induction k with
  | zero => intro _ _; rfl
  | succ k ih => intro i count; simp only [Menu.countLoop, parent_congr hn, ih]

theorem siblingsCount_congr {m m' : Menu} (hn : m'.nodes = m.nodes)
    (hl : m'.lastNode = m.lastNode) : m'.siblingsCount = m.siblingsCount := by
  funext i
  simp only [Menu.siblingsCount, parent_congr hn, eldest_congr hn, hl, countLoop_congr hn]

theorem iterNext_congr {m m' : Menu} (hn : m'.nodes = m.nodes)
    (hl : m'.lastNode = m.lastNode) : ∀ k child, m'.iterNext k child = m.iterNext k child := by
  intro k
  induction k with
  | zero => intro _; rfl
  | succ k ih => intro child; simp only [Menu.iterNext, nextSibling_congr hn hl, ih]

theorem lcdLine_congr {m m' : Menu} (hs : m.sameTree m') (hc : m'.currentNode = m.currentNode) :
    m'.lcdLine = m.lcdLine := by
  obtain ⟨a, hn, hl, -, hr, -, -⟩ := hs
  funext i
  simp only [Menu.lcdLine, rank_congr hn hl, siblingsCount_congr hn hl, parent_congr hn,
    eldest_congr hn, label_congr hn a, iterNext_congr hn hl, hc, hr]

theorem toLCD_lcd (m : Menu) (hid : m.LcdId = 1 ∨ m.LcdId = 2) (msg : List Char)
    (col row : Int) : (m.toLCD msg col row).lcd = m.lcd ++ [LcdOp.print m.LcdId col row msg] := by
  unfold Menu.toLCD
  rcases hid with h | h
  · rw [if_pos h, h]
  · have h1 : ¬ m.LcdId = 1 := by rw [h]; decide
    rw [if_neg h1, if_pos h, h]

theorem clearLCD_lcd (m : Menu) (hid : m.LcdId = 1 ∨ m.LcdId = 2) :
    m.clearLCD.lcd = m.lcd ++ [LcdOp.clear m.LcdId] := by
  unfold Menu.clearLCD
  rcases hid with h | h
  · rw [if_pos h, h]
  · have h1 : ¬ m.LcdId = 1 := by rw [h]; decide
    rw [if_neg h1, if_pos h, h]

theorem showLoop_trace : ∀ (k i : Nat) (m : Menu), TreeOK m → 1 ≤ m.currentNode →
    m.currentNode ≤ m.lastNode → (m.LcdId = 1 ∨ m.LcdId = 2) →
    ∃ m', Menu.showLoop k (i : Int) m = some m' ∧ m.sameTree m' ∧
      m'.currentNode = m.currentNode ∧ m'.lcdNeedsUpdate = m.lcdNeedsUpdate ∧
      m'.lcd = m.lcd ++ (List.range' i k).map
        fun j : Nat => LcdOp.print m.LcdId 0 (j : Int) ((m.lcdLine (j : Int)).getD []) := by
  intro k
  induction k with
  | zero =>
    intro i m _ _ _ _
    exact ⟨m, rfl, sameTree_refl m, rfl, rfl, by simp⟩
  | succ k ih =>
    intro i m ok h1 h2 hid
    obtain ⟨l, hl⟩ := lcdLine_total m ok h1 h2 (i : Int)
    obtain ⟨f1, f2, f3⟩ := toLCD_frame m l 0 (i : Int)
    have hid' : (m.toLCD l 0 (i : Int)).LcdId = 1 ∨ (m.toLCD l 0 (i : Int)).LcdId = 2 := by
      rw [f1.2.2.2.2.2.2]; exact hid
    obtain ⟨m', hm', g1, g2, g3, g4⟩ := ih (i + 1) (m.toLCD l 0 (i : Int))
      (treeOK_congr ok f1.2.1 f1.2.2.1) (by rw [f2]; exact h1)
      (by rw [f2, f1.2.2.1]; exact h2) hid'
    have hcast : ((i + 1 : Nat) : Int) = (i : Int) + 1 := by push_cast; rfl
    rw [hcast] at hm'
    refine ⟨m', by simp only [Menu.showLoop, hl, hm'], sameTree_trans f1 g1, by rw [g2, f2],
      by rw [g3, f3], ?_⟩
    rw [g4, toLCD_lcd m hid, lcdLine_congr f1 f2, f1.2.2.2.2.2.2, List.range'_succ,
      List.map_cons, hl, List.append_assoc]
    rfl

theorem showMenu_trace (m : Menu) (ok : TreeOK m) (h1 : 1 ≤ m.currentNode)
    (h2 : m.currentNode ≤ m.lastNode) (hid : m.LcdId = 1 ∨ m.LcdId = 2)
    (hu : m.lcdNeedsUpdate = true) :
    ∃ m', m.showMenu = some m' ∧ m.sameTree m' ∧ m'.currentNode = m.currentNode ∧
      m'.lcdNeedsUpdate = false ∧
      m'.lcd = m.lcd ++ LcdOp.clear m.LcdId :: (List.range m.LCDrows.toNat).map
        fun j : Nat => LcdOp.print m.LcdId 0 (j : Int) ((m.lcdLine (j : Int)).getD []) := by
  obtain ⟨f1, f2, f3⟩ := clearLCD_frame m
  have hid' : m.clearLCD.LcdId = 1 ∨ m.clearLCD.LcdId = 2 := by
    rw [f1.2.2.2.2.2.2]; exact hid
  obtain ⟨m', hm', g1, g2, g3, g4⟩ := showLoop_trace m.LCDrows.toNat 0 m.clearLCD
    (treeOK_congr ok f1.2.1 f1.2.2.1) (by rw [f2]; exact h1) (by rw [f2, f1.2.2.1]; exact h2)
    hid'
  have hcast : ((0 : Nat) : Int) = 0 := rfl
  rw [hcast] at hm'
  refine ⟨{ m' with lcdNeedsUpdate := false }, by simp only [Menu.showMenu, hu, if_true, hm'],
    sameTree_trans f1 g1, by simp only [g2, f2], rfl, ?_⟩
  show m'.lcd = _
  rw [g4, clearLCD_lcd m hid, lcdLine_congr f1 f2, f1.2.2.2.2.2.2,
    List.range_eq_range', List.append_assoc]
  rfl

theorem update_shape (m : Menu) (ok : TreeOK m) (h1 : 1 ≤ m.currentNode)
    (h2 : m.currentNode ≤ m.lastNode) (key : Int) :
    (∃ c, 1 ≤ c ∧ c ≤ m.lastNode ∧
      m.update key = Menu.refresh { m with currentNode := c } m.currentNode) ∨
    (∃ a, a > 0 ∧ m.update key = some (m, a)) := by
  by_cases k1 : key = UP
  · obtain ⟨p, hp, a, b, -⟩ := previousSibling_spec m ok _ h1 h2
    refine Or.inl ⟨p, a, by omega, ?_⟩
    simp [k1, Menu.update, Menu.keyUp, Menu.keyDown, Menu.keyLeft, UP, DOWN, LEFT, RIGHT, hp]
  by_cases k2 : key = DOWN
  · obtain ⟨p, hp, a, b, -⟩ := nextSibling_total m ok.len m.currentNode
    refine Or.inl ⟨p, by omega, b h2, ?_⟩
    simp [k2, Menu.update, Menu.keyUp, Menu.keyDown, Menu.keyLeft, UP, DOWN, LEFT, RIGHT, hp]
  by_cases k3 : key = LEFT
  · have hp := parent_some m ok.len _ h2
    have hlt := ok.par_lt _ h1 h2
    by_cases hz : m.par m.currentNode = 0
    · refine Or.inl ⟨m.currentNode, h1, h2, ?_⟩
      simp [k3, Menu.update, Menu.keyUp, Menu.keyDown, Menu.keyLeft, UP, DOWN, LEFT, RIGHT, hp,
        hz]
    · refine Or.inl ⟨m.par m.currentNode, by omega, by omega, ?_⟩
      simp [k3, Menu.update, Menu.keyUp, Menu.keyDown, Menu.keyLeft, UP, DOWN, LEFT, RIGHT, hp,
        hz]
  by_cases k4 : key = RIGHT
  · obtain ⟨a, ha⟩ := getAction_some m ok.len h2
    have he := eldest_some m ok.len _ h2
    by_cases hpos : a > 0
    · exact Or.inr ⟨a, hpos, by rw [k4]; exact update_right_action m a ha hpos⟩
    · rcases ok.eld_cases _ h1 h2 with e1 | ⟨e1, e2, -⟩
      · refine Or.inl ⟨m.currentNode, h1, h2, ?_⟩
        simp [k4, Menu.update, Menu.keyUp, Menu.keyDown, Menu.keyLeft, UP, DOWN, LEFT, RIGHT,
          ha, hpos, he, e1]
      · refine Or.inl ⟨m.currentNode + 1, by omega, e2, ?_⟩
        have hc0 : m.currentNode ≠ 0 := by omega
        simp [k4, Menu.update, Menu.keyUp, Menu.keyDown, Menu.keyLeft, UP, DOWN, LEFT, RIGHT,
          ha, hpos, he, e1, hc0]
  · refine Or.inl ⟨m.currentNode, h1, h2, ?_⟩
    simp [Menu.update, Menu.keyUp, Menu.keyDown, Menu.keyLeft, k1, k2, k3, k4]

theorem refresh_trace (m : Menu) (ok : TreeOK m) (h1 : 1 ≤ m.currentNode)
    (h2 : m.currentNode ≤ m.lastNode) (node : Nat) :
    ∃ m', m.refresh node = some (m', 0) ∧ m.sameTree m' ∧ m'.currentNode = m.currentNode ∧
      (m.currentNode = node → m' = m) ∧
      (m.currentNode ≠ node → m.handelingLcd = false →
        m' = { m with lcdNeedsUpdate := true }) ∧
      (m.currentNode ≠ node → m.handelingLcd = true → (m.LcdId = 1 ∨ m.LcdId = 2) →
        m'.lcdNeedsUpdate = false ∧
        m'.lcd = m.lcd ++ LcdOp.clear m.LcdId :: (List.range m.LCDrows.toNat).map
          fun j : Nat => LcdOp.print m.LcdId 0 (j : Int) ((m.lcdLine (j : Int)).getD [])) := by
  obtain ⟨m', hm', g1, g2, g3, g4, g5⟩ := refresh_total m ok h1 h2 node
  refine ⟨m', hm', g1, g2, g3, g4, fun hc hh hid => ⟨g5 hc hh, ?_⟩⟩
  obtain ⟨m2, hm2, -, -, -, t⟩ := showMenu_trace { m with lcdNeedsUpdate := true }
    (treeOK_congr ok rfl rfl) h1 h2 hid rfl
  have hr : m.refresh node = some (m2, 0) := by
    simp only [hh] at hm2
    simp only [Menu.refresh, ne_eq, hc, not_false_eq_true, if_true, hh, hm2]
  rw [hr] at hm'
  cases hm'
  have hcg : Menu.lcdLine { m with lcdNeedsUpdate := true } = m.lcdLine :=
    lcdLine_congr ⟨rfl, rfl, rfl, rfl, rfl, rfl, rfl⟩ rfl
  rw [hcg] at t
  exact t

theorem wide_up_none (m : Menu) (hm : m.compiledFrom (source (wide 254)))
    (hc : m.currentNode = 256) : m.update UP = none := by
  obtain ⟨hlen, hl, hp, hp256, he, -⟩ := wide_compiled 254 m hm
  have h1 := parent_some m hlen 256 (by omega)
  have h2 := eldest_some m hlen 255 (by omega)
  have hb1 : toByte (254 + 1) = 255 := by decide
  have hb2 : toByte (254 + 2) = 0 := by decide
  rw [hp256, hb1] at h1
  rw [he, hb2] at h2
  have hnone : m.prevLoop 256 255 = none := by
    apply prevLoop_none m hlen 256 (by omega) 255 (by omega)
    intro j a b
    rw [hp j a (by omega), hp256, hb1]; omega
  have hprev : m.previousSibling m.currentNode = none := by
    rw [hc]
    simp only [Menu.previousSibling, h1, h2]
    exact hnone
  simp only [Menu.update, Menu.keyUp, if_true, hprev]

/-! ### The keys -/

theorem averageLoop_const (a : Int) (h : 0 ≤ a) :
    ∀ k n, averageLoop (fun _ => a) k n a = a := by
  intro k
  induction k with
  | zero => intro _; rfl
  | succ k ih =>
    intro n
    have e : Int.tdiv (a + a) 2 = a := by
      rw [Int.tdiv_eq_ediv (by omega) (by decide)]; omega
    simp only [averageLoop, e, ih]

theorem averageLoop_range (analogRead : Nat → Int)
    (hr : ∀ n, 0 ≤ analogRead n ∧ analogRead n ≤ 1023) :
    ∀ k n a, 0 ≤ a → a ≤ 1023 →
      0 ≤ averageLoop analogRead k n a ∧ averageLoop analogRead k n a ≤ 1023 := by
  intro k
  induction k with
  | zero => intro _ a h0 h1; exact ⟨h0, h1⟩
  | succ k ih =>
    intro n a h0 h1
    obtain ⟨r0, r1⟩ := hr n
    have e : Int.tdiv (a + analogRead n) 2 = (a + analogRead n) / 2 :=
      Int.tdiv_eq_ediv (by omega) (by decide)
    simp only [averageLoop, e]
    exact ih (n + 1) _ (by omega) (by omega)

theorem analogKey_eq (a : Int) (h0 : 0 ≤ a) :
    analogKey a = if a > 1000 then 0 else a / 256 + 1 := by
  simp only [analogKey, Int.tdiv_eq_ediv h0 (by decide : (0 : Int) ≤ 256)]

theorem net_step (stateOld : Int) (samples : Nat → Int) (k : Nat) :
    net stateOld samples (k + 1) = net stateOld samples k + 1 ∨
      net stateOld samples (k + 1) = net stateOld samples k - 1 := by
  simp only [net]
  split_ifs
  · exact Or.inl rfl
  · exact Or.inr rfl

theorem net_succ (stateOld : Int) (samples : Nat → Int) (k : Nat) :
    net stateOld samples (k + 1)
      = if samples k = stateOld then net stateOld samples k + 1
        else net stateOld samples k - 1 := by
  simp only [net]
  split_ifs <;> rfl

theorem debounceLoop_reach (stateOld : Int) (samples : Nat → Int) :
    ∀ n k, (∀ j, k ≤ j → j < k + n → net stateOld samples j < 500) →
      (∀ j, k ≤ j → j < k + n → INT_MIN ≤ net stateOld samples (j + 1)) →
      500 ≤ net stateOld samples (k + n) → ∀ fuel, n < fuel →
      debounceLoop stateOld samples fuel k (net stateOld samples k) = some (k + n) := by
  intro n
  induction n with
  | zero =>
    intro k _ _ hge fuel hf
    obtain ⟨f, rfl⟩ : ∃ f, fuel = f + 1 := ⟨fuel - 1, by omega⟩
    have : ¬ net stateOld samples k < 500 := by simpa using hge
    simp only [debounceLoop, this, if_false, Nat.add_zero]
  | succ n ih =>
    intro k hlt hlow hge fuel hf
    obtain ⟨f, rfl⟩ : ∃ f, fuel = f + 1 := ⟨fuel - 1, by omega⟩
    have h0 := hlt k (le_refl _) (by omega)
    have h1 := hlow k (le_refl _) (by omega)
    have e : k + (n + 1) = k + 1 + n := by omega
    rw [e] at hge ⊢
    have := ih (k + 1) (fun j a b => hlt j (by omega) (by omega))
      (fun j a b => hlow j (by omega) (by omega)) hge f (by omega)
    rw [net_succ] at this h1
    simp only [debounceLoop, h0, if_true]
    split_ifs with hs hm
    · rw [if_pos hs] at this; exact this
    · rw [if_neg hs] at this; exact this
    · rw [if_neg hs] at h1; omega

theorem debounceLoop_none (stateOld : Int) (samples : Nat → Int) :
    ∀ fuel k, (∀ j, k ≤ j → j < k + fuel → net stateOld samples j < 500) →
      debounceLoop stateOld samples fuel k (net stateOld samples k) = none := by
  intro fuel
  induction fuel with
  | zero => intro _ _; rfl
  | succ f ih =>
    intro k hlt
    have h0 := hlt k (le_refl _) (by omega)
    have := ih (k + 1) fun j a b => hlt j (by omega) (by omega)
    rw [net_succ] at this
    simp only [debounceLoop, h0, if_true]
    split_ifs with hs hm
    · rw [if_pos hs] at this; exact this
    · rw [if_neg hs] at this; exact this
    · rfl

theorem debounceLoop_overflow (stateOld : Int) (samples : Nat → Int) (K : Nat)
    (hlt : ∀ j, j ≤ K → net stateOld samples j < 500) (hs : samples K ≠ stateOld)
    (hmin : net stateOld samples K ≤ INT_MIN) :
    ∀ fuel k, k ≤ K → debounceLoop stateOld samples fuel k (net stateOld samples k) = none := by
  intro fuel
  induction fuel with
  | zero => intro _ _; rfl
  | succ f ih =>
    intro k hk
    have h0 := hlt k hk
    simp only [debounceLoop, h0, if_true]
    by_cases hK : k = K
    · subst hK
      have hm : ¬ INT_MIN < net stateOld samples k := by omega
      simp only [hs, if_false, hm]
    · have := ih (k + 1) (by omega)
      rw [net_succ] at this
      split_ifs with hs' hm
      · rw [if_pos hs'] at this; exact this
      · rw [if_neg hs'] at this; exact this
      · rfl

theorem debounceLoop_some (stateOld : Int) (samples : Nat → Int) :
    ∀ fuel k r, INT_MIN ≤ net stateOld samples k →
      debounceLoop stateOld samples fuel k (net stateOld samples k) = some r →
      k ≤ r ∧ r < k + fuel ∧ 500 ≤ net stateOld samples r ∧
        (∀ j, k ≤ j → j < r → net stateOld samples j < 500) ∧
        ∀ j, k ≤ j → j < r → INT_MIN ≤ net stateOld samples (j + 1) := by
  intro fuel
  induction fuel with
  | zero => intro k r _ h; simp [debounceLoop] at h
  | succ f ih =>
    intro k r hk h
    by_cases h0 : net stateOld samples k < 500
    · simp only [debounceLoop, h0, if_true] at h
      have hstep : debounceLoop stateOld samples f (k + 1) (net stateOld samples (k + 1))
          = some r ∧ INT_MIN ≤ net stateOld samples (k + 1) := by
        rw [net_succ]
        split_ifs at h with hs hm
        · rw [if_pos hs]; exact ⟨h, by omega⟩
        · rw [if_neg hs]; exact ⟨h, by omega⟩
      obtain ⟨a, b, c, d, e⟩ := ih (k + 1) r hstep.2 hstep.1
      refine ⟨by omega, by omega, c, fun j x y => ?_, fun j x y => ?_⟩
      · by_cases hj : j = k
        · rw [hj]; exact h0
        · exact d j (by omega) y
      · by_cases hj : j = k
        · rw [hj]; exact hstep.2
        · exact e j (by omega) y
    · simp only [debounceLoop, h0, if_false, Option.some.injEq] at h
      subst h
      exact ⟨le_refl _, by omega, by omega, fun j x y => by omega, fun j x y => by omega⟩

theorem net_first (stateOld : Int) (samples : Nat → Int) (r : Nat)
    (hge : 500 ≤ net stateOld samples r)
    (hlt : ∀ j, j < r → net stateOld samples j < 500) : net stateOld samples r = 500 := by
  cases r with
  | zero => simp [net] at hge
  | succ r =>
    have := hlt r (by omega)
    rcases net_step stateOld samples r with e | e <;> omega

theorem net_const (stateOld : Int) : ∀ k, net stateOld (fun _ => stateOld) k = (k : Int) := by
  intro k
  induction k with
  | zero => rfl
  | succ k ih => simp only [net, ih, if_true]; push_cast; rfl

theorem net_released : ∀ j, net 0 released j = if j ≤ 32769 then -(j : Int) else (j : Int) - 65538 := by
  intro j
  induction j with
  | zero => rfl
  | succ j ih =>
    rw [net_succ, ih]
    unfold released
    split_ifs <;> omega

theorem net_alternating (stateOld : Int) (samples : Nat → Int)
    (halt : ∀ k, samples k = stateOld ↔ samples (k + 1) ≠ stateOld) :
    ∀ k, (-1 ≤ net stateOld samples k ∧ net stateOld samples k ≤ 1) ∧
      (-1 ≤ net stateOld samples (k + 1) ∧ net stateOld samples (k + 1) ≤ 1) := by
  intro k
  induction k with
  | zero =>
    refine ⟨by simp [net], ?_⟩
    simp only [net]; split_ifs <;> omega
  | succ k ih =>
    refine ⟨ih.2, ?_⟩
    have h2 : net stateOld samples (k + 2) = net stateOld samples k := by
      have := halt k
      simp only [net]
      by_cases hs : samples k = stateOld
      · have hn : samples (k + 1) ≠ stateOld := this.1 hs
        simp only [hs, hn, if_true, if_false]; omega
      · have hn : samples (k + 1) = stateOld := by
          by_contra hc; exact hs (this.2 hc)
        simp only [hs, hn, if_true, if_false]; omega
    rw [h2]; exact ih.1

theorem readAnalogKey_const (a : Int) (h : 0 ≤ a) :
    readAnalogKey (fun _ => a) = analogKey a := by
  simp only [readAnalogKey, averageLoop_const a h]

theorem net_below (stateOld : Int) (samples : Nat → Int) (k : Nat)
    (h : ∀ j, j < k → net stateOld samples j ≠ 500) :
    ∀ j, j < k → net stateOld samples j < 500 := by
  intro j
  induction j with
  | zero => intro _; simp [net]
  | succ j ih =>
    intro hj
    have h1 := ih (by omega)
    have h2 := h (j + 1) hj
    rcases net_step stateOld samples j with e | e <;> omega

theorem net_first_index (stateOld : Int) (samples : Nat → Int) (k : Nat)
    (hk : net stateOld samples k = 500) :
    ∃ k0, k0 ≤ k ∧ net stateOld samples k0 = 500 ∧
      ∀ j, j < k0 → net stateOld samples j < 500 := by
  have hex : ∃ n, net stateOld samples n = 500 := ⟨k, hk⟩
  refine ⟨Nat.find hex, Nat.find_min' hex hk, Nat.find_spec hex, ?_⟩
  exact net_below stateOld samples _ fun j hj => Nat.find_min hex hj

theorem releaseLoop_found (readKey : Nat → Int) (key : Int) :
    ∀ d n j, j = n + d → (∀ i, n ≤ i → i < j → readKey i = key) → readKey j ≠ key →
      ∀ fuel, d < fuel → releaseLoop readKey key fuel n = some (j + 1) := by
  intro d
  induction d with
  | zero =>
    intro n j hj _ hne fuel hf
    obtain ⟨f, rfl⟩ : ∃ f, fuel = f + 1 := ⟨fuel - 1, by omega⟩
    obtain rfl : j = n := by omega
    simp only [releaseLoop, hne, if_false]
  | succ d ih =>
    intro n j hj hall hne fuel hf
    obtain ⟨f, rfl⟩ : ∃ f, fuel = f + 1 := ⟨fuel - 1, by omega⟩
    have h0 := hall n (le_refl _) (by omega)
    simp only [releaseLoop, h0, if_true]
    exact ih (n + 1) j (by omega) (fun i a b => hall i (by omega) b) hne f (by omega)

theorem releaseLoop_none (readKey : Nat → Int) (key : Int) :
    ∀ fuel n, (∀ i, n ≤ i → i < n + fuel → readKey i = key) →
      releaseLoop readKey key fuel n = none := by
  intro fuel
  induction fuel with
  | zero => intro _ _; rfl
  | succ f ih =>
    intro n hall
    have h0 := hall n (le_refl _) (by omega)
    simp only [releaseLoop, h0, if_true]
    exact ih (n + 1) fun i a b => hall i (by omega) (by omega)

theorem wasPressedCalls_false (readKey : Nat → Int) (key : Int) (fuel : Nat) :
    ∀ c n, (∀ i, n ≤ i → readKey i ≠ key) →
      wasPressedCalls readKey key fuel c n = some (List.replicate c false) := by
  intro c
  induction c with
  | zero => intro _ _; rfl
  | succ c ih =>
    intro n hall
    have h0 := hall n (le_refl _)
    have hw : wasPressed readKey key fuel n = some (false, n + 1) := by
      simp only [wasPressed, h0, if_false]
    simp only [wasPressedCalls, hw, ih (n + 1) fun i a => hall i (by omega), List.replicate_succ]

theorem setLoop_last (m : Menu) (hlen : m.nodes.length = m.lastNode + 1)
    (theLabel : List Char) :
    ∀ k i foundAt, i + k = m.lastNode + 1 →
      m.setLoop theLabel k i foundAt = some (if k = 0 then foundAt else m.lastNode) := by
  intro k
  induction k with
  | zero => intro i foundAt _; rfl
  | succ k ih =>
    intro i foundAt h
    obtain ⟨l, hl⟩ := label_some m hlen i (by omega)
    simp only [Menu.setLoop, hl, stringTruth, if_true, ih (i + 1) i (by omega)]
    have hs : ¬ k + 1 = 0 := by omega
    simp only [hs, if_false]
    by_cases hk : k = 0
    · subst hk
      have : i = m.lastNode := by omega
      simp only [if_true, this]
    · simp only [hk, if_false]

theorem setCurrentItem_last (m : Menu) (hlen : m.nodes.length = m.lastNode + 1)
    (h1 : 1 ≤ m.lastNode) (theLabel : List Char) :
    m.setCurrentItem theLabel = some { m with currentNode := m.lastNode } := by
  have hk : ¬ m.lastNode = 0 := by omega
  have hpos : m.lastNode > 0 := by omega
  simp only [Menu.setCurrentItem, setLoop_last m hlen theLabel m.lastNode 1 0 (by omega), hk,
    if_false, hpos, if_true]

/-! ### Next and previous sibling -/

theorem previous_of_next (m : Menu) (ok : TreeOK m) (n r : Nat) (h1 : 1 ≤ n) (hnr : n < r)
    (hr : r ≤ m.lastNode) (hp : m.par r = m.par n)
    (hmin : ∀ j, n < j → j < r → m.par j ≠ m.par n) : m.previousSibling r = some n := by
  obtain ⟨-, e2, -, -⟩ := eldest_sibling m ok n h1 (by omega)
  have hne : m.eld (m.par r) ≠ r := by rw [hp]; omega
  obtain ⟨q, hq, q1, q2, q3, q4⟩ := previousSibling_max m ok r (by omega) hr hne
  rcases Nat.lt_trichotomy q n with h | h | h
  · exact absurd hp.symm (q4 n h hnr)
  · rw [hq, h]
  · exact absurd (q3.trans hp) (hmin q h q2)

theorem next_of_previous (m : Menu) (ok : TreeOK m) (n q : Nat) (hqn : q < n)
    (hn : n ≤ m.lastNode) (hp : m.par q = m.par n)
    (hmax : ∀ j, q < j → j < n → m.par j ≠ m.par n) : m.nextSibling q = some n := by
  obtain ⟨r, hr, hcase⟩ := nextSibling_spec m ok.len q (by omega)
  rcases hcase with ⟨a, b, c, d⟩ | ⟨-, b⟩
  · rcases Nat.lt_trichotomy r n with h | h | h
    · exact absurd (c.trans hp) (hmax r a h)
    · rw [hr, h]
    · exact absurd hp.symm (d n hqn h)
  · exact absurd hp.symm (b n hqn hn)

theorem rank_next (m : Menu) (ok : TreeOK m) (n r : Nat) (h1 : 1 ≤ n) (hnr : n < r)
    (hr : r ≤ m.lastNode) (hp : m.par r = m.par n)
    (hmin : ∀ j, n < j → j < r → m.par j ≠ m.par n) :
    ∃ k, m.rank n = some k ∧ m.rank r = some (k + 1) := by
  refine ⟨_, rank_spec m ok n h1 (by omega), ?_⟩
  rw [rank_spec m ok r (by omega) hr, hp]
  have hs := cnt_split_at m (m.par n) 1 r n h1 hnr rfl
  have hz : m.cnt (m.par n) (n + 1) (r - (n + 1)) = 0 :=
    cnt_zero m (m.par n) _ _ fun i a b => hmin i (by omega) (by omega)
  rw [hs, hz]
  congr 1

theorem waitLoop_ends (millis : Nat → Nat) (chrono : Nat) (sensitivity : Int) :
    ∀ d nm, toULong sensitivity ≤ elapsed (millis (nm + d)) chrono →
      ∀ fuel, d < fuel → ∃ nm1, waitLoop millis chrono sensitivity fuel nm = some nm1 ∧
        nm < nm1 ∧ nm1 ≤ nm + d + 1 := by
  intro d
  induction d with
  | zero =>
    intro nm h fuel hf
    obtain ⟨f, rfl⟩ : ∃ f, fuel = f + 1 := ⟨fuel - 1, by omega⟩
    have hn : ¬ elapsed (millis nm) chrono < toULong sensitivity := by
      rw [Nat.add_zero] at h; omega
    exact ⟨nm + 1, by simp only [waitLoop, hn, if_false], by omega, by omega⟩
  | succ d ih =>
    intro nm h fuel hf
    obtain ⟨f, rfl⟩ : ∃ f, fuel = f + 1 := ⟨fuel - 1, by omega⟩
    by_cases hn : elapsed (millis nm) chrono < toULong sensitivity
    · have e : nm + (d + 1) = nm + 1 + d := by omega
      rw [e] at h
      obtain ⟨nm1, h1, h2, h3⟩ := ih (nm + 1) h f (by omega)
      exact ⟨nm1, by simp only [waitLoop, hn, if_true, h1], by omega, by omega⟩
    · exact ⟨nm + 1, by simp only [waitLoop, hn, if_false], by omega, by omega⟩

theorem repeatLoop_release (readKey : Nat → Int) (millis : Nat → Nat)
    (delayForRepeat sensitivity : Int) (fuel : Nat) (st : RepeatState) (tempKey : Int)
    (nk nm nm1 : Nat)
    (hw : (if st.repeating then some nm
      else waitLoop millis st.chrono sensitivity (fuel + 1) nm) = some nm1)
    (h0 : readKey nk = 0) :
    repeatLoop readKey millis delayForRepeat sensitivity (fuel + 1) st tempKey nk nm
      = some (tempKey, ⟨false, millis nm1 % 4294967296, 0⟩, nk + 1, nm1 + 1) := by
  simp only [repeatLoop, hw, h0, if_true]

theorem repeatLoop_returned (readKey : Nat → Int) (millis : Nat → Nat)
    (delayForRepeat sensitivity : Int) :
    ∀ fuel st tempKey nk nm k st' nk' nm',
      repeatLoop readKey millis delayForRepeat sensitivity fuel st tempKey nk nm
        = some (k, st', nk', nm') →
      nk < nk' ∧ (∀ i, nk ≤ i → i + 1 < nk' → readKey i ≠ 0) ∧
        (readKey (nk' - 1) = 0 → st'.key = 0 ∧ st'.repeating = false ∧
          k = if nk' = nk + 1 then tempKey else readKey (nk' - 2)) ∧
        (readKey (nk' - 1) ≠ 0 → k = readKey (nk' - 1) ∧ st'.key = k ∧
          st'.repeating = true) := by
  intro fuel
  induction fuel with
  | zero => intro st tempKey nk nm k st' nk' nm' h; simp [repeatLoop] at h
  | succ f ih =>
    intro st tempKey nk nm k st' nk' nm' h
    simp only [repeatLoop] at h
    split at h
    · exact absurd h (by simp)
    · rename_i nm1 hw
      by_cases h0 : readKey nk = 0
      · simp only [h0, if_true, Option.some.injEq, Prod.mk.injEq] at h
        obtain ⟨rfl, rfl, rfl, -⟩ := h
        refine ⟨by omega, fun i a b => by omega, fun _ => ⟨rfl, rfl, by simp⟩, fun hne => ?_⟩
        rw [Nat.add_sub_cancel] at hne
        exact absurd h0 hne
      · simp only [h0, if_false] at h
        have hret : ∀ t : Nat, (k, st', nk', nm')
            = (readKey nk, (⟨true, t, readKey nk⟩ : RepeatState), nk + 1, nm1 + 2) →
            nk < nk' ∧ (∀ i, nk ≤ i → i + 1 < nk' → readKey i ≠ 0) ∧
            (readKey (nk' - 1) = 0 → st'.key = 0 ∧ st'.repeating = false ∧
              k = if nk' = nk + 1 then tempKey else readKey (nk' - 2)) ∧
            (readKey (nk' - 1) ≠ 0 → k = readKey (nk' - 1) ∧ st'.key = k ∧
              st'.repeating = true) := by
          intro t e
          simp only [Prod.mk.injEq] at e
          obtain ⟨rfl, rfl, rfl, -⟩ := e
          refine ⟨by omega, fun i a b => by omega, fun hz => ?_, fun _ => ?_⟩
          · rw [Nat.add_sub_cancel] at hz; exact absurd hz h0
          · rw [Nat.add_sub_cancel]; exact ⟨rfl, rfl, rfl⟩
        split at h
        · exact hret _ (Option.some.inj h).symm
        · split at h
          · exact hret _ (Option.some.inj h).symm
          · obtain ⟨a, b, c, d⟩ := ih st (readKey nk) (nk + 1) (nm1 + 1) k st' nk' nm' h
            refine ⟨by omega, fun i x y => ?_, fun hz => ?_, d⟩
            · by_cases hi : i = nk
              · rw [hi]; exact h0
              · exact b i (by omega) y
            · obtain ⟨c1, c2, c3⟩ := c hz
              refine ⟨c1, c2, ?_⟩
              have hne : ¬ nk' = nk + 1 := by omega
              rw [c3, if_neg hne]
              split_ifs with he
              · have : nk' - 2 = nk := by omega
                rw [this]
              · rfl

/-! ### The accesses of `menuParse` -/

theorem parseItem_next (its : List Item) (hwf : ∀ it ∈ its, it.wf)
    (hrise : ∀ i, i < its.length - 1 → level its (i + 2) ≤ level its (i + 1) + 1)
    (done : List Item) (it : Item) (rest : List Item) (st : ParseState)
    (hits : its = done ++ it :: rest) (inv : ParseInv its done it rest st) :
    st.pos < (source its).length ∧ ∃ st', parseItem (source its) st = some st' ∧
      st'.curLevel = level its (done.length + 2) ∧
      (∀ nx rest', rest = nx :: rest' → ParseInv its (done ++ [it]) nx rest' st') ∧
      (rest = [] → ¬ st'.pos < (source its).length) := by
  have hw : it.wf := hwf it (by rw [hits]; simp)
  cases rest with
  | nil =>
    have hsrc : source its = (source done ++ List.replicate it.dashes '-') ++
        (it.label ++ ':' :: (it.digits ++ (List.replicate 0 '-' ++ []))) := by
      rw [hits]; simp [source_append, source, Item.text]
    have hk : 0 = level its (done.length + 2) := by rw [hits]; exact (level_split_end _ _).symm
    obtain ⟨st', h1, h2, -, h4, -⟩ :=
      parseItem_post its done it [] st 0 [] hits hw inv hsrc hk (by omega) (by omega) (by simp)
    have hlen : (source its).length = (source done).length + it.dashes + it.label.length + 4 := by
      rw [hsrc]; simp [hw.2.2.2.2.1]; omega
    refine ⟨by rw [inv.pos, hlen]; omega, st', h1, by rw [h4, hk], ?_, fun _ => ?_⟩
    · intro nx rest' e; exact absurd e (by simp)
    · rw [h2, hlen]; omega
  | cons nx rest =>
    have hwn : nx.wf := hwf nx (by rw [hits]; simp)
    have hsrc : source its = (source done ++ List.replicate it.dashes '-') ++
        (it.label ++ ':' :: (it.digits ++ (List.replicate nx.dashes '-' ++
          (nx.label ++ ':' :: (nx.digits ++ source rest))))) := by
      rw [hits]; simp [source_append, source, Item.text]
    have hl1 : level its (done.length + 1) = it.dashes := by rw [hits]; exact level_split _ _ _
    have hk : nx.dashes = level its (done.length + 2) := by
      rw [hits]; exact (level_split_next _ _ _ _).symm
    have hk1 : nx.dashes ≤ it.dashes + 1 := by
      have := hrise done.length (by rw [hits]; simp)
      rw [← hk, hl1] at this; exact this
    have htl : (nx.label ++ ':' :: (nx.digits ++ source rest)).head? ≠ some '-' := by
      have := hwn.2.2.2.1
      cases hlab : nx.label with
      | nil => simp
      | cons c l => rw [hlab] at this; simpa using this
    obtain ⟨st', h1, h2, h3, h4, h5, h6, h7, h8⟩ :=
      parseItem_post its done it (nx :: rest) st nx.dashes _ hits hw inv hsrc hk hk1 hwn.2.1 htl
    have hlen : (source its).length = (source done).length + it.dashes + it.label.length + 4
        + nx.dashes + (nx.label ++ ':' :: (nx.digits ++ source rest)).length := by
      rw [hsrc]; simp [hw.2.2.2.2.1]; omega
    refine ⟨by rw [inv.pos, hlen]; omega, st', h1, by rw [h4, hk], ?_, fun e => absurd e (by simp)⟩
    intro nx' rest' e
    obtain ⟨rfl, rfl⟩ := List.cons.inj e
    refine ⟨?_, ?_, h4, h5, h6, ?_, ?_⟩
    · rw [h2]; simp [source_append, source, Item.text, hw.2.2.2.2.1]; omega
    · rw [h3]; simp
    · intro L hL1 hL2
      rw [h7 L hL1 hL2]; simp
    · rw [h8]; simp

theorem parseStart_inv (it : Item) (rest : List Item) (hd : it.dashes = 1)
    (hwf : ∀ x ∈ it :: rest, x.wf) :
    ParseInv (it :: rest) [] it rest (parseStart (source (it :: rest))) := by
  refine ⟨by simp [parseStart, source, hd], rfl, hd.symm, by simp [parseStart, hd],
    by simp [parseStart], ?_, ?_⟩
  · intro L h1 h2
    have : L = 1 := by omega
    subst this
    simp [parseStart, lastAt]
  · simp only [parseStart]
    rw [count_colon_source _ hwf]
    simp [List.replicate_succ, node.zero]

theorem parseSteps_inv (its : List Item) (hwf : ∀ it ∈ its, it.wf)
    (hrise : ∀ i, i < its.length - 1 → level its (i + 2) ≤ level its (i + 1) + 1) :
    ∀ j (done : List Item) (it : Item) (rest : List Item) (st : ParseState),
      its = done ++ it :: rest → ParseInv its done it rest st → j ≤ rest.length →
      ∃ st' done' it' rest', parseSteps (source its) j st = some st' ∧
        its = done' ++ it' :: rest' ∧ done'.length = done.length + j ∧
        ParseInv its done' it' rest' st' := by
  intro j
  induction j with
  | zero => intro done it rest st hits inv _; exact ⟨st, done, it, rest, rfl, hits, rfl, inv⟩
  | succ j ih =>
    intro done it rest st hits inv hj
    obtain ⟨-, st1, h1, -, hnext, -⟩ := parseItem_next its hwf hrise done it rest st hits inv
    cases rest with
    | nil => simp at hj
    | cons nx rest' =>
      obtain ⟨st', d', i', r', a, b, c, d⟩ := ih (done ++ [it]) nx rest' st1
        (by rw [hits]; simp) (hnext nx rest' rfl) (by simp at hj; omega)
      exact ⟨st', d', i', r', by simp only [parseSteps, h1, a], b,
        by rw [c]; simp; omega, d⟩

theorem parseLoop_steps (its : List Item) (hwf : ∀ it ∈ its, it.wf)
    (hrise : ∀ i, i < its.length - 1 → level its (i + 2) ≤ level its (i + 1) + 1) :
    ∀ (rest done : List Item) (it : Item) (st : ParseState) (fuel : Nat),
      its = done ++ it :: rest → ParseInv its done it rest st → rest.length < fuel →
      parseLoop (source its) fuel st = parseSteps (source its) (rest.length + 1) st ∧
        ∃ st', parseSteps (source its) (rest.length + 1) st = some st' ∧
          ¬ st'.pos < (source its).length := by
  intro rest
  induction rest with
  | nil =>
    intro done it st fuel hits inv hf
    obtain ⟨f, rfl⟩ : ∃ f, fuel = f + 1 := ⟨fuel - 1, by simp at hf; omega⟩
    obtain ⟨hlt, st1, h1, -, -, hend⟩ := parseItem_next its hwf hrise done it [] st hits inv
    have hnl := hend rfl
    refine ⟨?_, st1, by simp only [List.length_nil, parseSteps, h1], hnl⟩
    simp only [parseLoop, hlt, if_true, h1, List.length_nil, parseSteps]
    cases f <;> simp only [parseLoop, hnl, if_false]
  | cons nx rest ih =>
    intro done it st fuel hits inv hf
    obtain ⟨f, rfl⟩ : ∃ f, fuel = f + 1 := ⟨fuel - 1, by simp at hf; omega⟩
    obtain ⟨hlt, st1, h1, -, hnext, -⟩ :=
      parseItem_next its hwf hrise done it (nx :: rest) st hits inv
    obtain ⟨a, st', b, c⟩ := ih (done ++ [it]) nx st1 f (by rw [hits]; simp)
      (hnext nx rest rfl) (by simp at hf; omega)
    have hstep : parseSteps (source its) ((nx :: rest).length + 1) st
        = parseSteps (source its) (rest.length + 1) st1 := by
      rw [List.length_cons, parseSteps]
      simp only [h1]
    refine ⟨?_, st', by rw [hstep, b], c⟩
    rw [hstep, ← a]
    simp only [parseLoop, hlt, if_true, h1]

theorem menuParse_start (items : List Char) :
    menuParse items (parseStart items).nodes
      = (parseLoop items (items.length + 1) (parseStart items)).map
          (fun st => (st.nodes, st.item - 1)) := by
  have e : menuParse items (parseStart items).nodes
      = (parseLoop items (items.length + 1) (parseStart items)).bind
          (fun st => some (st.nodes, st.item - 1)) := by
    unfold menuParse
    show (match parseLoop items (items.length + 1) (parseStart items) with
      | none => none
      | some st => some (st.nodes, st.item - 1)) = _
    cases parseLoop items (items.length + 1) (parseStart items) <;> rfl
  rw [e]
  cases parseLoop items (items.length + 1) (parseStart items) <;> rfl

/-! ### Reachable cursor positions -/

theorem par_same {m m' : Menu} (hn : m'.nodes = m.nodes) : m'.par = m.par := by
  funext i; simp only [Menu.par, hn]

theorem eld_same {m m' : Menu} (hn : m'.nodes = m.nodes) : m'.eld = m.eld := by
  funext i; simp only [Menu.eld, hn]

theorem act_same {m m' : Menu} (hn : m'.nodes = m.nodes) : m'.act = m.act := by
  funext i; simp only [Menu.act, hn]

theorem ancestor_same {m m' : Menu} (hn : m'.nodes = m.nodes) :
    ∀ k n, m'.ancestor k n = m.ancestor k n := by
  intro k
  induction k with
  | zero => intro n; rfl
  | succ k ih => intro n; simp only [Menu.ancestor, par_same hn, ih]

theorem enterable_same {m m' : Menu} (hn : m'.nodes = m.nodes) (n : Nat) :
    m'.enterable n ↔ m.enterable n := by
  simp only [Menu.enterable, ancestor_same hn, act_same hn]

theorem navOK_same {m m' : Menu} (nav : NavOK m) (hn : m'.nodes = m.nodes)
    (hl : m'.lastNode = m.lastNode) : NavOK m' :=
  ⟨treeOK_congr nav.ok hn hl, by rw [par_same hn]; exact nav.par0,
    by rw [act_same hn]; exact nav.act_nonneg⟩

theorem ancestor_zero (m : Menu) (h0 : m.par 0 = 0) : ∀ k, m.ancestor k 0 = 0 := by
  intro k
  induction k with
  | zero => rfl
  | succ k ih => simp only [Menu.ancestor, h0, ih]

theorem enterable_top (m : Menu) (h0 : m.par 0 = 0) (c : Nat) (hp : m.par c = 0) :
    m.enterable c := by
  intro k hk hne
  obtain ⟨j, rfl⟩ : ∃ j, k = j + 1 := ⟨k - 1, by omega⟩
  simp only [Menu.ancestor, hp, ancestor_zero m h0] at hne
  exact absurd rfl hne

theorem enterable_sibling (m : Menu) (a b : Nat) (hp : m.par a = m.par b)
    (h : m.enterable b) : m.enterable a := by
  intro k hk
  obtain ⟨j, rfl⟩ : ∃ j, k = j + 1 := ⟨k - 1, by omega⟩
  have := h (j + 1) hk
  simp only [Menu.ancestor, hp] at this ⊢
  exact this

theorem enterable_parent (m : Menu) (n : Nat) (h : m.enterable n) :
    m.enterable (m.par n) := by
  intro k hk
  exact h (k + 1) (by omega)

theorem enterable_child (m : Menu) (c : Nat) (ha : m.act (m.par c) = 0)
    (h : m.enterable (m.par c)) : m.enterable c := by
  intro k hk hne
  obtain ⟨j, rfl⟩ : ∃ j, k = j + 1 := ⟨k - 1, by omega⟩
  cases j with
  | zero => exact ha
  | succ j => exact h (j + 1) (by omega) hne

theorem enterable_parent_act (m : Menu) (c : Nat) (h : m.enterable c) (hp : m.par c ≠ 0) :
    m.act (m.par c) = 0 :=
  h 1 (le_refl _) hp

theorem getAction_act (m : Menu) (hlen : m.nodes.length = m.lastNode + 1)
    (hi : m.currentNode ≤ m.lastNode) : m.getAction = some (m.act m.currentNode) := by
  have hlt : m.currentNode < m.nodes.length := by omega
  simp [Menu.getAction, Menu.act, List.getD_eq_getElem?_getD, List.getElem?_eq_getElem hlt]

theorem update_enterable (m : Menu) (nav : NavOK m) (h1 : 1 ≤ m.currentNode)
    (h2 : m.currentNode ≤ m.lastNode) (hen : m.enterable m.currentNode) (key : Int) :
    ∃ m' a, m.update key = some (m', a) ∧ m.sameTree m' ∧ 1 ≤ m'.currentNode ∧
      m'.currentNode ≤ m.lastNode ∧ m.enterable m'.currentNode := by
  have ok := nav.ok
  by_cases k1 : key = UP
  · obtain ⟨p, m', -, hu, hc, hs, a, b, e⟩ := update_up m ok h1 h2
    exact ⟨m', 0, by rw [k1]; exact hu, hs, by omega, by omega,
      by rw [hc]; exact enterable_sibling m p _ e hen⟩
  by_cases k2 : key = DOWN
  · obtain ⟨p, m', -, hu, hc, hs, a, b, e⟩ := update_down m ok h1 h2
    exact ⟨m', 0, by rw [k2]; exact hu, hs, by omega, by omega,
      by rw [hc]; exact enterable_sibling m p _ e hen⟩
  by_cases k3 : key = LEFT
  · obtain ⟨m', -, hu, hs, a, b⟩ := update_left m ok h1 h2
    have hlt := ok.par_lt _ h1 h2
    by_cases hz : m.par m.currentNode = 0
    · have hm := b hz
      subst hm
      exact ⟨m', 0, by rw [k3]; exact hu, sameTree_refl m', h1, h2, hen⟩
    · exact ⟨m', 0, by rw [k3]; exact hu, hs, by rw [a hz]; omega, by rw [a hz]; omega,
        by rw [a hz]; exact enterable_parent m _ hen⟩
  by_cases k4 : key = RIGHT
  · have ha := getAction_act m ok.len h2
    by_cases hpos : m.act m.currentNode > 0
    · exact ⟨m, _, by rw [k4]; exact update_right_action m _ ha hpos, sameTree_refl m, h1, h2,
        hen⟩
    · by_cases he : m.eld m.currentNode = 1
      · exact ⟨m, 0, by rw [k4]; exact update_right_stay m ok h2 _ ha hpos he,
          sameTree_refl m, h1, h2, hen⟩
      · obtain ⟨m', hu, hs, hc, e1, e2, e3⟩ := update_right_descend m ok h1 h2 _ ha hpos he
        have hz : m.act m.currentNode = 0 := by
          have := nav.act_nonneg m.currentNode
          omega
        refine ⟨m', 0, by rw [k4]; exact hu, hs, by rw [hc, e1]; omega, by rw [hc, e1]; exact e2,
          ?_⟩
        rw [hc, e1]
        exact enterable_child m _ (by rw [e3]; exact hz) (by rw [e3]; exact hen)
  · exact ⟨m, 0, update_other m key k1 k2 k3 k4, sameTree_refl m, h1, h2, hen⟩

theorem run_enterable (calls : List Call) : ∀ (m : Menu), NavOK m → 1 ≤ m.currentNode →
    m.currentNode ≤ m.lastNode → m.enterable m.currentNode →
    ∃ m', m.run calls = some m' ∧ m.sameTree m' ∧ 1 ≤ m'.currentNode ∧
      m'.currentNode ≤ m.lastNode ∧ m.enterable m'.currentNode := by
  induction calls with
  | nil => intro m _ h1 h2 hen; exact ⟨m, rfl, sameTree_refl m, h1, h2, hen⟩
  | cons c cs ih =>
    intro m nav h1 h2 hen
    cases c with
    | update key =>
      obtain ⟨m1, a, hu, hs, g1, g2, g3⟩ := update_enterable m nav h1 h2 hen key
      obtain ⟨m', hr, hs', g4, g5, g6⟩ := ih m1 (navOK_same nav hs.2.1 hs.2.2.1) g1
        (by rw [hs.2.2.1]; exact g2) ((enterable_same hs.2.1 _).2 g3)
      exact ⟨m', by simp only [Menu.run, hu, hr], sameTree_trans hs hs', g4,
        by rw [← hs.2.2.1]; exact g5, (enterable_same hs.2.1 _).1 g6⟩
    | restart =>
      have hen1 : m.restart.enterable m.restart.currentNode :=
        (@enterable_same m m.restart rfl 1).2 (enterable_top m nav.par0 1 nav.ok.first)
      obtain ⟨m', hr, hs', g4, g5, g6⟩ := ih m.restart (navOK_same nav rfl rfl)
        (by show 1 ≤ 1; omega) (by show 1 ≤ m.lastNode; exact nav.ok.one) hen1
      exact ⟨m', by simp only [Menu.run, hr],
        sameTree_trans ⟨rfl, rfl, rfl, rfl, rfl, rfl, rfl⟩ hs', g4, g5,
        (@enterable_same m m.restart rfl _).1 g6⟩

theorem navOK_compiled (its : List Item) (h : WellFormed its) (hN : its.length ≤ 255)
    (m : Menu) (hm : m.compiledFrom (source its)) : NavOK m := by
  obtain ⟨-, hn, hl⟩ := compiled_fields its h m hm
  refine ⟨treeOK_compiled its h hN m hm, (tableOK_compiled its h m hm).par0, fun i => ?_⟩
  by_cases h0 : i = 0
  · subst h0; simp [Menu.act, hn, expNodes]
  · by_cases hi : i ≤ its.length
    · simp only [Menu.act, hn, expNodes_getD its i (by omega) hi, expNode]
      exact Int.natCast_nonneg _
    · have : (expNodes its).length ≤ i := by rw [expNodes_length]; omega
      simp only [Menu.act, hn, List.getD_eq_default _ _ this, node.zero]
      exact le_refl _

theorem run_down_iter : ∀ (j : Nat) (m : Menu), TreeOK m → 1 ≤ m.currentNode →
    m.currentNode ≤ m.lastNode → ∀ y, m.iterNext j m.currentNode = some y →
    ∃ m', m.run (List.replicate j (Call.update DOWN)) = some m' ∧ m.sameTree m' ∧
      m'.currentNode = y := by
  intro j
  induction j with
  | zero =>
    intro m _ _ _ y hy
    simp only [Menu.iterNext, Option.some.injEq] at hy
    exact ⟨m, rfl, sameTree_refl m, hy⟩
  | succ j ih =>
    intro m ok h1 h2 y hy
    obtain ⟨p, m1, hp, hu, hc, hs, a, b, -⟩ := update_down m ok h1 h2
    simp only [Menu.iterNext, hp] at hy
    have hy1 : m1.iterNext j m1.currentNode = some y := by
      rw [iterNext_congr hs.2.1 hs.2.2.1, hc]; exact hy
    obtain ⟨m', hr, hs', g⟩ := ih m1 (treeOK_congr ok hs.2.1 hs.2.2.1) (by omega)
      (by rw [hs.2.2.1, hc]; exact b) y hy1
    exact ⟨m', by simp only [List.replicate_succ, Menu.run, hu, hr], sameTree_trans hs hs', g⟩

theorem reach_sibling (m : Menu) (ok : TreeOK m) (c : Nat) (h1 : 1 ≤ c)
    (h2 : c ≤ m.lastNode) :
    ∃ j, m.iterNext j (m.eld (m.par c)) = some c := by
  obtain ⟨e1, e2, e3, -⟩ := eldest_sibling m ok c h1 h2
  have ht := cnt_tail m (m.par c) (m.eld (m.par c)) c m.lastNode e2 h2
  obtain ⟨y, hy, y1, y2, y3, y4⟩ := iterNext_count m ok.len (m.par c)
    (m.cnt (m.par c) (m.eld (m.par c) + 1) (c - m.eld (m.par c))) (m.eld (m.par c))
    (by omega) e3 (by omega)
  have := sibling_unique m (m.par c) (m.eld (m.par c)) y c y1 e2 y3 rfl y4
  exact ⟨_, by rw [hy, this]⟩

theorem reach (m : Menu) (nav : NavOK m) (hc : m.currentNode = 1) :
    ∀ c, 1 ≤ c → c ≤ m.lastNode → m.enterable c →
      ∃ calls m', m.run calls = some m' ∧ m.sameTree m' ∧ m'.currentNode = c := by
  intro c
  induction c using Nat.strong_induction_on with
  | _ c ih =>
    intro h1 h2 hen
    have ok := nav.ok
    obtain ⟨j, hj⟩ := reach_sibling m ok c h1 h2
    by_cases hp : m.par c = 0
    · rw [hp, ok.root, ← hc] at hj
      obtain ⟨m', hr, hs, g⟩ := run_down_iter j m ok (by omega) (by rw [hc]; exact ok.one) c hj
      exact ⟨_, m', hr, hs, g⟩
    · have hlt := ok.par_lt c h1 h2
      obtain ⟨calls, mp, hr, hs, g⟩ := ih (m.par c) hlt (by omega) (by omega)
        (enterable_parent m c hen)
      have okp : TreeOK mp := treeOK_congr ok hs.2.1 hs.2.2.1
      have hact := enterable_parent_act m c hen hp
      have hga := getAction_act mp okp.len (by rw [g, hs.2.2.1]; omega)
      rw [g, act_same hs.2.1, hact] at hga
      obtain ⟨pe1, -⟩ := ok.par_eld c h1 h2 (by omega)
      have hne : mp.eld mp.currentNode ≠ 1 := by
        rw [eld_same hs.2.1, g, pe1]; omega
      obtain ⟨mr, hu, hsr, hcr, -⟩ := update_right_descend mp okp (by rw [g]; omega)
        (by rw [g, hs.2.2.1]; omega) 0 hga (by decide) hne
      have hs2 := sameTree_trans hs hsr
      have okr : TreeOK mr := treeOK_congr ok hs2.2.1 hs2.2.2.1
      have hcr' : mr.currentNode = m.eld (m.par c) := by
        rw [hcr, eld_same hs.2.1, g]
      obtain ⟨e1, e2, -, -⟩ := eldest_sibling m ok c h1 h2
      have hj' : mr.iterNext j mr.currentNode = some c := by
        rw [iterNext_congr hs2.2.1 hs2.2.2.1, hcr']; exact hj
      obtain ⟨m', hr', hs', g'⟩ := run_down_iter j mr okr (by rw [hcr']; exact e1)
        (by rw [hcr', hs2.2.2.1]; omega) c hj'
      refine ⟨calls ++ (Call.update RIGHT :: List.replicate j (Call.update DOWN)), m', ?_,
        sameTree_trans hs2 hs', g'⟩
      rw [run_append, hr]
      simp only [Option.some_bind, Menu.run, hu, hr']

/-! ## The claims -/

/-- C1: for every well-formed source the constructor succeeds and sets `lastNode` to the
number of `:` characters of the source, which is the number of items; `menuParse` fills
exactly the entries `1..lastNode` of the table, entry `i` with the record of the `i`-th item
of the document (its label span starts where the label of item `i` starts, and the spans
follow each other in document order); entry 0 stays the sentinel written by the constructor
and the table has no entry past `lastNode`. -/
theorem C1_nodes_match_items (its : List Item) (h : WellFormed its) :
    ∃ m, Menu.construct (source its) = some m ∧
      m.lastNode = (source its).count ':' ∧ m.lastNode = its.length ∧
      m.nodes.length = m.lastNode + 1 ∧ m.nodes.get? 0 = some ⟨0, 0, 0, 1, 0⟩ ∧
      ∀ i, 1 ≤ i → i ≤ m.lastNode →
        ∃ nd, m.nodes.get? i = some nd ∧ nd.starts = labelStart its i ∧
          nd.ends = labelStart its i + (itemAt its i).label.length ∧ nd.starts ≤ nd.ends ∧
          (i < m.lastNode → nd.ends < labelStart its (i + 1)) := by
  refine ⟨_, construct_wf its h, ?_, rfl, ?_, ?_, ?_⟩
  · exact (count_colon_source its h.2.1).symm
  · exact expNodes_length its
  · rfl
  · intro i h1 h2
    refine ⟨_, expNodes_get its i h1 h2, rfl, rfl, by simp [expNode], ?_⟩
    intro hlt
    have hlt' : i < its.length := hlt
    obtain ⟨hs, -⟩ := items_split its i h1 h2
    have e1 : its.take (i + 1 - 1) = its.take (i - 1) ++ [itemAt its i] := by
      conv_lhs => rw [hs]
      have : (its.take (i - 1)).length = i - 1 := by simp; omega
      rw [List.take_append_eq_append_take, List.take_of_length_le (by omega), this]
      have : i + 1 - 1 - (i - 1) = 1 := by omega
      rw [this]; rfl
    have hlev : level its i = (itemAt its i).dashes := by
      obtain ⟨k, rfl⟩ : ∃ k, i = k + 1 := ⟨i - 1, by omega⟩
      rfl
    simp only [expNode, labelStart, e1, source_append, source, Item.text, List.length_append,
      List.length_replicate, List.length_cons, List.append_nil, hlev]
    omega

/-- C1, witness: the four-item scenario menu. -/
theorem C1_nodes_match_items_witness :
    WellFormed scenario ∧
    ∃ m, Menu.construct (source scenario) = some m ∧
      m.lastNode = (source scenario).count ':' ∧ m.lastNode = scenario.length ∧
      m.nodes.length = m.lastNode + 1 ∧ m.nodes.get? 0 = some ⟨0, 0, 0, 1, 0⟩ ∧
      ∀ i, 1 ≤ i → i ≤ m.lastNode →
        ∃ nd, m.nodes.get? i = some nd ∧ nd.starts = labelStart scenario i ∧
          nd.ends = labelStart scenario i + (itemAt scenario i).label.length ∧
          nd.starts ≤ nd.ends ∧ (i < m.lastNode → nd.ends < labelStart scenario (i + 1)) :=
  ⟨by decide, C1_nodes_match_items scenario (by decide)⟩

/-- C2 as stated fails on the 257-item source `wide 255`: item 257 is at level 2 and the item
that encloses it is item 256 (level 1), yet the compiled `parent(257)` is 0, because the
field is one byte and 256 is stored modulo 256. -/
theorem C2_counterexample :
    WellFormed (wide 255) ∧ level (wide 255) 257 = 2 ∧ level (wide 255) 256 = 1 ∧
      ∃ m, Menu.construct (source (wide 255)) = some m ∧ m.parent 257 = some 0 := by
  obtain ⟨m, hc, hm, -⟩ := construct_compiled (wide 255) (wide_wf 255)
  obtain ⟨hlen, hl, -, hp, -⟩ := wide_compiled 255 m hm
  refine ⟨wide_wf 255, level_wide_child 255, level_wide_top 255 256 (by omega) (by omega),
    m, hc, ?_⟩
  rw [parent_some m hlen 257 (by omega), hp]
  rfl

/-- C2, amended: for every well-formed source and every item `i`, the compiled `parent(i)` is
0 when `level(i) = 1`; otherwise, with `j` the largest index below `i` whose level is
`level(i) - 1` (it exists), the compiled `parent(i)` is `j` modulo 256, the field being one
byte, and therefore is `j` itself for every item `i ≤ 256`. -/
theorem C2_parent_is_enclosing_item (its : List Item) (h : WellFormed its) :
    ∃ m, Menu.construct (source its) = some m ∧
      ∀ i, 1 ≤ i → i ≤ its.length →
        (level its i = 1 → m.parent i = some 0) ∧
        (level its i ≠ 1 →
          ∃ j, 1 ≤ j ∧ j < i ∧ level its j = level its i - 1 ∧
            (∀ j', j < j' → j' < i → level its j' ≠ level its i - 1) ∧
            m.parent i = some (j % 256) ∧ (i ≤ 256 → m.parent i = some j)) := by
  obtain ⟨m, hc, hm, -⟩ := construct_compiled its h
  obtain ⟨-, hn, hl⟩ := compiled_fields its h m hm
  have hlv := levelsOK_of_wf its h
  have hlen : m.nodes.length = m.lastNode + 1 := by rw [hn, hl, expNodes_length]
  refine ⟨m, hc, fun i h1 h2 => ?_⟩
  have hp : m.parent i = some (toByte (encl its i)) := by
    rw [parent_some m hlen i (by omega), par_compiled its h m hm i h1 h2]
  constructor
  · intro hl1
    have := encl_top _ _ hlv i h2 hl1
    rw [hp]; unfold encl; rw [this]; rfl
  · intro hne
    have hge : 2 ≤ level its i := by have := hlv.pos i h1 h2; omega
    obtain ⟨e1, e2⟩ := encl_level _ _ hlv i h1 h2 hge
    have hlt := encl_lt its i h1
    refine ⟨encl its i, e1, hlt, e2, ?_, hp, ?_⟩
    · intro j' a b
      exact lastAt_max (level its) _ (i - 1) j' a (by omega)
    · intro hi
      rw [hp, toByte_small _ (by omega)]

/-- C2, witness: the scenario menu. -/
theorem C2_parent_is_enclosing_item_witness :
    WellFormed scenario ∧
    ∃ m, Menu.construct (source scenario) = some m ∧
      ∀ i, 1 ≤ i → i ≤ scenario.length →
        (level scenario i = 1 → m.parent i = some 0) ∧
        (level scenario i ≠ 1 →
          ∃ j, 1 ≤ j ∧ j < i ∧ level scenario j = level scenario i - 1 ∧
            (∀ j', j < j' → j' < i → level scenario j' ≠ level scenario i - 1) ∧
            m.parent i = some (j % 256) ∧ (i ≤ 256 → m.parent i = some j)) :=
  ⟨by decide, C2_parent_is_enclosing_item scenario (by decide)⟩

/-- C3: for every well-formed source and every item `i`, the stored span `[starts, ends)` of
node `i` covers exactly the characters between the dash run of the item and its `:`, so that
`label(i)` is the label text of the item, and the stored action is the decimal value of the
three digits of the item, a number between 0 and 999. -/
theorem C3_label_and_action (its : List Item) (h : WellFormed its) :
    ∃ m, Menu.construct (source its) = some m ∧
      ∀ i, 1 ≤ i → i ≤ its.length →
        m.label i = some (itemAt its i).label ∧
        ∃ nd pre tl, m.nodes.get? i = some nd ∧
          source its = pre ++ List.replicate (level its i) '-' ++ (itemAt its i).label ++
            ':' :: (itemAt its i).digits ++ tl ∧
          nd.starts = pre.length + level its i ∧
          nd.ends = nd.starts + (itemAt its i).label.length ∧
          substring (source its) nd.starts nd.ends = (itemAt its i).label ∧
          (∃ a b c, (itemAt its i).digits = [a, b, c] ∧
            nd.action = (((a.toNat - 48) * 100 + (b.toNat - 48) * 10 + (c.toNat - 48) : Nat) : Int)) ∧
          0 ≤ nd.action ∧ nd.action ≤ 999 := by
  obtain ⟨m, hc, hm, -⟩ := construct_compiled its h
  obtain ⟨hsrc, hn, hl⟩ := compiled_fields its h m hm
  refine ⟨m, hc, fun i h1 h2 => ⟨label_compiled its h m hm i h1 h2, ?_⟩⟩
  obtain ⟨hs, hlen⟩ := source_split its i h1 h2
  have hsub := substring_middle (source (its.take (i - 1)) ++ List.replicate (level its i) '-')
    (itemAt its i).label (':' :: (itemAt its i).digits ++ source (its.drop i))
  rw [← hs, hlen] at hsub
  have hmem : itemAt its i ∈ its := itemAt_mem its i h1 h2
  obtain ⟨-, -, -, -, hd3, hdig⟩ := h.2.1 _ hmem
  have hval := value_le (itemAt its i) hd3 hdig
  refine ⟨expNode its i, source (its.take (i - 1)), source (its.drop i),
    by rw [hn]; exact expNodes_get its i h1 h2, ?_, ?_, rfl, hsub, ?_, ?_, ?_⟩
  · rw [hs]; simp
  · simp [expNode, labelStart]
  · match hd : (itemAt its i).digits, hd3 with
    | [a, b, c], _ =>
      refine ⟨a, b, c, rfl, ?_⟩
      simp only [expNode, Item.value, hd, List.foldl_cons, List.foldl_nil]
      congr 1
      ring
  · simp [expNode]
  · simp only [expNode]
    exact_mod_cast hval

/-- C3, witness: `-A:101` compiles to one node with label `A` and action 101. -/
theorem C3_label_and_action_witness :
    WellFormed single ∧ source single = "-A:101".toList ∧
    ∃ m, Menu.construct (source single) = some m ∧ m.lastNode = 1 ∧
      m.label 1 = some "A".toList ∧ m.nodes.get? 1 = some ⟨1, 2, 0, 1, 101⟩ := by
  refine ⟨by decide, by decide, ?_⟩
  obtain ⟨m, hc, hall⟩ := C3_label_and_action single (by decide)
  obtain ⟨hlab, -⟩ := hall 1 (le_refl _) (le_refl _)
  refine ⟨m, hc, ?_, hlab, ?_⟩
  · rw [construct_wf single (by decide)] at hc
    cases hc; rfl
  · rw [construct_wf single (by decide)] at hc
    cases hc; decide

/-- C4 as stated fails on the 256-item source `wide 254`: node 255 has the child 256 (item
256 is one level deeper and `parent(256) = 255`), yet the stored `eldest(255)` is 0, neither
1 nor 256, because the field is one byte. -/
theorem C4_counterexample :
    WellFormed (wide 254) ∧ level (wide 254) 256 = level (wide 254) 255 + 1 ∧
      ∃ m, Menu.construct (source (wide 254)) = some m ∧ m.lastNode = 256 ∧
        m.parent 256 = some 255 ∧ m.eldest 255 = some 0 := by
  obtain ⟨m, hc, hm, -⟩ := construct_compiled (wide 254) (wide_wf 254)
  obtain ⟨hlen, hl, -, hp, he, -⟩ := wide_compiled 254 m hm
  refine ⟨wide_wf 254, ?_, m, hc, hl, ?_, ?_⟩
  · rw [level_wide_child 254, level_wide_top 254 255 (by omega) (by omega)]
  · rw [parent_some m hlen 256 (by omega), hp]; rfl
  · rw [eldest_some m hlen 255 (by omega), he]; rfl

/-- C4, amended: for every well-formed source of at most 255 items and every node `n` in
`[1, lastNode]`, `eldest(n)` is either 1 or `n + 1`; it is `n + 1` exactly when `n < lastNode`
and item `n + 1` is one level deeper than item `n`, which holds exactly when some node has
parent `n`, and in that case `parent(n + 1) = n`; otherwise it is 1.  So no node that has
children stores the sentinel 1. -/
theorem C4_eldest_is_next_node (its : List Item) (h : WellFormed its)
    (hN : its.length ≤ 255) :
    ∃ m, Menu.construct (source its) = some m ∧
      ∀ n, 1 ≤ n → n ≤ m.lastNode →
        ∃ e, m.eldest n = some e ∧ (e = 1 ∨ e = n + 1) ∧
          (e = n + 1 ↔ (n < m.lastNode ∧ level its (n + 1) = level its n + 1)) ∧
          ((n < m.lastNode ∧ level its (n + 1) = level its n + 1) ↔
            ∃ i, 1 ≤ i ∧ i ≤ m.lastNode ∧ m.parent i = some n) ∧
          (e = n + 1 → m.parent (n + 1) = some n) ∧
          ((∃ i, 1 ≤ i ∧ i ≤ m.lastNode ∧ m.parent i = some n) → e ≠ 1) := by
  obtain ⟨m, hc, hm, -⟩ := construct_compiled its h
  obtain ⟨-, hn, hl⟩ := compiled_fields its h m hm
  have hlv := levelsOK_of_wf its h
  have hlen : m.nodes.length = m.lastNode + 1 := by rw [hn, hl, expNodes_length]
  have hpar : ∀ i, 1 ≤ i → i ≤ its.length → m.parent i = some (encl its i) := by
    intro i h1 h2
    rw [parent_some m hlen i (by omega), par_compiled its h m hm i h1 h2, toByte_small]
    have := encl_lt its i h1
    omega
  refine ⟨m, hc, fun n h1 h2 => ?_⟩
  rw [hl] at h2
  have he : m.eldest n
      = some (if level its (n + 1) > level its n then toByte (n + 1) else 1) := by
    rw [eldest_some m hlen n (by omega), eld_compiled its h m hm n h1 h2]
  have hchild : (n < m.lastNode ∧ level its (n + 1) = level its n + 1) ↔
      ∃ i, 1 ≤ i ∧ i ≤ m.lastNode ∧ m.parent i = some n := by
    rw [hl]
    constructor
    · rintro ⟨a, b⟩
      refine ⟨n + 1, by omega, by omega, ?_⟩
      rw [hpar (n + 1) (by omega) (by omega)]
      exact congrArg some (encl_child (level its) n b)
    · rintro ⟨i, a, b, c⟩
      rw [hpar i a b] at c
      have e : encl its i = n := Option.some.inj c
      have hlt := encl_lt its i a
      have := encl_next (level its) its.length hlv i a b (by rw [← e] at h1; exact h1)
      rw [show lastAt (level its) (level its i - 1) (i - 1) = encl its i from rfl, e] at this
      exact ⟨by omega, this⟩
  by_cases hd : level its (n + 1) > level its n
  · obtain ⟨h3, h4⟩ := deeper_next its h n h1 hd
    have hb : toByte (n + 1) = n + 1 := toByte_small _ (by omega)
    have hch : n < m.lastNode ∧ level its (n + 1) = level its n + 1 := ⟨by omega, h4⟩
    refine ⟨n + 1, by rw [he]; simp only [hd, if_true, hb], Or.inr rfl,
      ⟨fun _ => hch, fun _ => rfl⟩, hchild, ?_, fun _ => by omega⟩
    intro _
    rw [hpar (n + 1) (by omega) h3]
    exact congrArg some (encl_child (level its) n h4)
  · have hno : ¬ (n < m.lastNode ∧ level its (n + 1) = level its n + 1) := by
      rintro ⟨-, b⟩; omega
    refine ⟨1, by rw [he]; simp only [hd, if_false], Or.inl rfl,
      ⟨fun e => by omega, fun hx => absurd hx hno⟩, hchild, fun e => by omega, ?_⟩
    intro hex
    exact absurd (hchild.mpr hex) hno

/-- C4, witness: the scenario menu. -/
theorem C4_eldest_is_next_node_witness :
    WellFormed scenario ∧ scenario.length ≤ 255 ∧
    ∃ m, Menu.construct (source scenario) = some m ∧
      ∀ n, 1 ≤ n → n ≤ m.lastNode →
        ∃ e, m.eldest n = some e ∧ (e = 1 ∨ e = n + 1) ∧
          (e = n + 1 ↔ (n < m.lastNode ∧ level scenario (n + 1) = level scenario n + 1)) ∧
          ((n < m.lastNode ∧ level scenario (n + 1) = level scenario n + 1) ↔
            ∃ i, 1 ≤ i ∧ i ≤ m.lastNode ∧ m.parent i = some n) ∧
          (e = n + 1 → m.parent (n + 1) = some n) ∧
          ((∃ i, 1 ≤ i ∧ i ≤ m.lastNode ∧ m.parent i = some n) → e ≠ 1) :=
  ⟨by decide, by decide, C4_eldest_is_next_node scenario (by decide) (by decide)⟩

/-- C5: for every well-formed source and every node `n` in `[1, lastNode]`, the stored
`parent(n)` is smaller than `n`. -/
theorem C5_parent_precedes (its : List Item) (h : WellFormed its) :
    ∃ m, Menu.construct (source its) = some m ∧
      ∀ n, 1 ≤ n → n ≤ m.lastNode → ∃ p, m.parent n = some p ∧ p < n := by
  obtain ⟨m, hc, hm, -⟩ := construct_compiled its h
  obtain ⟨-, hn, hl⟩ := compiled_fields its h m hm
  have hlen : m.nodes.length = m.lastNode + 1 := by rw [hn, hl, expNodes_length]
  refine ⟨m, hc, fun n h1 h2 => ⟨m.par n, parent_some m hlen n h2, ?_⟩⟩
  rw [par_compiled its h m hm n h1 (by omega)]
  have := toByte_le (encl its n)
  have := encl_lt its n h1
  omega

/-- C5, witness: the scenario menu. -/
theorem C5_parent_precedes_witness :
    WellFormed scenario ∧
    ∃ m, Menu.construct (source scenario) = some m ∧
      ∀ n, 1 ≤ n → n ≤ m.lastNode → ∃ p, m.parent n = some p ∧ p < n :=
  ⟨by decide, C5_parent_precedes scenario (by decide)⟩

/-- C6 as stated fails on the 256-item source `wide 254` with the cursor at node 256, the
child of node 255: `eldest(255)` is stored as 0, so node 256 is not recognised as the eldest
child, the backward scan of `previousSibling` finds no node with parent 255 and the function
ends without a `return`; `update(UP)` has no defined result. -/
theorem C6_counterexample :
    WellFormed (wide 254) ∧
      ∃ m, Menu.construct (source (wide 254)) = some m ∧ m.lastNode = 256 ∧
        (m.withCursor 256).previousSibling 256 = none ∧
        (m.withCursor 256).update UP = none := by
  obtain ⟨m, hc, hm, -⟩ := construct_compiled (wide 254) (wide_wf 254)
  have hm' : (m.withCursor 256).compiledFrom (source (wide 254)) :=
    compiledFrom_cursor hm _ rfl rfl rfl
  obtain ⟨hlen, hl, hp, hp256, he, -⟩ := wide_compiled 254 _ hm'
  have h1 := parent_some _ hlen 256 (by omega)
  have h2 := eldest_some _ hlen 255 (by omega)
  have hb1 : toByte (254 + 1) = 255 := by decide
  have hb2 : toByte (254 + 2) = 0 := by decide
  rw [hp256, hb1] at h1
  rw [he, hb2] at h2
  have hnone : (m.withCursor 256).prevLoop 256 255 = none := by
    apply prevLoop_none _ hlen 256 (by omega) 255 (by omega)
    intro j a b
    rw [hp j a (by omega), hp256, hb1]; omega
  have hprev : (m.withCursor 256).previousSibling 256 = none := by
    simp only [Menu.previousSibling, h1, h2]
    exact hnone
  have hprev' : (m.withCursor 256).previousSibling (m.withCursor 256).currentNode = none :=
    hprev
  refine ⟨wide_wf 254, m, hc, hl, hprev, ?_⟩
  simp only [Menu.update, Menu.keyUp, if_true, hprev']

/-- C6, amended: for every tree compiled from a well-formed source of at most 255 items and
every cursor `c` in `[1, lastNode]`: `update(UP)` sets the cursor to `previousSibling(c)`,
`update(DOWN)` sets it to `nextSibling(c)`, `update(LEFT)` sets it to `parent(c)` when that
is not 0 and leaves it at `c` otherwise; each of the three calls returns 0 and keeps the
tree; `update(k)` for a key `k` other than `UP` (1), `DOWN` (2), `LEFT` (3), `RIGHT` (4)
returns 0 and changes nothing. -/
theorem C6_up_down_left (its : List Item) (h : WellFormed its) (hN : its.length ≤ 255)
    (m : Menu) (hm : m.compiledFrom (source its)) (h1 : 1 ≤ m.currentNode)
    (h2 : m.currentNode ≤ m.lastNode) :
    (∃ p m', m.previousSibling m.currentNode = some p ∧ m.update UP = some (m', 0) ∧
      m'.currentNode = p ∧ m.sameTree m') ∧
    (∃ p m', m.nextSibling m.currentNode = some p ∧ m.update DOWN = some (m', 0) ∧
      m'.currentNode = p ∧ m.sameTree m') ∧
    (∃ p m', m.parent m.currentNode = some p ∧ m.update LEFT = some (m', 0) ∧
      (p ≠ 0 → m'.currentNode = p) ∧ (p = 0 → m'.currentNode = m.currentNode) ∧
      m.sameTree m') ∧
    (∀ k : Int, k ≠ UP → k ≠ DOWN → k ≠ LEFT → k ≠ RIGHT → m.update k = some (m, 0)) ∧
    UP = 1 ∧ DOWN = 2 ∧ LEFT = 3 ∧ RIGHT = 4 := by
  have ok := treeOK_compiled its h hN m hm
  refine ⟨?_, ?_, ?_, fun k a b c d => update_other m k a b c d, rfl, rfl, rfl, rfl⟩
  · obtain ⟨p, m', a, b, c, d, -⟩ := update_up m ok h1 h2
    exact ⟨p, m', a, b, c, d⟩
  · obtain ⟨p, m', a, b, c, d, -⟩ := update_down m ok h1 h2
    exact ⟨p, m', a, b, c, d⟩
  · obtain ⟨m', a, b, c, d, e⟩ := update_left m ok h1 h2
    exact ⟨m.par m.currentNode, m', a, b, d, fun hz => by rw [e hz], c⟩

/-- C6, witness: the scenario menu with the cursor at node 3 (`B`). -/
theorem C6_up_down_left_witness :
    WellFormed scenario ∧ scenario.length ≤ 255 ∧
    (scenarioMenu 3).compiledFrom (source scenario) ∧ 1 ≤ (scenarioMenu 3).currentNode ∧
    (scenarioMenu 3).currentNode ≤ (scenarioMenu 3).lastNode ∧
    ((∃ p m', (scenarioMenu 3).previousSibling (scenarioMenu 3).currentNode = some p ∧
      (scenarioMenu 3).update UP = some (m', 0) ∧ m'.currentNode = p ∧
      (scenarioMenu 3).sameTree m') ∧
    (∃ p m', (scenarioMenu 3).nextSibling (scenarioMenu 3).currentNode = some p ∧
      (scenarioMenu 3).update DOWN = some (m', 0) ∧ m'.currentNode = p ∧
      (scenarioMenu 3).sameTree m') ∧
    (∃ p m', (scenarioMenu 3).parent (scenarioMenu 3).currentNode = some p ∧
      (scenarioMenu 3).update LEFT = some (m', 0) ∧
      (p ≠ 0 → m'.currentNode = p) ∧ (p = 0 → m'.currentNode = (scenarioMenu 3).currentNode) ∧
      (scenarioMenu 3).sameTree m') ∧
    (∀ k : Int, k ≠ UP → k ≠ DOWN → k ≠ LEFT → k ≠ RIGHT →
      (scenarioMenu 3).update k = some (scenarioMenu 3, 0)) ∧
    UP = 1 ∧ DOWN = 2 ∧ LEFT = 3 ∧ RIGHT = 4) :=
  ⟨by decide, by decide, scenario_compiled 3, by decide, by decide,
    C6_up_down_left scenario (by decide) (by decide) (scenarioMenu 3) (scenario_compiled 3)
      (by decide) (by decide)⟩

/-- C7 as stated fails on the 256-item source `wide 254` when the library owns the display:
at node 255 (action 0, stored `eldest` 0 instead of 256) `update(RIGHT)` sets the cursor to
0 and repaints; `rank(0)` walks the top-level siblings and never meets node 0, so the call
does not return. -/
theorem C7_counterexample :
    WellFormed (wide 254) ∧
      ∃ m, Menu.construct (source (wide 254)) = some m ∧ m.lastNode = 256 ∧
        ((m.withCursor 255).ownDisplay).getAction = some 0 ∧
        ((m.withCursor 255).ownDisplay).eldest 255 = some 0 ∧
        ((m.withCursor 255).ownDisplay).update RIGHT = none := by
  obtain ⟨m, hc, hm, -, -, -⟩ := construct_compiled (wide 254) (wide_wf 254)
  have hrows : m.LCDrows = 2 := by
    rw [construct_wf _ (wide_wf 254)] at hc
    cases hc; rfl
  have hm' : ((m.withCursor 255).ownDisplay).compiledFrom (source (wide 254)) :=
    compiledFrom_cursor hm _ rfl rfl rfl
  obtain ⟨hlen, hl, -, -, he, he0, hp0, -⟩ := wide_compiled 254 _ hm'
  have ha := wide_getAction _ hm' rfl
  have he' := eldest_some _ hlen 255 (by omega)
  have hb : toByte (254 + 2) = 0 := by decide
  rw [he, hb] at he'
  refine ⟨wide_wf 254, m, hc, hl, ha, he', ?_⟩
  have he'' : ((m.withCursor 255).ownDisplay).eldest ((m.withCursor 255).ownDisplay).currentNode
      = some 0 := he'
  rw [update_right_unfold _ 0 0 ha (by decide) he'' (by decide)]
  apply refresh_none _ _ (by show (0 : Nat) ≠ 255; decide) rfl
  exact showMenu_zero_none _ hlen hp0 he0 rfl rfl 1
    (by show m.LCDrows.toNat = 2; rw [hrows]; rfl)

/-- C7, amended: for every tree compiled from a well-formed source of at most 255 items and
every cursor `c` in `[1, lastNode]`, the action of `c` is a number `a ≥ 0`; when `a > 0`,
`update(RIGHT)` returns `a` and leaves the whole state (cursor, refresh flag, display)
unchanged; when `a = 0` and `eldest(c) ≠ 1`, it returns 0 and sets the cursor to `eldest(c)`;
when `a = 0` and `eldest(c) = 1`, it returns 0 and leaves the state unchanged. -/
theorem C7_right (its : List Item) (h : WellFormed its) (hN : its.length ≤ 255)
    (m : Menu) (hm : m.compiledFrom (source its)) (h1 : 1 ≤ m.currentNode)
    (h2 : m.currentNode ≤ m.lastNode) :
    ∃ a e, m.getAction = some a ∧ 0 ≤ a ∧ m.eldest m.currentNode = some e ∧
      (a > 0 → m.update RIGHT = some (m, a)) ∧
      (a = 0 → e ≠ 1 →
        ∃ m', m.update RIGHT = some (m', 0) ∧ m'.currentNode = e ∧ m.sameTree m') ∧
      (a = 0 → e = 1 → m.update RIGHT = some (m, 0)) := by
  have ok := treeOK_compiled its h hN m hm
  have ha := getAction_compiled its h m hm h1 h2
  have he := eldest_some m ok.len _ h2
  refine ⟨_, _, ha, by exact_mod_cast Nat.zero_le _, he, ?_, ?_, ?_⟩
  · intro hpos
    exact update_right_action m _ ha hpos
  · intro hz hne
    obtain ⟨m', a, b, c, -⟩ := update_right_descend m ok h1 h2 _ ha (by omega) hne
    exact ⟨m', a, c, b⟩
  · intro hz he1
    exact update_right_stay m ok h2 _ ha (by omega) he1

/-- C7, witness: in the scenario menu at node 2 (`A`, action 101), `RIGHT` returns 101 and the
state, cursor included, is unchanged. -/
theorem C7_right_witness :
    WellFormed scenario ∧ scenario.length ≤ 255 ∧
    (scenarioMenu 2).compiledFrom (source scenario) ∧ 1 ≤ (scenarioMenu 2).currentNode ∧
    (scenarioMenu 2).currentNode ≤ (scenarioMenu 2).lastNode ∧
    (scenarioMenu 2).update RIGHT = some (scenarioMenu 2, 101) := by
  refine ⟨by decide, by decide, scenario_compiled 2, by decide, by decide, ?_⟩
  obtain ⟨a, e, ha, -, -, hpos, -, -⟩ := C7_right scenario (by decide) (by decide)
    (scenarioMenu 2) (scenario_compiled 2) (by decide) (by decide)
  have h101 : (scenarioMenu 2).getAction = some 101 := by decide
  rw [h101] at ha
  obtain rfl : (101 : Int) = a := Option.some.inj ha
  exact hpos (by decide)

/-- C8 as stated fails on the 256-item source `wide 254`: from the state left by the
constructor, 254 calls `update(DOWN)` bring the cursor to node 255 and `update(RIGHT)` then
sets it to the stored `eldest(255)`, which is 0, outside `[1, lastNode]`. -/
theorem C8_counterexample :
    WellFormed (wide 254) ∧
      ∃ m m', Menu.construct (source (wide 254)) = some m ∧
        m.run (List.replicate 254 (Call.update DOWN) ++ [Call.update RIGHT]) = some m' ∧
        m'.currentNode = 0 ∧ m'.lastNode = 256 := by
  obtain ⟨m, hc, hm, h1, hh, -⟩ := construct_compiled (wide 254) (wide_wf 254)
  obtain ⟨m1, hr, hm1, hc1, hh1⟩ := wide_down_run 254 m hm (by omega) (by omega) hh
  rw [h1] at hc1
  have hright := wide_right_wraps m1 hm1 hc1 hh1
  obtain ⟨-, hl, -⟩ := wide_compiled 254 m1 hm1
  refine ⟨wide_wf 254, m, { m1 with currentNode := 0, lcdNeedsUpdate := true }, hc, ?_, rfl, hl⟩
  rw [run_append, hr]
  simp only [Option.some_bind, Menu.run, hright]

/-- C8, amended: for every well-formed source of at most 255 items, the constructor leaves the
cursor at 1, and after every finite sequence of `update(key)` calls (any integer keys) and
`restart()` calls the cursor lies in `[1, lastNode]` and the node table, `lastNode` and the
source are as compiled; `restart()` sets the cursor to 1 and changes nothing else. -/
theorem C8_cursor_valid (its : List Item) (h : WellFormed its) (hN : its.length ≤ 255) :
    ∃ m, Menu.construct (source its) = some m ∧ m.currentNode = 1 ∧ 1 ≤ m.lastNode ∧
      ∀ calls : List Call, ∃ m', m.run calls = some m' ∧
        1 ≤ m'.currentNode ∧ m'.currentNode ≤ m'.lastNode ∧
        m'.nodes = m.nodes ∧ m'.lastNode = m.lastNode ∧ m'.MYitems = m.MYitems ∧
        m'.restart.currentNode = 1 ∧ m'.restart = { m' with currentNode := 1 } := by
  obtain ⟨m, hc, hm, h1, -, -⟩ := construct_compiled its h
  have ok := treeOK_compiled its h hN m hm
  refine ⟨m, hc, h1, ok.one, fun calls => ?_⟩
  obtain ⟨m', hr, hs, a, b⟩ := run_total calls m ok (by omega) (by rw [h1]; exact ok.one)
  exact ⟨m', hr, a, b, hs.2.1, hs.2.2.1, hs.1, rfl, rfl⟩

/-- C8, witness: the scenario menu. -/
theorem C8_cursor_valid_witness :
    WellFormed scenario ∧ scenario.length ≤ 255 ∧
    ∃ m, Menu.construct (source scenario) = some m ∧ m.currentNode = 1 ∧ 1 ≤ m.lastNode ∧
      ∀ calls : List Call, ∃ m', m.run calls = some m' ∧
        1 ≤ m'.currentNode ∧ m'.currentNode ≤ m'.lastNode ∧
        m'.nodes = m.nodes ∧ m'.lastNode = m.lastNode ∧ m'.MYitems = m.MYitems ∧
        m'.restart.currentNode = 1 ∧ m'.restart = { m' with currentNode := 1 } :=
  ⟨by decide, by decide, C8_cursor_valid scenario (by decide) (by decide)⟩

/-- C9 as stated fails on the 256-item source `wide 254`: node 255 has action 0 and the child
256, but with the cursor at 255 `update(RIGHT)` moves the cursor to the stored `eldest(255)`,
which is 0 and not the first child 256. -/
theorem C9_counterexample :
    WellFormed (wide 254) ∧
      ∃ m m', Menu.construct (source (wide 254)) = some m ∧ m.lastNode = 256 ∧
        (m.withCursor 255).getAction = some 0 ∧ (m.withCursor 255).parent 256 = some 255 ∧
        (m.withCursor 255).update RIGHT = some (m', 0) ∧ m'.currentNode = 0 := by
  obtain ⟨m, hc, hm, -, hh, -⟩ := construct_compiled (wide 254) (wide_wf 254)
  have hm' : (m.withCursor 255).compiledFrom (source (wide 254)) :=
    compiledFrom_cursor hm _ rfl rfl rfl
  obtain ⟨hlen, hl, -, hp, -⟩ := wide_compiled 254 _ hm'
  have hpar := parent_some _ hlen 256 (by omega)
  have hb : toByte (254 + 1) = 255 := by decide
  rw [hp, hb] at hpar
  exact ⟨wide_wf 254, m, _, hc, hl, wide_getAction _ hm' rfl, hpar,
    wide_right_wraps _ hm' rfl hh, rfl⟩

/-- C9, amended: for every tree compiled from a well-formed source of at most 255 items and
every node `c` with action 0 and at least one child, starting with the cursor at `c`:
`update(RIGHT)` moves the cursor to `c + 1`, the first child of `c`; after any following
sequence of `update(UP)` and `update(DOWN)` calls the cursor is on a child of `c`; and a
following `update(LEFT)` brings the cursor back to `c`. -/
theorem C9_descend_ascend (its : List Item) (h : WellFormed its) (hN : its.length ≤ 255)
    (m : Menu) (hm : m.compiledFrom (source its)) (h1 : 1 ≤ m.currentNode)
    (h2 : m.currentNode ≤ m.lastNode) (ha : m.getAction = some 0)
    (hchild : ∃ i, 1 ≤ i ∧ i ≤ m.lastNode ∧ m.parent i = some m.currentNode) :
    ∃ m1, m.update RIGHT = some (m1, 0) ∧ m1.currentNode = m.currentNode + 1 ∧
      m.parent (m.currentNode + 1) = some m.currentNode ∧
      (∀ i, 1 ≤ i → i ≤ m.lastNode → m.parent i = some m.currentNode → m.currentNode + 1 ≤ i) ∧
      ∀ keys : List Int, (∀ k ∈ keys, k = UP ∨ k = DOWN) →
        ∃ m2, m1.run (keys.map Call.update) = some m2 ∧
          1 ≤ m2.currentNode ∧ m2.currentNode ≤ m.lastNode ∧
          m.parent m2.currentNode = some m.currentNode ∧
          ∃ m3, m2.update LEFT = some (m3, 0) ∧ m3.currentNode = m.currentNode := by
  have ok := treeOK_compiled its h hN m hm
  obtain ⟨i, hi1, hi2, hip⟩ := hchild
  rw [parent_some m ok.len i hi2] at hip
  have hpi : m.par i = m.currentNode := Option.some.inj hip
  obtain ⟨e1, e2⟩ := ok.par_eld i hi1 hi2 (by omega)
  rw [hpi] at e1 e2
  obtain ⟨m1, hu, hs, hc, -, hle, -⟩ := update_right_descend m ok h1 h2 0 ha (by decide)
    (by omega)
  rw [e1] at hc
  have ok1 : TreeOK m1 := treeOK_congr ok hs.2.1 hs.2.2.1
  have hpar : ∀ x, m1.par x = m.par x := fun x => by simp only [Menu.par, hs.2.1]
  refine ⟨m1, hu, hc, by rw [parent_some m ok.len _ hle, e2], ?_, ?_⟩
  · intro j hj1 hj2 hjp
    rw [parent_some m ok.len j hj2] at hjp
    have := ok.par_lt j hj1 hj2
    rw [Option.some.inj hjp] at this
    omega
  · intro keys hk
    obtain ⟨m2, hr, hs2, a, b, e⟩ := updown_run m.currentNode keys hk m1 ok1 (by omega)
      (by rw [hc, hs.2.2.1]; exact hle) (by rw [hc, hpar]; exact e2)
    have ok2 : TreeOK m2 := treeOK_congr ok1 hs2.2.1 hs2.2.2.1
    have hpar2 : ∀ x, m2.par x = m.par x := fun x => by
      simp only [Menu.par, hs2.2.1, hs.2.1]
    have hl2 : m2.lastNode = m.lastNode := hs2.2.2.1.trans hs.2.2.1
    obtain ⟨m3, -, hu3, -, hmove, -⟩ := update_left m2 ok2 a b
    refine ⟨m2, hr, a, by omega, ?_, m3, hu3, ?_⟩
    · rw [parent_some m ok.len _ (by omega), ← hpar2, e]
    · rw [hmove (by omega), e]

/-- C9, witness: the scenario menu compiles to 4 nodes with the cursor at 1; `RIGHT` gives 2,
`DOWN` gives 3, `LEFT` gives 1. -/
theorem C9_descend_ascend_witness :
    WellFormed scenario ∧ scenario.length ≤ 255 ∧
    (scenarioMenu 1).compiledFrom (source scenario) ∧ 1 ≤ (scenarioMenu 1).currentNode ∧
    (scenarioMenu 1).currentNode ≤ (scenarioMenu 1).lastNode ∧
    (scenarioMenu 1).getAction = some 0 ∧
    (∃ i, 1 ≤ i ∧ i ≤ (scenarioMenu 1).lastNode ∧
      (scenarioMenu 1).parent i = some (scenarioMenu 1).currentNode) ∧
    (∃ m1, (scenarioMenu 1).update RIGHT = some (m1, 0) ∧ m1.currentNode = 2 ∧
      ∀ keys : List Int, (∀ k ∈ keys, k = UP ∨ k = DOWN) →
        ∃ m2, m1.run (keys.map Call.update) = some m2 ∧
          (scenarioMenu 1).parent m2.currentNode = some 1 ∧
          ∃ m3, m2.update LEFT = some (m3, 0) ∧ m3.currentNode = 1) ∧
    Menu.construct (source scenario) = some (scenarioMenu 1) ∧ (scenarioMenu 1).lastNode = 4 ∧
    (scenarioMenu 1).update RIGHT = some (scenarioMenu 2, 0) ∧
    (scenarioMenu 2).update DOWN = some (scenarioMenu 3, 0) ∧
    (scenarioMenu 3).update LEFT = some (scenarioMenu 1, 0) := by
  have hchild : ∃ i, 1 ≤ i ∧ i ≤ (scenarioMenu 1).lastNode ∧
      (scenarioMenu 1).parent i = some (scenarioMenu 1).currentNode :=
    ⟨2, by decide, by decide, by decide⟩
  obtain ⟨m1, a, b, -, -, c⟩ := C9_descend_ascend scenario (by decide) (by decide)
    (scenarioMenu 1) (scenario_compiled 1) (by decide) (by decide) (by decide) hchild
  refine ⟨by decide, by decide, scenario_compiled 1, by decide, by decide, by decide, hchild,
    ⟨m1, a, b, fun keys hk => ?_⟩, scenario_construct, rfl, by decide, by decide, by decide⟩
  obtain ⟨m2, d1, -, -, d4, d5⟩ := c keys hk
  exact ⟨m2, d1, d4, d5⟩

/-- C10 as stated fails: on the scenario menu with the cursor at node 1 (`READ`),
`update(RIGHT)` moves the cursor to node 2 (`A`) and `update(DOWN)` then moves it to the next
sibling of node 2, node 3 (`B`), not to node 4 (`SET`). -/
theorem C10_counterexample :
    ∃ m m1 m2, Menu.construct "-READ:000--A:101--B:102-SET:000".toList = some m ∧
      m.currentNode = 1 ∧ m.update RIGHT = some (m1, 0) ∧ m1.update DOWN = some (m2, 0) ∧
      m2.currentNode ≠ 4 := by
  refine ⟨scenarioMenu 1, scenarioMenu 2, scenarioMenu 3, ?_, rfl, by decide, by decide,
    by decide⟩
  rw [← source_scenario]; exact scenario_construct

/-- C10, amended: on the menu compiled from `-READ:000--A:101--B:102-SET:000`, with the cursor
at node 1 (`READ`), `update(RIGHT)` followed by `update(DOWN)` leaves the cursor at node 3
(`B`); node 4 (`SET`) is where `update(DOWN)` alone takes the cursor from node 1. -/
theorem C10_right_then_down :
    ∃ m m1 m2 m4, Menu.construct "-READ:000--A:101--B:102-SET:000".toList = some m ∧
      m.currentNode = 1 ∧ m.label 1 = some "READ".toList ∧
      m.update RIGHT = some (m1, 0) ∧ m1.update DOWN = some (m2, 0) ∧
      m2.currentNode = 3 ∧ m2.label 3 = some "B".toList ∧
      m.update DOWN = some (m4, 0) ∧ m4.currentNode = 4 ∧ m4.label 4 = some "SET".toList := by
  refine ⟨scenarioMenu 1, scenarioMenu 2, scenarioMenu 3, scenarioMenu 4, ?_, rfl, by decide,
    by decide, by decide, rfl, by decide, by decide, rfl, by decide⟩
  rw [← source_scenario]; exact scenario_construct

/-- C11: for every well-formed source and every node `n` in `[1, lastNode]`, `nextSibling(n)`
returns a node `r` of `[n, lastNode]` with the same parent as `n`; when some `i` with
`n < i <= lastNode` has the parent of `n`, `r` is the smallest such `i`, and otherwise `r` is
`n` itself. -/
theorem C11_nextSibling (its : List Item) (h : WellFormed its) :
    ∃ m, Menu.construct (source its) = some m ∧
      ∀ n, 1 ≤ n → n ≤ m.lastNode →
        ∃ r, m.nextSibling n = some r ∧ n ≤ r ∧ r ≤ m.lastNode ∧ m.parent r = m.parent n ∧
          ((∃ i, n < i ∧ i ≤ m.lastNode ∧ m.parent i = m.parent n) →
            n < r ∧ ∀ i, n < i → i < r → m.parent i ≠ m.parent n) ∧
          ((¬ ∃ i, n < i ∧ i ≤ m.lastNode ∧ m.parent i = m.parent n) → r = n) := by
  obtain ⟨m, hc, hm, -⟩ := construct_compiled its h
  have ok := tableOK_compiled its h m hm
  refine ⟨m, hc, fun n _ h2 => ?_⟩
  obtain ⟨r, hr, hcase⟩ := nextSibling_spec m ok.len n h2
  rcases hcase with ⟨a, b, c, d⟩ | ⟨a, b⟩
  · refine ⟨r, hr, by omega, b, (parent_eq_iff m ok.len r n b h2).2 c, fun _ => ⟨a, ?_⟩, ?_⟩
    · intro i x y e
      exact d i x y ((parent_eq_iff m ok.len i n (by omega) h2).1 e)
    · intro hno
      exact absurd ⟨r, a, b, (parent_eq_iff m ok.len r n b h2).2 c⟩ hno
  · subst a
    refine ⟨r, hr, le_refl _, h2, rfl, ?_, fun _ => rfl⟩
    rintro ⟨i, x, y, e⟩
    exact absurd ((parent_eq_iff m ok.len i r y h2).1 e) (b i x y)

/-- C11, witness: the scenario menu. -/
theorem C11_nextSibling_witness :
    WellFormed scenario ∧
    ∃ m, Menu.construct (source scenario) = some m ∧
      ∀ n, 1 ≤ n → n ≤ m.lastNode →
        ∃ r, m.nextSibling n = some r ∧ n ≤ r ∧ r ≤ m.lastNode ∧ m.parent r = m.parent n ∧
          ((∃ i, n < i ∧ i ≤ m.lastNode ∧ m.parent i = m.parent n) →
            n < r ∧ ∀ i, n < i → i < r → m.parent i ≠ m.parent n) ∧
          ((¬ ∃ i, n < i ∧ i ≤ m.lastNode ∧ m.parent i = m.parent n) → r = n) :=
  ⟨by decide, C11_nextSibling scenario (by decide)⟩

/-- C12 as stated fails on the 256-item source `wide 254`: node 256 is the only child of node
255, but the stored `eldest(255)` is 0, so node 256 is not taken for a first child, no index
below 256 has parent 255 and the backward scan of `previousSibling(256)` ends without a
`return`; and for the node `p = 255`, which has a child, `previousSibling(eldest(p))` is
`previousSibling(0)`, which has no result either. -/
theorem C12_counterexample :
    WellFormed (wide 254) ∧
      ∃ m, Menu.construct (source (wide 254)) = some m ∧ m.lastNode = 256 ∧
        m.parent 256 = some 255 ∧ m.eldest 255 = some 0 ∧
        (∀ i, 1 ≤ i → i < 256 → m.parent i ≠ m.parent 256) ∧
        m.previousSibling 256 = none ∧ m.previousSibling 0 = none := by
  obtain ⟨m, hc, hm, -⟩ := construct_compiled (wide 254) (wide_wf 254)
  obtain ⟨hlen, hl, hp, hp256, he, he0, hp0, -⟩ := wide_compiled 254 m hm
  have h1 := parent_some m hlen 256 (by omega)
  have h2 := eldest_some m hlen 255 (by omega)
  have h3 := parent_some m hlen 0 (by omega)
  have h4 := eldest_some m hlen 0 (by omega)
  have hb1 : toByte (254 + 1) = 255 := by decide
  have hb2 : toByte (254 + 2) = 0 := by decide
  rw [hp256, hb1] at h1
  rw [he, hb2] at h2
  rw [hp0] at h3
  rw [he0] at h4
  have hnone : m.prevLoop 256 255 = none := by
    apply prevLoop_none m hlen 256 (by omega) 255 (by omega)
    intro j a b
    rw [hp j a (by omega), hp256, hb1]; omega
  refine ⟨wide_wf 254, m, hc, hl, h1, h2, ?_, ?_, ?_⟩
  · intro i a b
    rw [h1, parent_some m hlen i (by omega), hp i a (by omega)]
    simp
  · simp only [Menu.previousSibling, h1, h2]
    exact hnone
  · simp only [Menu.previousSibling, h3, h4]
    rfl

/-- C12, amended: for every well-formed source of at most 255 items and every node `n` in
`[1, lastNode]`: if `eldest(parent(n)) = n` then `previousSibling(n) = n`; otherwise
`previousSibling(n)` returns the largest index `i` with `1 <= i < n` and
`parent(i) = parent(n)`, which exists.  The eldest child stored for node 0 is 1, and for
every node `p` (node 0 included) that has children, `previousSibling(eldest(p)) = eldest(p)`. -/
theorem C12_previousSibling (its : List Item) (h : WellFormed its) (hN : its.length ≤ 255) :
    ∃ m, Menu.construct (source its) = some m ∧ m.eldest 0 = some 1 ∧
      (∀ n, 1 ≤ n → n ≤ m.lastNode →
        ∃ p e, m.parent n = some p ∧ m.eldest p = some e ∧
          (e = n → m.previousSibling n = some n) ∧
          (e ≠ n → ∃ r, m.previousSibling n = some r ∧ 1 ≤ r ∧ r < n ∧
            m.parent r = m.parent n ∧ ∀ i, r < i → i < n → m.parent i ≠ m.parent n)) ∧
      (∀ p, p ≤ m.lastNode → (∃ i, 1 ≤ i ∧ i ≤ m.lastNode ∧ m.parent i = some p) →
        ∃ e, m.eldest p = some e ∧ m.previousSibling e = some e) := by
  obtain ⟨m, hc, hm, -⟩ := construct_compiled its h
  have ok := treeOK_compiled its h hN m hm
  have he0 := eldest_some m ok.len 0 (by omega)
  rw [ok.root] at he0
  refine ⟨m, hc, he0, fun n h1 h2 => ?_, fun p hp hex => ?_⟩
  · have hlt := ok.par_lt n h1 h2
    have hp := parent_some m ok.len n h2
    have he := eldest_some m ok.len (m.par n) (by omega)
    refine ⟨m.par n, m.eld (m.par n), hp, he, fun e => ?_, fun e => ?_⟩
    · simp only [Menu.previousSibling, hp, he, e, if_true]
    · obtain ⟨r, hr, a, b, c, d⟩ := previousSibling_max m ok n h1 h2 e
      refine ⟨r, hr, a, b, (parent_eq_iff m ok.len r n (by omega) h2).2 c, fun i x y e => ?_⟩
      exact d i x y ((parent_eq_iff m ok.len i n (by omega) h2).1 e)
  · obtain ⟨i, i1, i2, hi⟩ := hex
    rw [parent_some m ok.len i i2, Option.some.injEq] at hi
    obtain ⟨e1, e2, e3, -⟩ := eldest_sibling m ok i i1 i2
    rw [hi] at e1 e2 e3
    have hpe := parent_some m ok.len (m.eld p) (by omega)
    rw [e3] at hpe
    have he := eldest_some m ok.len p hp
    exact ⟨m.eld p, he, by simp only [Menu.previousSibling, hpe, he, if_true]⟩

/-- C12, witness: the scenario menu. -/
theorem C12_previousSibling_witness :
    WellFormed scenario ∧ scenario.length ≤ 255 ∧
    ∃ m, Menu.construct (source scenario) = some m ∧ m.eldest 0 = some 1 ∧
      (∀ n, 1 ≤ n → n ≤ m.lastNode →
        ∃ p e, m.parent n = some p ∧ m.eldest p = some e ∧
          (e = n → m.previousSibling n = some n) ∧
          (e ≠ n → ∃ r, m.previousSibling n = some r ∧ 1 ≤ r ∧ r < n ∧
            m.parent r = m.parent n ∧ ∀ i, r < i → i < n → m.parent i ≠ m.parent n)) ∧
      (∀ p, p ≤ m.lastNode → (∃ i, 1 ≤ i ∧ i ≤ m.lastNode ∧ m.parent i = some p) →
        ∃ e, m.eldest p = some e ∧ m.previousSibling e = some e) :=
  ⟨by decide, by decide, C12_previousSibling scenario (by decide) (by decide)⟩

/-- C13 as stated fails on the 256-item source `wide 254`: for node 256, the child of node 255,
`rank` starts its walk at the stored `eldest(255)`, which is 0; the walk goes through the
top-level nodes, whose parent is 0, and never meets node 256, so the loop of `rank(256)` does
not end, whatever the number of steps allowed. -/
theorem C13_counterexample :
    WellFormed (wide 254) ∧
      ∃ m, Menu.construct (source (wide 254)) = some m ∧ m.lastNode = 256 ∧
        m.parent 256 = some 255 ∧ m.eldest 255 = some 0 ∧
        (∀ fuel, m.rankLoop 256 fuel 0 1 = none) ∧ m.rank 256 = none := by
  obtain ⟨m, hc, hm, -⟩ := construct_compiled (wide 254) (wide_wf 254)
  obtain ⟨hlen, hl, hp, hp256, he, he0, hp0, -⟩ := wide_compiled 254 m hm
  have h1 := parent_some m hlen 256 (by omega)
  have h2 := eldest_some m hlen 255 (by omega)
  have hb1 : toByte (254 + 1) = 255 := by decide
  have hb2 : toByte (254 + 2) = 0 := by decide
  rw [hp256, hb1] at h1
  rw [he, hb2] at h2
  have hloop : ∀ fuel, m.rankLoop 256 fuel 0 1 = none := fun fuel =>
    rankLoop_other m hlen 256 fuel 0 1 (by omega) (by rw [hp0, hp256, hb1]; omega)
  refine ⟨wide_wf 254, m, hc, hl, h1, h2, hloop, ?_⟩
  simp only [Menu.rank, h1, h2]
  exact hloop _

/-- C13, amended: for every well-formed source of at most 255 items and every node `n` in
`[1, lastNode]`, `rank(n)` returns 1 plus the number of indices `i` with `1 <= i < n` and
`parent(i) = parent(n)`; it is 1 when `n` is the eldest child of its parent, and
`1 <= rank(n) <= siblingsCount(n)`. -/
theorem C13_rank (its : List Item) (h : WellFormed its) (hN : its.length ≤ 255) :
    ∃ m, Menu.construct (source its) = some m ∧
      ∀ n, 1 ≤ n → n ≤ m.lastNode →
        ∃ r s, m.rank n = some r ∧ m.siblingsCount n = some s ∧
          r = 1 + m.siblingsIn n 1 n ∧
          (∀ p, m.parent n = some p → m.eldest p = some n → r = 1) ∧ 1 ≤ r ∧ r ≤ s := by
  obtain ⟨m, hc, hm, -⟩ := construct_compiled its h
  have ok := treeOK_compiled its h hN m hm
  have tok := tableOK_compiled its h m hm
  refine ⟨m, hc, fun n h1 h2 => ?_⟩
  refine ⟨_, _, rank_spec m ok n h1 h2, siblingsCount_spec m tok n h1 h2, ?_, ?_, by omega,
    rank_le_count m n h1 h2⟩
  · rw [siblingsIn_cnt m ok.len n 1 n h2 (by omega)]
  · intro p hp he
    have hlt := ok.par_lt n h1 h2
    rw [parent_some m ok.len n h2, Option.some.injEq] at hp
    subst hp
    rw [eldest_some m ok.len (m.par n) (by omega), Option.some.injEq] at he
    rw [cnt_from_eldest m ok n h1 h2, he, Nat.sub_self]
    rfl

/-- C13, witness: the scenario menu. -/
theorem C13_rank_witness :
    WellFormed scenario ∧ scenario.length ≤ 255 ∧
    ∃ m, Menu.construct (source scenario) = some m ∧
      ∀ n, 1 ≤ n → n ≤ m.lastNode →
        ∃ r s, m.rank n = some r ∧ m.siblingsCount n = some s ∧
          r = 1 + m.siblingsIn n 1 n ∧
          (∀ p, m.parent n = some p → m.eldest p = some n → r = 1) ∧ 1 ≤ r ∧ r ≤ s :=
  ⟨by decide, by decide, C13_rank scenario (by decide) (by decide)⟩

/-- C14: for every well-formed source and every node `n` in `[1, lastNode]`,
`siblingsCount(n)` returns the number of indices `i` in `[1, lastNode]` with
`parent(i) = parent(n)`: the scan that starts at `eldest(parent(n))` counts as many nodes as a
scan that starts at 1. -/
theorem C14_siblingsCount (its : List Item) (h : WellFormed its) :
    ∃ m, Menu.construct (source its) = some m ∧
      ∀ n, 1 ≤ n → n ≤ m.lastNode →
        m.siblingsCount n = some (m.siblingsIn n 1 (m.lastNode + 1)) := by
  obtain ⟨m, hc, hm, -⟩ := construct_compiled its h
  have tok := tableOK_compiled its h m hm
  refine ⟨m, hc, fun n h1 h2 => ?_⟩
  rw [siblingsCount_spec m tok n h1 h2, siblingsIn_cnt m tok.len n 1 _ h2 (le_refl _),
    Nat.add_sub_cancel]

/-- C14, witness: the scenario menu. -/
theorem C14_siblingsCount_witness :
    WellFormed scenario ∧
    ∃ m, Menu.construct (source scenario) = some m ∧
      ∀ n, 1 ≤ n → n ≤ m.lastNode →
        m.siblingsCount n = some (m.siblingsIn n 1 (m.lastNode + 1)) :=
  ⟨by decide, C14_siblingsCount scenario (by decide)⟩

/-- C15 as stated fails on the menu `-R:000--A:101--B:102--C:103` at `n = 2`: the eldest
sibling of node 2 is node 2, `siblingsCount(parent(2)) = siblingsCount(1) = 1`, one step of
`nextSibling` from node 2 gives node 3, and `nextSibling(3) = 4`, so node 3 is not a fixed
point.  With `k = siblingsCount(n)` the statement still fails on the 256-item source
`wide 254` at `n = 256`: the stored `eldest(255)` is 0, `siblingsCount(256) = 1`, one step
from node 0 gives node 1, and `nextSibling(1) = 2`. -/
theorem C15_counterexample :
    (WellFormed brood ∧
      ∃ m, Menu.construct (source brood) = some m ∧ m.lastNode = 4 ∧
        m.parent 2 = some 1 ∧ m.eldest 1 = some 2 ∧ m.siblingsCount 1 = some 1 ∧
        m.iterNext 1 2 = some 3 ∧ m.nextSibling 3 = some 4) ∧
    (WellFormed (wide 254) ∧
      ∃ m, Menu.construct (source (wide 254)) = some m ∧ m.lastNode = 256 ∧
        m.parent 256 = some 255 ∧ m.eldest 255 = some 0 ∧ m.siblingsCount 256 = some 1 ∧
        m.iterNext 1 0 = some 1 ∧ m.nextSibling 1 = some 2) := by
  refine ⟨⟨by decide, broodMenu, brood_construct, rfl, by decide, by decide, by decide,
    by decide, by decide⟩, wide_wf 254, ?_⟩
  obtain ⟨m, hc, hm, -⟩ := construct_compiled (wide 254) (wide_wf 254)
  have tok := tableOK_compiled _ (wide_wf 254) m hm
  obtain ⟨hlen, hl, hp, hp256, he, he0, hp0, -⟩ := wide_compiled 254 m hm
  have h1 := parent_some m hlen 256 (by omega)
  have h2 := eldest_some m hlen 255 (by omega)
  have hb1 : toByte (254 + 1) = 255 := by decide
  have hb2 : toByte (254 + 2) = 0 := by decide
  rw [hb1] at hp256
  rw [hp256] at h1
  rw [he, hb2] at h2
  have hnext : ∀ j, j ≤ 254 → m.nextSibling j = some (j + 1) := by
    intro j hj
    have hpj : m.par j = 0 := by
      by_cases h0 : j = 0
      · rw [h0]; exact hp0
      · exact hp j (by omega) (by omega)
    obtain ⟨r, hr, hcase⟩ := nextSibling_spec m hlen j (by omega)
    rcases hcase with ⟨a, b, c, d⟩ | ⟨a, b⟩
    · by_cases hr1 : r = j + 1
      · rw [hr, hr1]
      · exact absurd (by rw [hp (j + 1) (by omega) (by omega), hpj]) (d (j + 1) (by omega)
          (by omega))
    · exact absurd (by rw [hp (j + 1) (by omega) (by omega), hpj]) (b (j + 1) (by omega)
        (by omega))
  have hcount : m.cnt (m.par 256) 1 m.lastNode = 1 := by
    have hs := cnt_split_at m (m.par 256) 1 (m.lastNode + 1) 256 (by omega) (by omega) rfl
    have hz1 : m.cnt (m.par 256) 1 (256 - 1) = 0 := by
      apply cnt_zero
      intro i a b
      rw [hp i a (by omega), hp256]; omega
    have hz2 : m.cnt (m.par 256) (256 + 1) (m.lastNode + 1 - (256 + 1)) = 0 := by
      rw [hl]; rfl
    rw [Nat.add_sub_cancel, hz1, hz2] at hs
    exact hs
  refine ⟨m, hc, hl, h1, h2, ?_, ?_, hnext 1 (by omega)⟩
  · rw [siblingsCount_spec m tok 256 (by omega) (by omega), hcount]
  · simp only [Menu.iterNext, hnext 0 (by omega)]

/-- C15, amended: for every well-formed source of at most 255 items and every node `n` in
`[1, lastNode]`: with `e = eldest(parent(n))` and `k = siblingsCount(n)`, applying
`nextSibling` `k` times starting from `e` yields a node `y` with `nextSibling(y) = y`; `y` is
a sibling of `n`, not before `n`. -/
theorem C15_iterate_nextSibling (its : List Item) (h : WellFormed its)
    (hN : its.length ≤ 255) :
    ∃ m, Menu.construct (source its) = some m ∧
      ∀ n, 1 ≤ n → n ≤ m.lastNode →
        ∃ p e k y, m.parent n = some p ∧ m.eldest p = some e ∧ m.siblingsCount n = some k ∧
          m.iterNext k e = some y ∧ m.nextSibling y = some y ∧
          n ≤ y ∧ y ≤ m.lastNode ∧ m.parent y = m.parent n := by
  obtain ⟨m, hc, hm, -⟩ := construct_compiled its h
  have ok := treeOK_compiled its h hN m hm
  have tok := tableOK_compiled its h m hm
  refine ⟨m, hc, fun n h1 h2 => ?_⟩
  have hlt := ok.par_lt n h1 h2
  obtain ⟨y, hy, hfix, y1, y2, y3⟩ := iterNext_last m ok n h1 h2
  exact ⟨m.par n, m.eld (m.par n), _, y, parent_some m ok.len n h2,
    eldest_some m ok.len (m.par n) (by omega), siblingsCount_spec m tok n h1 h2, hy, hfix, y1,
    y2, (parent_eq_iff m ok.len y n y2 h2).2 y3⟩

/-- C15, witness: the scenario menu. -/
theorem C15_iterate_nextSibling_witness :
    WellFormed scenario ∧ scenario.length ≤ 255 ∧
    ∃ m, Menu.construct (source scenario) = some m ∧
      ∀ n, 1 ≤ n → n ≤ m.lastNode →
        ∃ p e k y, m.parent n = some p ∧ m.eldest p = some e ∧ m.siblingsCount n = some k ∧
          m.iterNext k e = some y ∧ m.nextSibling y = some y ∧
          n ≤ y ∧ y ≤ m.lastNode ∧ m.parent y = m.parent n :=
  ⟨by decide, by decide, C15_iterate_nextSibling scenario (by decide) (by decide)⟩

/-- C16 as stated fails on the 256-item source `wide 254` with the cursor at node 256 and the
two rows the constructor sets: `rank(256)` does not terminate, so `lcdLine(0)` has no result. -/
theorem C16_counterexample :
    WellFormed (wide 254) ∧
      ∃ m, Menu.construct (source (wide 254)) = some m ∧ m.lastNode = 256 ∧ m.LCDrows = 2 ∧
        (m.withCursor 256).currentNode = 256 ∧
        (m.withCursor 256).rank 256 = none ∧ (m.withCursor 256).lcdLine 0 = none := by
  obtain ⟨m, hc, hm, -, hrows, -⟩ := construct_display (wide 254) (wide_wf 254)
  have hm' : (m.withCursor 256).compiledFrom (source (wide 254)) :=
    compiledFrom_cursor hm _ rfl rfl rfl
  obtain ⟨hlen, hl, hp, hp256, he, he0, hp0, -⟩ := wide_compiled 254 _ hm'
  have h1 := parent_some _ hlen 256 (by omega)
  have h2 := eldest_some _ hlen 255 (by omega)
  have hb1 : toByte (254 + 1) = 255 := by decide
  have hb2 : toByte (254 + 2) = 0 := by decide
  rw [hp256, hb1] at h1
  rw [he, hb2] at h2
  have hrank : (m.withCursor 256).rank 256 = none := by
    simp only [Menu.rank, h1, h2]
    exact rankLoop_other _ hlen 256 _ 0 1 (by omega) (by rw [hp0, hp256, hb1]; omega)
  have hrank' : (m.withCursor 256).rank (m.withCursor 256).currentNode = none := hrank
  refine ⟨wide_wf 254, m, hc, hl, hrows, rfl, hrank, ?_⟩
  simp only [Menu.lcdLine, hrank']

/-- C16, amended: for every tree compiled from a well-formed source of at most 255 items, every
cursor `c` in `[1, lastNode]` and every row count `R = LCDrows >= 1`: `rank(c) = r` and
`siblingsCount(c) = s` with `1 <= r <= s`, and for every row `i` in `[0, R)`: `lcdLine(i)` is
the empty string when `i + 1 > s`; otherwise, with `t = i + 1 + offset`, where `offset` is
`r - R` when `r >= R` and 0 when `r < R`, it holds `t <= s` and `lcdLine(i)` is one marker
character followed by the label of the one sibling `y` of `c` with `rank(y) = t`, the marker
being `>` when `t = r` and a blank otherwise.  A row carries `>` exactly when it is row
`min(r, R) - 1`, and that row shows the label of the cursor. -/
theorem C16_lcdLine (its : List Item) (h : WellFormed its) (hN : its.length ≤ 255)
    (m : Menu) (hm : m.compiledFrom (source its)) (h1 : 1 ≤ m.currentNode)
    (h2 : m.currentNode ≤ m.lastNode) (hR : 1 ≤ m.LCDrows) :
    ∃ r s : Nat, m.rank m.currentNode = some r ∧ m.siblingsCount m.currentNode = some s ∧
      1 ≤ r ∧ r ≤ s ∧
      (∀ i : Nat, (i : Int) < m.LCDrows →
        (s < i + 1 → m.lcdLine (i : Int) = some []) ∧
        (i + 1 ≤ s → ∃ (t y : Nat) (l : List Char),
          (t : Int) = (i : Int) + 1
            + (if (r : Int) ≥ m.LCDrows then (r : Int) - m.LCDrows else 0) ∧
          t ≤ s ∧ 1 ≤ y ∧ y ≤ m.lastNode ∧ m.parent y = m.parent m.currentNode ∧
          m.rank y = some t ∧
          (∀ z, 1 ≤ z → z ≤ m.lastNode → m.parent z = m.parent m.currentNode →
            m.rank z = some t → z = y) ∧
          m.label y = some l ∧
          m.lcdLine (i : Int) = some ((if t = r then '>' else ' ') :: l)) ∧
        ((∃ l, m.lcdLine (i : Int) = some ('>' :: l))
          ↔ (i : Int) = min (r : Int) m.LCDrows - 1)) ∧
      (∃ l, m.label m.currentNode = some l ∧
        m.lcdLine (min (r : Int) m.LCDrows - 1) = some ('>' :: l)) := by
  have ok := treeOK_compiled its h hN m hm
  have tok := tableOK_compiled its h m hm
  obtain ⟨Rn, hRn⟩ := Int.eq_ofNat_of_zero_le (by omega : 0 ≤ m.LCDrows)
  have hrs := rank_le_count m _ h1 h2
  refine ⟨_, _, rank_spec m ok _ h1 h2, siblingsCount_spec m tok _ h1 h2, by omega, hrs, ?_, ?_⟩
  · intro i hi
    obtain ⟨rowA, rowB⟩ := lcdLine_row m ok tok h1 h2 Rn hRn i (by omega) _ _ rfl rfl
    refine ⟨rowA, fun hle => ?_, ?_⟩
    · obtain ⟨y, l, y1, y2, y3, y4, hl, hline⟩ := rowB hle
      refine ⟨_, y, l, ?_, ?_, y1, y2, (parent_eq_iff m ok.len y _ y2 h2).2 y3, ?_, ?_, hl,
        hline⟩
      · rw [hRn]; split_ifs <;> omega
      · split_ifs <;> omega
      · rw [rank_spec m ok y y1 y2, y4]
      · intro z z1 z2 hz hrz
        have hpz := (parent_eq_iff m ok.len z _ z2 h2).1 hz
        rw [rank_spec m ok z z1 z2, Option.some.injEq, ← y4] at hrz
        exact rank_eq_unique m ok y z y1 y2 z1 z2 (by rw [hpz, y3]) (by omega)
    · constructor
      · rintro ⟨l', hl'⟩
        by_cases hle : i + 1 ≤ m.cnt (m.par m.currentNode) 1 m.lastNode
        · obtain ⟨y, l, -, -, -, -, -, hline⟩ := rowB hle
          rw [hline, Option.some.injEq] at hl'
          have hmark := (List.cons.inj hl').1
          rw [hRn]
          split_ifs at hmark with hc1 hc2 hc3
          · omega
          · exact absurd hmark (by decide)
          · omega
          · exact absurd hmark (by decide)
        · rw [rowA (by omega)] at hl'
          exact absurd hl' (by simp)
      · intro hi0
        rw [hRn] at hi0
        obtain ⟨y, l, -, -, -, -, -, hline⟩ := rowB (by omega)
        refine ⟨l, ?_⟩
        rw [hline, if_pos (by split_ifs <;> omega)]
  · obtain ⟨l, hl⟩ := label_some m ok.len _ h2
    refine ⟨l, hl, ?_⟩
    have hrow := cursor_row (1 + m.cnt (m.par m.currentNode) 1 (m.currentNode - 1)) Rn
      (by omega) (by omega)
    rw [hRn, hrow.1]
    obtain ⟨-, rowB⟩ := lcdLine_row m ok tok h1 h2 Rn hRn _ hrow.2.1 _ _ rfl rfl
    obtain ⟨y, l', y1, y2, y3, y4, hl', hline⟩ := rowB (by omega)
    have hcnt : m.cnt (m.par y) 1 (y - 1)
        = m.cnt (m.par m.currentNode) 1 (m.currentNode - 1) := by
      rw [hrow.2.2] at y4; omega
    have hyc : y = m.currentNode := rank_eq_unique m ok _ y h1 h2 y1 y2 y3 hcnt
    rw [hyc, hl, Option.some.injEq] at hl'
    rw [hline, if_pos hrow.2.2, hl']

/-- C16, witness: the scenario menu with the cursor at node 3 (`B`, the second child of
`READ`) and two rows. -/
theorem C16_lcdLine_witness :
    WellFormed scenario ∧ scenario.length ≤ 255 ∧
    (scenarioMenu 3).compiledFrom (source scenario) ∧ 1 ≤ (scenarioMenu 3).currentNode ∧
    (scenarioMenu 3).currentNode ≤ (scenarioMenu 3).lastNode ∧ 1 ≤ (scenarioMenu 3).LCDrows ∧
    ∃ r s : Nat, (scenarioMenu 3).rank (scenarioMenu 3).currentNode = some r ∧
      (scenarioMenu 3).siblingsCount (scenarioMenu 3).currentNode = some s ∧
      1 ≤ r ∧ r ≤ s ∧
      (∀ i : Nat, (i : Int) < (scenarioMenu 3).LCDrows →
        (s < i + 1 → (scenarioMenu 3).lcdLine (i : Int) = some []) ∧
        (i + 1 ≤ s → ∃ (t y : Nat) (l : List Char),
          (t : Int) = (i : Int) + 1
            + (if (r : Int) ≥ (scenarioMenu 3).LCDrows then (r : Int)
                - (scenarioMenu 3).LCDrows else 0) ∧
          t ≤ s ∧ 1 ≤ y ∧ y ≤ (scenarioMenu 3).lastNode ∧
          (scenarioMenu 3).parent y = (scenarioMenu 3).parent (scenarioMenu 3).currentNode ∧
          (scenarioMenu 3).rank y = some t ∧
          (∀ z, 1 ≤ z → z ≤ (scenarioMenu 3).lastNode →
            (scenarioMenu 3).parent z = (scenarioMenu 3).parent (scenarioMenu 3).currentNode →
            (scenarioMenu 3).rank z = some t → z = y) ∧
          (scenarioMenu 3).label y = some l ∧
          (scenarioMenu 3).lcdLine (i : Int) = some ((if t = r then '>' else ' ') :: l)) ∧
        ((∃ l, (scenarioMenu 3).lcdLine (i : Int) = some ('>' :: l))
          ↔ (i : Int) = min (r : Int) (scenarioMenu 3).LCDrows - 1)) ∧
      (∃ l, (scenarioMenu 3).label (scenarioMenu 3).currentNode = some l ∧
        (scenarioMenu 3).lcdLine (min (r : Int) (scenarioMenu 3).LCDrows - 1)
          = some ('>' :: l)) :=
  ⟨by decide, by decide, scenario_compiled 3, by decide, by decide, by decide,
    C16_lcdLine scenario (by decide) (by decide) (scenarioMenu 3) (scenario_compiled 3)
      (by decide) (by decide) (by decide)⟩

/-- C17 as stated fails on the 256-item source `wide 254` with the cursor at node 256:
`update(UP)` has no result (the backward scan of `previousSibling(256)` ends without a
`return`), whether the application or the library owns the display, so there is no state
after the call in which the flag could be read. -/
theorem C17_counterexample :
    WellFormed (wide 254) ∧
      ∃ m, Menu.construct (source (wide 254)) = some m ∧ m.lastNode = 256 ∧
        (m.withCursor 256).handelingLcd = false ∧ (m.withCursor 256).update UP = none ∧
        (m.withCursor 256).ownDisplay.handelingLcd = true ∧
        (m.withCursor 256).ownDisplay.update UP = none := by
  obtain ⟨m, hc, hm, -, -, hh, -⟩ := construct_display (wide 254) (wide_wf 254)
  obtain ⟨-, hl, -⟩ := wide_compiled 254 m hm
  exact ⟨wide_wf 254, m, hc, hl, hh,
    wide_up_none _ (compiledFrom_cursor hm _ rfl rfl rfl) rfl, rfl,
    wide_up_none _ (compiledFrom_cursor hm _ rfl rfl rfl) rfl⟩

/-- C17, amended: for every tree compiled from a well-formed source of at most 255 items, every
cursor `c` in `[1, lastNode]` and every key, `update(key)` returns, and a call that leaves the
cursor unchanged leaves the whole state unchanged.  When the application owns the display
(`handelingLcd = false`), `needsUpdate()` is true after a call that changed the cursor and has
its previous value after a call that did not, and nothing is sent to the display.  When the
library owns the display (`handelingLcd = true`, with `LcdId` 1 or 2 as `handleLcd` sets it),
a call that changed the cursor clears the display, prints `lcdLine(i)` of the new state on
row `i` for every `i` in `[0, LCDrows)`, in this order, and leaves the flag false. -/
theorem C17_refresh_flag (its : List Item) (h : WellFormed its) (hN : its.length ≤ 255)
    (m : Menu) (hm : m.compiledFrom (source its)) (h1 : 1 ≤ m.currentNode)
    (h2 : m.currentNode ≤ m.lastNode) (key : Int) :
    ∃ m' a, m.update key = some (m', a) ∧
      (m'.currentNode = m.currentNode → m' = m) ∧
      (m.handelingLcd = false →
        (m'.currentNode ≠ m.currentNode → m'.needsUpdate = true) ∧
        (m'.currentNode = m.currentNode → m'.needsUpdate = m.needsUpdate) ∧
        m'.lcd = m.lcd) ∧
      (m.handelingLcd = true → (m.LcdId = 1 ∨ m.LcdId = 2) →
        m'.currentNode ≠ m.currentNode →
        m'.needsUpdate = false ∧
        ∃ line : Nat → List Char, (∀ i : Nat, m'.lcdLine (i : Int) = some (line i)) ∧
          m'.lcd = m.lcd ++ LcdOp.clear m.LcdId :: (List.range m.LCDrows.toNat).map
            fun i : Nat => LcdOp.print m.LcdId 0 (i : Int) (line i)) := by
  have ok := treeOK_compiled its h hN m hm
  rcases update_shape m ok h1 h2 key with ⟨c, c1, c2, hu⟩ | ⟨a, -, hu⟩
  · have ok3 : TreeOK { m with currentNode := c } := treeOK_congr ok rfl rfl
    obtain ⟨m', hm', g1, g2, g3, g4, g5⟩ := refresh_trace { m with currentNode := c } ok3 c1 c2
      m.currentNode
    have hsame : c = m.currentNode → m' = m := by
      intro e
      rw [g3 e]
      subst e
      rfl
    have g2' : m'.currentNode = c := g2
    refine ⟨m', 0, by rw [hu]; exact hm', fun e => hsame (by rw [← g2', e]), fun hh => ?_,
      fun hh hid hne => ?_⟩
    · refine ⟨fun hne => ?_, fun e => by rw [hsame (by rw [← g2', e])], ?_⟩
      · rw [g4 (by rw [← g2']; exact hne) hh]; rfl
      · by_cases e : c = m.currentNode
        · rw [hsame e]
        · rw [g4 e hh]
    · obtain ⟨a, b⟩ := g5 (by rw [← g2']; exact hne) hh hid
      refine ⟨a, fun i => ((Menu.lcdLine { m with currentNode := c }) (i : Int)).getD [],
        fun i => ?_, b⟩
      obtain ⟨l, hl⟩ := lcdLine_total { m with currentNode := c } ok3 c1 c2 (i : Int)
      simp only [lcdLine_congr g1 g2, hl, Option.getD_some]
  · exact ⟨m, a, hu, fun _ => rfl, fun _ => ⟨fun hne => absurd rfl hne, fun _ => rfl, rfl⟩,
      fun _ _ hne => absurd rfl hne⟩

/-- C17, witness: the scenario menu with the cursor at node 1, the display owned by the
library, and the key `DOWN`. -/
theorem C17_refresh_flag_witness :
    WellFormed scenario ∧ scenario.length ≤ 255 ∧
    (scenarioMenu 1).ownDisplay.compiledFrom (source scenario) ∧
    1 ≤ (scenarioMenu 1).ownDisplay.currentNode ∧
    (scenarioMenu 1).ownDisplay.currentNode ≤ (scenarioMenu 1).ownDisplay.lastNode ∧
    ∃ m' a, (scenarioMenu 1).ownDisplay.update DOWN = some (m', a) ∧
      (m'.currentNode = (scenarioMenu 1).ownDisplay.currentNode →
        m' = (scenarioMenu 1).ownDisplay) ∧
      ((scenarioMenu 1).ownDisplay.handelingLcd = false →
        (m'.currentNode ≠ (scenarioMenu 1).ownDisplay.currentNode → m'.needsUpdate = true) ∧
        (m'.currentNode = (scenarioMenu 1).ownDisplay.currentNode →
          m'.needsUpdate = (scenarioMenu 1).ownDisplay.needsUpdate) ∧
        m'.lcd = (scenarioMenu 1).ownDisplay.lcd) ∧
      ((scenarioMenu 1).ownDisplay.handelingLcd = true →
        ((scenarioMenu 1).ownDisplay.LcdId = 1 ∨ (scenarioMenu 1).ownDisplay.LcdId = 2) →
        m'.currentNode ≠ (scenarioMenu 1).ownDisplay.currentNode →
        m'.needsUpdate = false ∧
        ∃ line : Nat → List Char, (∀ i : Nat, m'.lcdLine (i : Int) = some (line i)) ∧
          m'.lcd = (scenarioMenu 1).ownDisplay.lcd
            ++ LcdOp.clear (scenarioMenu 1).ownDisplay.LcdId
              :: (List.range (scenarioMenu 1).ownDisplay.LCDrows.toNat).map
                fun i : Nat => LcdOp.print (scenarioMenu 1).ownDisplay.LcdId 0 (i : Int)
                  (line i)) :=
  ⟨by decide, by decide, compiledFrom_cursor (scenario_compiled 1) _ rfl rfl rfl, by decide,
    by decide,
    C17_refresh_flag scenario (by decide) (by decide) (scenarioMenu 1).ownDisplay
      (compiledFrom_cursor (scenario_compiled 1) _ rfl rfl rfl) (by decide) (by decide) DOWN⟩

/-- C18: the mapping of the averaged reading `a` in `readAnalogKey`, for `0 <= a <= 1023`: the
result is 0 when `a > 1000` and `floor(a / 256) + 1` otherwise, which is one of 1, 2, 3, 4;
134 maps to key 1 and 1010 to no key.  `readAnalogKey` applies this mapping to the average of
301 readings, which lies in `[0, 1023]` when the readings do and is `a` when every reading
is `a`. -/
theorem C18_analog_mapping (a : Int) (h0 : 0 ≤ a) (h1 : a ≤ 1023) :
    (a > 1000 → analogKey a = 0) ∧
    (a ≤ 1000 → analogKey a = a / 256 + 1 ∧
      (analogKey a = 1 ∨ analogKey a = 2 ∨ analogKey a = 3 ∨ analogKey a = 4)) ∧
    analogKey 134 = 1 ∧ analogKey 1010 = 0 ∧
    readAnalogKey (fun _ => a) = analogKey a ∧
    ∀ analogRead : Nat → Int, (∀ n, 0 ≤ analogRead n ∧ analogRead n ≤ 1023) →
      ∃ average, 0 ≤ average ∧ average ≤ 1023 ∧ readAnalogKey analogRead = analogKey average := by
  have he := analogKey_eq a h0
  refine ⟨fun h => by rw [he, if_pos h], fun h => ?_, by decide, by decide,
    readAnalogKey_const a h0, fun analogRead hr => ?_⟩
  · have hn : ¬ a > 1000 := by omega
    rw [he, if_neg hn]
    refine ⟨rfl, ?_⟩
    omega
  · obtain ⟨r0, r1⟩ := hr 0
    obtain ⟨a0, a1⟩ := averageLoop_range analogRead hr 300 1 (analogRead 0) r0 r1
    exact ⟨_, a0, a1, rfl⟩

/-- C18, witness: the reading 134. -/
theorem C18_analog_mapping_witness :
    (0 : Int) ≤ 134 ∧ (134 : Int) ≤ 1023 ∧
    (((134 : Int) > 1000 → analogKey 134 = 0) ∧
    ((134 : Int) ≤ 1000 → analogKey 134 = 134 / 256 + 1 ∧
      (analogKey 134 = 1 ∨ analogKey 134 = 2 ∨ analogKey 134 = 3 ∨ analogKey 134 = 4)) ∧
    analogKey 134 = 1 ∧ analogKey 1010 = 0 ∧
    readAnalogKey (fun _ => 134) = analogKey 134 ∧
    ∀ analogRead : Nat → Int, (∀ n, 0 ≤ analogRead n ∧ analogRead n ≤ 1023) →
      ∃ average, 0 ≤ average ∧ average ≤ 1023 ∧
        readAnalogKey analogRead = analogKey average) :=
  ⟨by decide, by decide, C18_analog_mapping 134 (by decide) (by decide)⟩

/-- C19 as stated fails at the averaged reading 1010: it lies inside the fourth bin
`[768, 1023]` and does not exceed 1023, the top of the highest bin, yet the mapping returns 0
(no key) and not the key of the bin, `floor(1010 / 256) + 1 = 4`; so does `readAnalogKey` when
every reading is 1010. -/
theorem C19_counterexample :
    (768 : Int) ≤ 1010 ∧ (1010 : Int) ≤ 1023 ∧ (1010 : Int) / 256 + 1 = 4 ∧
      analogKey 1010 = 0 ∧ readAnalogKey (fun _ => 1010) = 0 :=
  ⟨by decide, by decide, by decide, by decide, by rw [readAnalogKey_const 1010 (by decide)]; decide⟩

/-- C19, amended: for every averaged reading `a` with `0 <= a <= 1023`, the mapping of
`readAnalogKey` returns key 1 on `[0, 255]`, key 2 on `[256, 511]`, key 3 on `[512, 767]`,
key 4 on `[768, 1000]` and 0 (no key) on `[1001, 1023]`: it returns `floor(a / 256) + 1` when
`a <= 1000`, and it returns 0 exactly when `a > 1000`. -/
theorem C19_analog_bins (a : Int) (h0 : 0 ≤ a) (h1 : a ≤ 1023) :
    (a ≤ 255 → analogKey a = 1) ∧ (256 ≤ a → a ≤ 511 → analogKey a = 2) ∧
    (512 ≤ a → a ≤ 767 → analogKey a = 3) ∧ (768 ≤ a → a ≤ 1000 → analogKey a = 4) ∧
    (1000 < a → analogKey a = 0) ∧ (a ≤ 1000 → analogKey a = a / 256 + 1) ∧
    (analogKey a = 0 ↔ 1000 < a) := by
  have he := analogKey_eq a h0
  refine ⟨fun h => ?_, fun h h' => ?_, fun h h' => ?_, fun h h' => ?_, fun h => ?_, fun h => ?_,
    ⟨fun h => ?_, fun h => ?_⟩⟩
  · rw [he, if_neg (by omega)]; omega
  · rw [he, if_neg (by omega)]; omega
  · rw [he, if_neg (by omega)]; omega
  · rw [he, if_neg (by omega)]; omega
  · rw [he, if_pos (by omega)]
  · rw [he, if_neg (by omega)]
  · by_contra hc
    rw [he, if_neg (by omega)] at h
    omega
  · rw [he, if_pos (by omega)]

/-- C19, witness: the reading 900. -/
theorem C19_analog_bins_witness :
    (0 : Int) ≤ 900 ∧ (900 : Int) ≤ 1023 ∧
    (((900 : Int) ≤ 255 → analogKey 900 = 1) ∧
    ((256 : Int) ≤ 900 → (900 : Int) ≤ 511 → analogKey 900 = 2) ∧
    ((512 : Int) ≤ 900 → (900 : Int) ≤ 767 → analogKey 900 = 3) ∧
    ((768 : Int) ≤ 900 → (900 : Int) ≤ 1000 → analogKey 900 = 4) ∧
    ((1000 : Int) < 900 → analogKey 900 = 0) ∧
    ((900 : Int) ≤ 1000 → analogKey 900 = 900 / 256 + 1) ∧
    (analogKey 900 = 0 ↔ (1000 : Int) < 900)) :=
  ⟨by decide, by decide, C19_analog_bins 900 (by decide) (by decide)⟩

/-- C20, counterexample: the channel reads `LOW` when the key is found down and in the initial
state sample, then `HIGH` for 32769 samples and `LOW` from then on.  The net counter of the
claim first reaches 500 at sample 66038, but the counter of the code is at `INT_MIN` when the
differing sample 32768 is read, so `count--` overflows: the loop is left after no number of
samples, whatever the number of steps, and `readDigitalKey` does not return the key. -/
theorem C20_counterexample :
    net 0 released 66038 = 500 ∧
    (∀ j, j < 66038 → net 0 released j < 500) ∧
    net 0 released 32768 = INT_MIN ∧ released 32768 ≠ 0 ∧
    (∀ fuel, debounceLoop 0 released fuel 0 0 = none) ∧
    (¬ ∃ fuel, debounceLoop 0 released fuel 0 0 = some 66038) ∧
    selectKey 2 3 4 5 (bounce 2 0) (bounce 3 1) (bounce 4 2) (bounce 5 3) = (5, RIGHT) ∧
    bounce 5 4 = 0 ∧ (∀ k, bounce 5 (5 + k) = released k) ∧
    ∀ fuel, readDigitalKey 2 3 4 5 bounce fuel = none := by
  have hnone : ∀ fuel, debounceLoop 0 released fuel 0 0 = none := by
    intro fuel
    refine debounceLoop_overflow 0 released 32768 (fun j hj => ?_) (by decide) ?_ fuel 0
      (by omega)
    · rw [net_released]; split_ifs <;> omega
    · rw [net_released]; decide
  have hb : ∀ k, bounce 5 (5 + k) = released k := by
    intro k
    have h : ¬ 5 + k < 5 := by omega
    simp only [bounce, h, if_false, Nat.add_sub_cancel_left]
  have hf : (fun k => bounce 5 (5 + k)) = released := funext hb
  refine ⟨by rw [net_released]; decide, fun j hj => ?_, by rw [net_released]; decide,
    by decide, hnone, ?_, by decide, by decide, hb, fun fuel => ?_⟩
  · rw [net_released]; split_ifs <;> omega
  · rintro ⟨fuel, h⟩
    rw [hnone fuel] at h
    exact Option.noConfusion h
  · have hsel : selectKey 2 3 4 5 (bounce 2 0) (bounce 3 1) (bounce 4 2) (bounce 5 3)
        = (5, RIGHT) := by decide
    have h4 : bounce 5 4 = 0 := by decide
    have hpos : RIGHT > 0 := by decide
    simp only [readDigitalKey, hsel, hpos, if_true, h4, hf, hnone fuel]

/-- C20: the debounce loop of `readDigitalKey`, over the initial state `stateOld` of the
pressed channel and the samples read after it.  The net counter starts at 0 and moves by +1
on a sample equal to `stateOld` and by -1 on a differing one.  For a number `k` of samples up
to which the counter has not been below `INT_MIN`, the least value of the `int` that holds it,
the loop is left after `k` samples exactly when `k` is the first index at which the counter is
500; a loop that is left after `k` samples is left after `k` samples however many steps are
allowed.  A sequence whose counter reaches 500 before it reaches -500 is accepted, the counter
staying in `(-500, 500]` until then.  For a sequence in which every sample differs from the
next in being equal to `stateOld`, the counter stays below 500 and the loop does not end,
whatever the number of steps.  `readDigitalKey` returns the key found by the four pin tests,
after this loop on the pin of that key when a key is down and at once when none is; a steady
channel is accepted after 500 samples. -/
theorem C20_debounce (stateOld : Int) (samples : Nat → Int) :
    net stateOld samples 0 = 0 ∧
    (∀ k, net stateOld samples (k + 1)
      = net stateOld samples k + (if samples k = stateOld then 1 else -1)) ∧
    (∀ k, (∀ j, j ≤ k → INT_MIN ≤ net stateOld samples j) →
      ((∃ fuel, debounceLoop stateOld samples fuel 0 0 = some k) ↔
        (net stateOld samples k = 500 ∧ ∀ j, j < k → net stateOld samples j < 500))) ∧
    (∀ k fuel, debounceLoop stateOld samples fuel 0 0 = some k →
      ∀ fuel', k < fuel' → debounceLoop stateOld samples fuel' 0 0 = some k) ∧
    ((∃ k, net stateOld samples k = 500 ∧ ∀ j, j < k → -500 < net stateOld samples j) →
      ∃ k, (∀ fuel, k < fuel → debounceLoop stateOld samples fuel 0 0 = some k) ∧
        ∀ j, j ≤ k → -500 < net stateOld samples j ∧ net stateOld samples j ≤ 500) ∧
    ((∀ k, samples k = stateOld ↔ samples (k + 1) ≠ stateOld) →
      (∀ k, net stateOld samples k < 500) ∧
      ∀ fuel, debounceLoop stateOld samples fuel 0 0 = none) ∧
    (∀ (MYUP MYDOWN MYLEFT MYRIGHT : Int) (digitalRead : Int → Nat → Int) (sel : Int × Int),
      sel = selectKey MYUP MYDOWN MYLEFT MYRIGHT (digitalRead MYUP 0) (digitalRead MYDOWN 1)
        (digitalRead MYLEFT 2) (digitalRead MYRIGHT 3) →
      (sel.2 = 0 ∨ sel.2 = UP ∨ sel.2 = DOWN ∨ sel.2 = LEFT ∨ sel.2 = RIGHT) ∧
      (sel.2 = 0 → ∀ fuel,
        readDigitalKey MYUP MYDOWN MYLEFT MYRIGHT digitalRead fuel = some (0, 4)) ∧
      (sel.2 > 0 → stateOld = digitalRead sel.1 4 →
        (∀ k, samples k = digitalRead sel.1 (5 + k)) → ∀ fuel,
        readDigitalKey MYUP MYDOWN MYLEFT MYRIGHT digitalRead fuel
          = (debounceLoop stateOld samples fuel 0 0).map fun k => (sel.2, 5 + k))) ∧
    debounceLoop stateOld (fun _ => stateOld) 501 0 0 = some 500 := by
  have hreach : ∀ k, net stateOld samples k = 500 →
      (∀ j, j < k → net stateOld samples j < 500) →
      (∀ j, j ≤ k → INT_MIN ≤ net stateOld samples j) →
      ∀ fuel, k < fuel → debounceLoop stateOld samples fuel 0 0 = some k := by
    intro k hk hlt hlow fuel hf
    have := debounceLoop_reach stateOld samples k 0
      (fun j _ b => hlt j (by omega)) (fun j _ b => hlow (j + 1) (by omega))
      (by rw [Nat.zero_add, hk]) fuel hf
    rw [Nat.zero_add] at this
    exact this
  have hsome : ∀ k fuel, debounceLoop stateOld samples fuel 0 0 = some k →
      net stateOld samples k = 500 ∧ (∀ j, j < k → net stateOld samples j < 500) ∧
        ∀ j, j ≤ k → INT_MIN ≤ net stateOld samples j := by
    intro k fuel h
    have h0 : INT_MIN ≤ net stateOld samples 0 := by
      show (-32768 : Int) ≤ 0
      omega
    obtain ⟨-, -, c, d, e⟩ := debounceLoop_some stateOld samples fuel 0 k h0 h
    have hlt : ∀ j, j < k → net stateOld samples j < 500 := fun j hj => d j (by omega) hj
    refine ⟨net_first stateOld samples k c hlt, hlt, fun j hj => ?_⟩
    cases j with
    | zero => exact h0
    | succ i => exact e i (by omega) (by omega)
  refine ⟨rfl, fun k => rfl, fun k hlow => ⟨?_, ?_⟩, ?_, ?_, ?_, ?_, ?_⟩
  · rintro ⟨fuel, h⟩
    exact ⟨(hsome k fuel h).1, (hsome k fuel h).2.1⟩
  · rintro ⟨hk, hlt⟩
    exact ⟨k + 1, hreach k hk hlt hlow (k + 1) (by omega)⟩
  · intro k fuel h fuel' hf
    obtain ⟨hk, hlt, hlow⟩ := hsome k fuel h
    exact hreach k hk hlt hlow fuel' hf
  · rintro ⟨k, hk, hlow⟩
    obtain ⟨k0, hle, h500, hlt⟩ := net_first_index stateOld samples k hk
    have hin : ∀ j, j ≤ k0 → -500 < net stateOld samples j ∧ net stateOld samples j ≤ 500 := by
      intro j hj
      by_cases e : j = k0
      · rw [e, h500]; omega
      · have := hlt j (by omega)
        have := hlow j (by omega)
        omega
    refine ⟨k0, hreach k0 h500 hlt fun j hj => ?_, hin⟩
    have := (hin j hj).1
    show (-32768 : Int) ≤ _
    omega
  · intro halt
    have hb : ∀ k, net stateOld samples k < 500 := by
      intro k
      have := (net_alternating stateOld samples halt k).1
      omega
    exact ⟨hb, fun fuel => debounceLoop_none stateOld samples fuel 0 fun j _ _ => hb j⟩
  · intro MYUP MYDOWN MYLEFT MYRIGHT digitalRead sel hsel
    refine ⟨?_, ?_, ?_⟩
    · rw [hsel]; simp only [selectKey]
      split_ifs <;> simp
    · intro h0 fuel
      simp only [readDigitalKey, ← hsel, h0]
      rfl
    · intro hpos hold hs fuel
      have hfun : samples = fun k => digitalRead sel.1 (5 + k) := funext hs
      simp only [readDigitalKey, ← hsel, hpos, if_true, ← hold, ← hfun]
      cases debounceLoop stateOld samples fuel 0 0 <;> rfl
  · have hn := net_const stateOld
    have := debounceLoop_reach stateOld (fun _ => stateOld) 500 0
      (fun j _ b => by rw [hn j]; omega)
      (fun j _ b => by rw [hn (j + 1)]; show (-32768 : Int) ≤ _; omega)
      (by rw [hn]; decide) 501 (by omega)
    exact this

/-- C21: `wasPressed(key)` over the stream of `readKey` results, called when `n` samples have
been read.  When sample `n` is not `key` it returns false having read that one sample.  When
sample `n` is `key` and `j` is the first later sample different from `key`, it returns true
having read the samples up to and including `j`; when every later sample is `key` it does not
return, whatever the number of steps.  On a stream that is a run of `len >= 1` samples of a
key other than 0 followed only by the sample 0, the first of any number of successive calls
returns true and every later one returns false. -/
theorem C21_wasPressed (readKey : Nat → Int) (key : Int) (n : Nat) :
    (readKey n ≠ key → ∀ fuel, wasPressed readKey key fuel n = some (false, n + 1)) ∧
    (readKey n = key → ∀ j, n < j → (∀ i, n ≤ i → i < j → readKey i = key) →
      readKey j ≠ key →
      ∀ fuel, j - n ≤ fuel → wasPressed readKey key fuel n = some (true, j + 1)) ∧
    (readKey n = key → (∀ i, n ≤ i → readKey i = key) →
      ∀ fuel, wasPressed readKey key fuel n = none) ∧
    (∀ len, 1 ≤ len → key ≠ 0 → (∀ i, i < len → readKey i = key) →
      (∀ i, len ≤ i → readKey i = 0) →
      ∀ c fuel, len ≤ fuel →
        wasPressedCalls readKey key fuel (c + 1) 0 = some (true :: List.replicate c false)) := by
  have hpress : readKey n = key → ∀ j, n < j → (∀ i, n ≤ i → i < j → readKey i = key) →
      readKey j ≠ key →
      ∀ fuel, j - n ≤ fuel → wasPressed readKey key fuel n = some (true, j + 1) := by
    intro h0 j hj hall hne fuel hf
    have := releaseLoop_found readKey key (j - (n + 1)) (n + 1) j (by omega)
      (fun i a b => hall i (by omega) b) hne fuel (by omega)
    simp only [wasPressed, h0, if_true, this]
  refine ⟨fun h0 fuel => by simp only [wasPressed, h0, if_false], hpress, ?_, ?_⟩
  · intro h0 hall fuel
    have := releaseLoop_none readKey key fuel (n + 1) fun i a _ => hall i (by omega)
    simp only [wasPressed, h0, if_true, this]
  · intro len hlen hk hrun hrest c fuel hf
    have hne : ∀ i, len ≤ i → readKey i ≠ key := fun i hi => by rw [hrest i hi]; exact Ne.symm hk
    have hfirst : wasPressed readKey key fuel 0 = some (true, len + 1) := by
      have h0 : readKey 0 = key := hrun 0 (by omega)
      have := releaseLoop_found readKey key (len - 1) 1 len (by omega)
        (fun i _ b => hrun i b) (hne len (le_refl _)) fuel (by omega)
      simp only [wasPressed, h0, if_true, this]
    simp only [wasPressedCalls, hfirst,
      wasPressedCalls_false readKey key fuel c (len + 1) fun i hi => hne i (by omega)]

/-- C22: after `mapKeys(u, d, l, r)` with four pairwise distinct codes, integers or characters,
and for every menu state: `updateWith(code)` has the result of `update(UP)`, `update(DOWN)`,
`update(LEFT)`, `update(RIGHT)` (the state after the call and the value returned) when `code`
is `u`, `d`, `l`, `r`, and for a code that is none of the four it returns 0 and leaves the
state as it was. -/
theorem C22_updateWith (m : Menu) (km : KeyMap) :
    (∀ u d l r : Int, u ≠ d → u ≠ l → u ≠ r → d ≠ l → d ≠ r → l ≠ r →
      m.updateWith (km.mapKeys u d l r) u = m.update UP ∧
      m.updateWith (km.mapKeys u d l r) d = m.update DOWN ∧
      m.updateWith (km.mapKeys u d l r) l = m.update LEFT ∧
      m.updateWith (km.mapKeys u d l r) r = m.update RIGHT ∧
      ∀ code, code ≠ u → code ≠ d → code ≠ l → code ≠ r →
        m.updateWith (km.mapKeys u d l r) code = some (m, 0)) ∧
    (∀ u d l r : Char, u ≠ d → u ≠ l → u ≠ r → d ≠ l → d ≠ r → l ≠ r →
      m.updateWithChar (km.mapKeysChar u d l r) u = m.update UP ∧
      m.updateWithChar (km.mapKeysChar u d l r) d = m.update DOWN ∧
      m.updateWithChar (km.mapKeysChar u d l r) l = m.update LEFT ∧
      m.updateWithChar (km.mapKeysChar u d l r) r = m.update RIGHT ∧
      ∀ code, code ≠ u → code ≠ d → code ≠ l → code ≠ r →
        m.updateWithChar (km.mapKeysChar u d l r) code = some (m, 0)) := by
  constructor
  · intro u d l r h1 h2 h3 h4 h5 h6
    refine ⟨?_, ?_, ?_, ?_, fun code c1 c2 c3 c4 => ?_⟩ <;>
      simp [Menu.updateWith, KeyMap.mapKeys, Menu.onCode, h1, h2, h3, h4, h5, h6, Ne.symm h1,
        Ne.symm h2, Ne.symm h3, Ne.symm h4, Ne.symm h5, Ne.symm h6, *]
  · intro u d l r h1 h2 h3 h4 h5 h6
    refine ⟨?_, ?_, ?_, ?_, fun code c1 c2 c3 c4 => ?_⟩ <;>
      simp [Menu.updateWithChar, KeyMap.mapKeysChar, Menu.onCode, h1, h2, h3, h4, h5, h6,
        Ne.symm h1, Ne.symm h2, Ne.symm h3, Ne.symm h4, Ne.symm h5, Ne.symm h6, *]

/-- C23 fails on the code: on the scenario menu `-READ:000--A:101--B:102-SET:000` with the
cursor at node 1, `setCurrentItem("A")` leaves the cursor at node 4, whose label is `SET`,
although node 2 has the label `A`; and `setCurrentItem("X")`, a label that no node has, moves
the cursor to node 4 as well. -/
theorem C23_setCurrentItem_evaluated :
    Menu.construct (source scenario) = some (scenarioMenu 1) ∧
    (scenarioMenu 1).label 2 = some "A".toList ∧ (scenarioMenu 1).label 4 = some "SET".toList ∧
    (scenarioMenu 1).setCurrentItem "A".toList = some (scenarioMenu 4) ∧
    (∀ i, 1 ≤ i → i ≤ (scenarioMenu 1).lastNode → (scenarioMenu 1).label i ≠ some "X".toList) ∧
    (scenarioMenu 1).setCurrentItem "X".toList = some (scenarioMenu 4) ∧
    (scenarioMenu 4).currentNode ≠ (scenarioMenu 1).currentNode := by
  refine ⟨scenario_construct, by decide, by decide, by decide, ?_, by decide, by decide⟩
  intro i h1 h2
  have h4 : i ≤ 4 := h2
  interval_cases i <;> decide

/-- C24 as stated fails: the constructor does not fail on the empty string, and the tree it
yields does not have `lastNode = 1` with the cursor inside `[1, lastNode]`. -/
theorem C24_counterexample :
    ¬ (Menu.construct [] = none ∨
      ∃ m, Menu.construct [] = some m ∧ m.lastNode = 1 ∧ 1 ≤ m.currentNode ∧
        m.currentNode ≤ m.lastNode) := by
  have hc : Menu.construct [] = some emptyMenu := by decide
  rintro (h | ⟨m, hm, hl, -, -⟩)
  · rw [hc] at h; exact absurd h (by simp)
  · rw [hc, Option.some.injEq] at hm
    subst hm
    exact absurd hl (by decide)

/-- C24, amended: constructing a menu from the empty string does not fail; the table holds the
sentinel node 0 alone, `lastNode` is 0, and the cursor, initialised to 1, is outside
`[1, lastNode]`: no node of the table is at the cursor, so that `getAction()` and the label of
the current item read outside the table. -/
theorem C24_empty_source :
    ∃ m, Menu.construct [] = some m ∧ m.nodes = [⟨0, 0, 0, 1, 0⟩] ∧ m.lastNode = 0 ∧
      m.currentNode = 1 ∧ ¬ m.currentNode ≤ m.lastNode ∧ m.getAction = none ∧
      m.label m.currentNode = none :=
  ⟨emptyMenu, by decide, rfl, rfl, rfl, by decide, by decide, by decide⟩

/-- C25: for every well-formed source (levels 1 to 8), `menuParse` runs the body of its loop
once per item, and in the iteration of item `i`, at level `L`: the table has one entry more
than the source has colons and the body writes `nodes[i]` with `1 <= i <= number of colons`;
`stack[]` has 8 slots and the parent is read from slot `stackPtr = 8 - L`, which is at most 7;
when the next item is deeper the slot written is `stackPtr - 1` with `stackPtr >= 1`; when
the next level `L2` is lower the slots written are `stackPtr, ..., stackPtr + (L - L2) - 1`,
at most 7.  The body, which has no result when an access is out of range, has one. -/
theorem C25_stack_bounds (its : List Item) (h : WellFormed its) :
    (source its).count ':' = its.length ∧
    menuParse (source its) (parseStart (source its)).nodes
      = (parseSteps (source its) its.length (parseStart (source its))).map
          (fun st => (st.nodes, st.item - 1)) ∧
    (∃ st, parseSteps (source its) its.length (parseStart (source its)) = some st ∧
      ¬ st.pos < (source its).length) ∧
    ∀ i, 1 ≤ i → i ≤ its.length →
      ∃ st st', parseSteps (source its) (i - 1) (parseStart (source its)) = some st ∧
        st.pos < (source its).length ∧ parseItem (source its) st = some st' ∧
        st.item = i ∧ 1 ≤ st.item ∧ st.item ≤ (source its).count ':' ∧
        st.nodes.length = (source its).count ':' + 1 ∧
        st.stack.length = 8 ∧ st.curLevel = level its i ∧ st.stackPtr = 8 - level its i ∧
        st.stackPtr ≤ 7 ∧ st'.curLevel = level its (i + 1) ∧
        (st'.curLevel > st.curLevel → 1 ≤ st.stackPtr ∧ st.stackPtr - 1 ≤ 7) ∧
        (st'.curLevel < st.curLevel → st.stackPtr + (st.curLevel - st'.curLevel) - 1 ≤ 7) := by
  have hcount := count_colon_source its h.2.1
  obtain ⟨hhead, hwf, hrise⟩ := h
  cases its with
  | nil => simp at hhead
  | cons it rest =>
    have hd : it.dashes = 1 := by simpa using hhead
    have inv := parseStart_inv it rest hd hwf
    obtain ⟨hloop, stN, hN, hend⟩ := parseLoop_steps (it :: rest) hwf hrise rest [] it _
      ((source (it :: rest)).length + 1) rfl inv (by
        have := length_le_source (it :: rest); simp at this; omega)
    have hlenN : (it :: rest).length = rest.length + 1 := rfl
    refine ⟨hcount, ?_, ⟨stN, by rw [hlenN]; exact hN, hend⟩, fun i h1 h2 => ?_⟩
    · rw [menuParse_start, hloop, hlenN]
    · obtain ⟨st, done, it', rest', a, b, c, d⟩ := parseSteps_inv (it :: rest) hwf hrise (i - 1)
        [] it rest _ rfl inv (by simp at h2; omega)
      simp only [List.length_nil, Nat.zero_add] at c
      obtain ⟨hlt, st', e1, e2, -, -⟩ := parseItem_next (it :: rest) hwf hrise done it' rest' st b d
      have hw : it'.wf := hwf it' (by rw [b]; simp)
      have hlev : level (it :: rest) i = it'.dashes := by
        have := level_split done it' rest'
        rw [← b, c] at this
        have e : i - 1 + 1 = i := by omega
        rw [e] at this; exact this
      have hnext : st'.curLevel = level (it :: rest) (i + 1) := by
        rw [e2, c]
        have e : i - 1 + 2 = i + 1 := by omega
        rw [e]
      have h8 : st'.curLevel ≤ 8 := by
        rw [hnext]
        exact level_le_eight (it :: rest) ⟨hhead, hwf, hrise⟩ (i + 1)
      have hlen : (it :: rest).length = done.length + 1 + rest'.length := by
        rw [b]; simp; omega
      have hnodes : st.nodes.length = (source (it :: rest)).count ':' + 1 := by
        rw [hcount, d.nodes, hlen]; simp; omega
      have hitem : st.item = i := by rw [d.item, c]; omega
      have hcur : st.curLevel = level (it :: rest) i := by rw [d.cur, hlev]
      have hsp : st.stackPtr = 8 - level (it :: rest) i := by rw [d.sp, hlev]
      have hL1 : 1 ≤ level (it :: rest) i := by rw [hlev]; exact hw.1
      refine ⟨st, st', a, hlt, e1, hitem, by omega, by rw [hcount, hitem]; exact h2, hnodes,
        d.slen, hcur, hsp, by omega, hnext, fun hgt => ?_, fun hlt' => ?_⟩
      · omega
      · omega

/-- C25, witness: the scenario menu. -/
theorem C25_stack_bounds_witness :
    WellFormed scenario ∧
    ((source scenario).count ':' = scenario.length ∧
    menuParse (source scenario) (parseStart (source scenario)).nodes
      = (parseSteps (source scenario) scenario.length (parseStart (source scenario))).map
          (fun st => (st.nodes, st.item - 1)) ∧
    (∃ st, parseSteps (source scenario) scenario.length (parseStart (source scenario)) = some st ∧
      ¬ st.pos < (source scenario).length) ∧
    ∀ i, 1 ≤ i → i ≤ scenario.length →
      ∃ st st', parseSteps (source scenario) (i - 1) (parseStart (source scenario)) = some st ∧
        st.pos < (source scenario).length ∧ parseItem (source scenario) st = some st' ∧
        st.item = i ∧ 1 ≤ st.item ∧ st.item ≤ (source scenario).count ':' ∧
        st.nodes.length = (source scenario).count ':' + 1 ∧
        st.stack.length = 8 ∧ st.curLevel = level scenario i ∧
        st.stackPtr = 8 - level scenario i ∧
        st.stackPtr ≤ 7 ∧ st'.curLevel = level scenario (i + 1) ∧
        (st'.curLevel > st.curLevel → 1 ≤ st.stackPtr ∧ st.stackPtr - 1 ≤ 7) ∧
        (st'.curLevel < st.curLevel →
          st.stackPtr + (st.curLevel - st'.curLevel) - 1 ≤ 7)) :=
  ⟨by decide, C25_stack_bounds scenario (by decide)⟩

/-- C26: the release reset of `readKeyWithRepeat`, on the static variables `repeating`,
`chrono`, `key`.  In every iteration of the loop, once the wait before the sample is over,
a sample that reads 0 makes the call return at once the value sampled just before, with
`key = 0` and `repeating = false`.  For the whole call: when it returns, no sample taken in the
loop before the last one is 0, and when the last one is 0 the value returned is the sample
before it and the state is reset.  When every sample is 0 and the clock gets past any wait,
the call returns 0 after one sample in the loop.  With the clock `millis() = 0, 1, 2, ...`,
`sensitivity = 3` and no key down, the first call returns 0 after two samples. -/
theorem C26_release_reset (readKey : Nat → Int) (millis : Nat → Nat)
    (delayForRepeat sensitivity : Int) (st : RepeatState) (nk nm : Nat) :
    (∀ fuel tempKey nm1,
      (if st.repeating then some nm
        else waitLoop millis st.chrono sensitivity (fuel + 1) nm) = some nm1 →
      readKey nk = 0 →
      repeatLoop readKey millis delayForRepeat sensitivity (fuel + 1) st tempKey nk nm
        = some (tempKey, ⟨false, millis nm1 % 4294967296, 0⟩, nk + 1, nm1 + 1)) ∧
    (∀ fuel k st' nk' nm',
      readKeyWithRepeat readKey millis delayForRepeat sensitivity fuel st nk nm
        = some (k, st', nk', nm') →
      nk + 2 ≤ nk' ∧ (∀ i, nk < i → i + 1 < nk' → readKey i ≠ 0) ∧
        (readKey (nk' - 1) = 0 →
          k = readKey (nk' - 2) ∧ st'.key = 0 ∧ st'.repeating = false)) ∧
    ((∀ i, readKey i = 0) →
      (∀ c n, ∃ j, toULong sensitivity ≤ elapsed (millis (n + j)) c) →
      ∃ fuel0, ∀ fuel, fuel0 ≤ fuel → ∃ st' nm',
        readKeyWithRepeat readKey millis delayForRepeat sensitivity fuel st nk nm
          = some (0, st', nk + 2, nm') ∧ st'.key = 0 ∧ st'.repeating = false) ∧
    readKeyWithRepeat (fun _ => 0) (fun n => n) 10 3 5 RepeatState.init 0 0
      = some (0, ⟨false, 4, 0⟩, 2, 5) := by
  refine ⟨fun fuel tempKey nm1 hw h0 => repeatLoop_release readKey millis delayForRepeat
    sensitivity fuel st tempKey nk nm nm1 hw h0, ?_, ?_, by decide⟩
  · intro fuel k st' nk' nm' h
    have hgen : ∀ s n, repeatLoop readKey millis delayForRepeat sensitivity fuel s (readKey nk)
        (nk + 1) n = some (k, st', nk', nm') →
        nk + 2 ≤ nk' ∧ (∀ i, nk < i → i + 1 < nk' → readKey i ≠ 0) ∧
          (readKey (nk' - 1) = 0 →
            k = readKey (nk' - 2) ∧ st'.key = 0 ∧ st'.repeating = false) := by
      intro s n hs
      obtain ⟨a, b, c, -⟩ := repeatLoop_returned readKey millis delayForRepeat sensitivity fuel s
        (readKey nk) (nk + 1) n k st' nk' nm' hs
      refine ⟨by omega, fun i x y => b i (by omega) y, fun hz => ?_⟩
      obtain ⟨c1, c2, c3⟩ := c hz
      refine ⟨?_, c1, c2⟩
      rw [c3]
      split_ifs with he
      · have : nk' - 2 = nk := by omega
        rw [this]
      · rfl
    simp only [readKeyWithRepeat] at h
    split_ifs at h
    · exact hgen _ _ h
    · exact hgen _ _ h
  · intro hzero hclock
    have h0 := hzero nk
    have hrel : ∀ (s : RepeatState) (n : Nat), ∃ fuel0, ∀ fuel, fuel0 ≤ fuel → ∃ st' nm',
        repeatLoop readKey millis delayForRepeat sensitivity fuel s 0 (nk + 1) n
          = some (0, st', nk + 2, nm') ∧ st'.key = 0 ∧ st'.repeating = false := by
      intro s n
      by_cases hrep : s.repeating = true
      · refine ⟨1, fun fuel hf => ?_⟩
        obtain ⟨f, rfl⟩ : ∃ f, fuel = f + 1 := ⟨fuel - 1, by omega⟩
        exact ⟨_, _, repeatLoop_release readKey millis delayForRepeat sensitivity f s 0
          (nk + 1) n n (by simp only [hrep, if_true]) (hzero _), rfl, rfl⟩
      · obtain ⟨d, hd⟩ := hclock s.chrono n
        refine ⟨d + 1, fun fuel hf => ?_⟩
        obtain ⟨f, rfl⟩ : ∃ f, fuel = f + 1 := ⟨fuel - 1, by omega⟩
        obtain ⟨nm1, h1, -, -⟩ := waitLoop_ends millis s.chrono sensitivity d n hd (f + 1)
          (by omega)
        exact ⟨_, _, repeatLoop_release readKey millis delayForRepeat sensitivity f s 0
          (nk + 1) n nm1 (by simp only [hrep, h1]; rfl) (hzero _), rfl, rfl⟩
    by_cases hk : (0 : Int) ≠ st.key
    · obtain ⟨fuel0, hf⟩ := hrel ⟨st.repeating, millis nm % 4294967296, st.key⟩ (nm + 1)
      refine ⟨fuel0, fun fuel hle => ?_⟩
      obtain ⟨st', nm', a, b, c⟩ := hf fuel hle
      exact ⟨st', nm', by simp only [readKeyWithRepeat, h0]; rw [if_pos hk]; exact a, b, c⟩
    · obtain ⟨fuel0, hf⟩ := hrel st nm
      refine ⟨fuel0, fun fuel hle => ?_⟩
      obtain ⟨st', nm', a, b, c⟩ := hf fuel hle
      exact ⟨st', nm', by simp only [readKeyWithRepeat, h0]; rw [if_neg hk]; exact a, b, c⟩

/-- C27 as stated fails on the 256-item source `wide 254` at node 256: the stored
`eldest(255)` is 0, so `previousSibling(256)` leaves the function without a `return` and the
loop of `rank(256)` does not end; neither has a value to compare with node 256. -/
theorem C27_counterexample :
    WellFormed (wide 254) ∧
      ∃ m, Menu.construct (source (wide 254)) = some m ∧ m.lastNode = 256 ∧
        m.nextSibling 256 = some 256 ∧
        (¬ ∃ p, m.previousSibling 256 = some p) ∧ ¬ ∃ k, m.rank 256 = some k := by
  obtain ⟨m, hc, hm, -⟩ := construct_compiled (wide 254) (wide_wf 254)
  obtain ⟨hlen, hl, hp, hp256, he, he0, hp0, -⟩ := wide_compiled 254 m hm
  have h1 := parent_some m hlen 256 (by omega)
  have h2 := eldest_some m hlen 255 (by omega)
  have hb1 : toByte (254 + 1) = 255 := by decide
  have hb2 : toByte (254 + 2) = 0 := by decide
  rw [hp256, hb1] at h1
  rw [he, hb2] at h2
  have hnone : m.prevLoop 256 255 = none := by
    apply prevLoop_none m hlen 256 (by omega) 255 (by omega)
    intro j a b
    rw [hp j a (by omega), hp256, hb1]; omega
  have hprev : m.previousSibling 256 = none := by
    simp only [Menu.previousSibling, h1, h2]
    exact hnone
  have hrank : m.rank 256 = none := by
    simp only [Menu.rank, h1, h2]
    exact rankLoop_other m hlen 256 _ 0 1 (by omega) (by rw [hp0, hp256, hb1]; omega)
  refine ⟨wide_wf 254, m, hc, hl, nextSibling_past m 256 (by omega), ?_, ?_⟩
  · rintro ⟨p, h⟩; rw [hprev] at h; exact absurd h (by simp)
  · rintro ⟨k, h⟩; rw [hrank] at h; exact absurd h (by simp)

/-- C27, amended: for every tree compiled from a well-formed source of at most 255 items and
every node `n` in `[1, lastNode]`, `nextSibling(n)` and `previousSibling(n)` return; if
`nextSibling(n) != n` then `previousSibling(nextSibling(n)) = n` and
`rank(nextSibling(n)) = rank(n) + 1`, and if `previousSibling(n) != n` then
`nextSibling(previousSibling(n)) = n`. -/
theorem C27_up_down_inverse (its : List Item) (h : WellFormed its) (hN : its.length ≤ 255) :
    ∃ m, Menu.construct (source its) = some m ∧
      ∀ n, 1 ≤ n → n ≤ m.lastNode →
        ∃ r p, m.nextSibling n = some r ∧ m.previousSibling n = some p ∧
          (r ≠ n → m.previousSibling r = some n ∧
            ∃ k, m.rank n = some k ∧ m.rank r = some (k + 1)) ∧
          (p ≠ n → m.nextSibling p = some n) := by
  obtain ⟨m, hc, hm, -⟩ := construct_compiled its h
  have ok := treeOK_compiled its h hN m hm
  refine ⟨m, hc, fun n h1 h2 => ?_⟩
  obtain ⟨r, hr, hcase⟩ := nextSibling_spec m ok.len n h2
  have hnext : r ≠ n → m.previousSibling r = some n ∧
      ∃ k, m.rank n = some k ∧ m.rank r = some (k + 1) := by
    intro hne
    rcases hcase with ⟨a, b, c, d⟩ | ⟨a, -⟩
    · exact ⟨previous_of_next m ok n r h1 a b c d, rank_next m ok n r h1 a b c d⟩
    · exact absurd a hne
  by_cases he : m.eld (m.par n) = n
  · have hlt := ok.par_lt n h1 h2
    have hp := parent_some m ok.len n h2
    have hel := eldest_some m ok.len (m.par n) (by omega)
    refine ⟨r, n, hr, ?_, hnext, fun hne => absurd rfl hne⟩
    simp only [Menu.previousSibling, hp, hel, he, if_true]
  · obtain ⟨q, hq, q1, q2, q3, q4⟩ := previousSibling_max m ok n h1 h2 he
    exact ⟨r, q, hr, hq, hnext, fun _ => next_of_previous m ok n q q2 h2 q3 q4⟩

/-- C27, witness: the scenario menu. -/
theorem C27_up_down_inverse_witness :
    WellFormed scenario ∧ scenario.length ≤ 255 ∧
    ∃ m, Menu.construct (source scenario) = some m ∧
      ∀ n, 1 ≤ n → n ≤ m.lastNode →
        ∃ r p, m.nextSibling n = some r ∧ m.previousSibling n = some p ∧
          (r ≠ n → m.previousSibling r = some n ∧
            ∃ k, m.rank n = some k ∧ m.rank r = some (k + 1)) ∧
          (p ≠ n → m.nextSibling p = some n) :=
  ⟨by decide, by decide, C27_up_down_inverse scenario (by decide) (by decide)⟩

/-- C28 as stated fails on the 256-item source `wide 254`: 254 calls `update(DOWN)` and one
call `update(RIGHT)` from the initial state leave the cursor at 0, the stored `eldest(255)`;
the value 0 is reachable and is not a node of `[1, lastNode]`. -/
theorem C28_counterexample :
    WellFormed (wide 254) ∧
      ∃ m, Menu.construct (source (wide 254)) = some m ∧ m.lastNode = 256 ∧
        (∃ calls m', m.run calls = some m' ∧ m'.currentNode = 0) ∧
        ¬ (1 ≤ 0 ∧ 0 ≤ m.lastNode ∧ m.enterable 0) := by
  obtain ⟨m, hc, hm, h1, hh, -⟩ := construct_compiled (wide 254) (wide_wf 254)
  obtain ⟨m1, hr, hm1, hc1, hh1⟩ := wide_down_run 254 m hm (by omega) (by omega) hh
  rw [h1] at hc1
  have hright := wide_right_wraps m1 hm1 hc1 hh1
  obtain ⟨-, hl, -⟩ := wide_compiled 254 m hm
  refine ⟨wide_wf 254, m, hc, hl,
    ⟨List.replicate 254 (Call.update DOWN) ++ [Call.update RIGHT],
      { m1 with currentNode := 0, lcdNeedsUpdate := true }, ?_, rfl⟩, fun h => absurd h.1 (by decide)⟩
  rw [run_append, hr]
  simp only [Option.some_bind, Menu.run, hright]

/-- C28, amended: for every tree compiled from a well-formed source of at most 255 items, a
value `c` is the cursor after some finite sequence of `update(key)` and `restart()` calls from
the state the constructor leaves exactly when `c` is a node of `[1, lastNode]` all of whose
proper ancestors have action 0; so a node whose parent carries a non-zero action is never the
current item. -/
theorem C28_reachable (its : List Item) (h : WellFormed its) (hN : its.length ≤ 255) :
    ∃ m, Menu.construct (source its) = some m ∧
      (∀ c, (∃ calls m', m.run calls = some m' ∧ m'.currentNode = c) ↔
        (1 ≤ c ∧ c ≤ m.lastNode ∧ m.enterable c)) ∧
      (∀ c, 1 ≤ c → c ≤ m.lastNode → m.act (m.par c) ≠ 0 →
        ¬ ∃ calls m', m.run calls = some m' ∧ m'.currentNode = c) := by
  obtain ⟨m, hc, hm, h1, -, -⟩ := construct_compiled its h
  have nav := navOK_compiled its h hN m hm
  obtain ⟨-, hn, -⟩ := compiled_fields its h m hm
  have hen1 : m.enterable m.currentNode := by
    rw [h1]; exact enterable_top m nav.par0 1 nav.ok.first
  have hfwd : ∀ c, (∃ calls m', m.run calls = some m' ∧ m'.currentNode = c) →
      1 ≤ c ∧ c ≤ m.lastNode ∧ m.enterable c := by
    rintro c ⟨calls, m', hr, hcur⟩
    obtain ⟨m2, hr2, -, a, b, e⟩ := run_enterable calls m nav (by omega)
      (by rw [h1]; exact nav.ok.one) hen1
    rw [hr] at hr2
    obtain rfl : m' = m2 := Option.some.inj hr2
    rw [← hcur]
    exact ⟨a, b, e⟩
  refine ⟨m, hc, fun c => ⟨hfwd c, ?_⟩, fun c c1 c2 hact hreach => ?_⟩
  · rintro ⟨c1, c2, c3⟩
    obtain ⟨calls, m', hr, -, g⟩ := reach m nav h1 c c1 c2 c3
    exact ⟨calls, m', hr, g⟩
  · obtain ⟨-, -, hen⟩ := hfwd c hreach
    by_cases hp : m.par c = 0
    · rw [hp] at hact
      exact hact (by simp [Menu.act, hn, expNodes])
    · exact hact (enterable_parent_act m c hen hp)

/-- C28, witness: the scenario menu. -/
theorem C28_reachable_witness :
    WellFormed scenario ∧ scenario.length ≤ 255 ∧
    ∃ m, Menu.construct (source scenario) = some m ∧
      (∀ c, (∃ calls m', m.run calls = some m' ∧ m'.currentNode = c) ↔
        (1 ≤ c ∧ c ≤ m.lastNode ∧ m.enterable c)) ∧
      (∀ c, 1 ≤ c → c ≤ m.lastNode → m.act (m.par c) ≠ 0 →
        ¬ ∃ calls m', m.run calls = some m' ∧ m'.currentNode = c) :=
  ⟨by decide, by decide, C28_reachable scenario (by decide) (by decide)⟩

/-- C29: the fields `parent` and `eldest` of a node are one byte each, and what the compiler
stores is the index reduced modulo 256: for every well-formed source and every node `n`, the
stored parent is the index of the enclosing item modulo 256, and the stored eldest child is
`(n + 1) mod 256` when item `n + 1` is deeper than item `n` (1 otherwise).  With at most 255
items both are the exact indices.  In the 256-item source `wide 254` node 255 is followed by
its child, node 256, and its stored eldest child is 0, not 256. -/
theorem C29_byte_fields :
    (∀ its, WellFormed its → ∃ m, Menu.construct (source its) = some m ∧
      ∀ n, 1 ≤ n → n ≤ m.lastNode →
        m.parent n = some (encl its n % 256) ∧
        m.eldest n = some (if level its (n + 1) > level its n then (n + 1) % 256 else 1)) ∧
    (∀ its, WellFormed its → its.length ≤ 255 → ∃ m, Menu.construct (source its) = some m ∧
      ∀ n, 1 ≤ n → n ≤ m.lastNode →
        m.parent n = some (encl its n) ∧
        m.eldest n = some (if level its (n + 1) > level its n then n + 1 else 1)) ∧
    (WellFormed (wide 254) ∧ (wide 254).length = 256 ∧
      ∃ m, Menu.construct (source (wide 254)) = some m ∧
        level (wide 254) 256 > level (wide 254) 255 ∧ encl (wide 254) 256 = 255 ∧
        m.parent 256 = some 255 ∧ m.eldest 255 = some 0) := by
  have hall : ∀ its, WellFormed its → ∃ m, Menu.construct (source its) = some m ∧
      m.lastNode = its.length ∧
      ∀ n, 1 ≤ n → n ≤ m.lastNode →
        m.parent n = some (encl its n % 256) ∧
        m.eldest n = some (if level its (n + 1) > level its n then (n + 1) % 256 else 1) := by
    intro its h
    obtain ⟨m, hc, hm, -⟩ := construct_compiled its h
    obtain ⟨-, hn, hl⟩ := compiled_fields its h m hm
    have hlen : m.nodes.length = m.lastNode + 1 := by rw [hn, hl, expNodes_length]
    refine ⟨m, hc, hl, fun n h1 h2 => ?_⟩
    rw [parent_some m hlen n h2, eldest_some m hlen n h2,
      par_compiled its h m hm n h1 (by omega), eld_compiled its h m hm n h1 (by omega)]
    exact ⟨rfl, rfl⟩
  refine ⟨fun its h => ?_, fun its h hN => ?_, wide_wf 254, wide_length 254, ?_⟩
  · obtain ⟨m, hc, -, hx⟩ := hall its h
    exact ⟨m, hc, hx⟩
  · obtain ⟨m, hc, hl, hx⟩ := hall its h
    refine ⟨m, hc, fun n h1 h2 => ?_⟩
    obtain ⟨a, b⟩ := hx n h1 h2
    have he := encl_lt its n h1
    have e1 : encl its n % 256 = encl its n := by omega
    rw [e1] at a
    refine ⟨a, ?_⟩
    rw [b]
    split_ifs with hd
    · have := (deeper_next its h n h1 hd).1
      have e2 : (n + 1) % 256 = n + 1 := by omega
      rw [e2]
    · rfl
  · obtain ⟨m, hc, -, hx⟩ := hall (wide 254) (wide_wf 254)
    obtain ⟨m', hc', hm', -⟩ := construct_compiled (wide 254) (wide_wf 254)
    rw [hc] at hc'
    obtain rfl : m = m' := Option.some.inj hc'
    obtain ⟨hlen, hl, -, hp, he, -⟩ := wide_compiled 254 m hm'
    have l1 := level_wide_child 254
    have l2 := level_wide_top 254 255 (by omega) (by omega)
    have hb1 : toByte (254 + 1) = 255 := by decide
    have hb2 : toByte (254 + 2) = 0 := by decide
    have hp' : m.parent 256 = some 255 := by
      rw [parent_some m hlen 256 (by omega), hp, hb1]
    have he' : m.eldest 255 = some 0 := by
      rw [eldest_some m hlen 255 (by omega), he, hb2]
    refine ⟨m, hc, by rw [l1, l2]; omega, ?_, hp', he'⟩
    have henc := encl_child (level (wide 254)) 255 (by rw [l1, l2])
    exact henc

end MenuV2
